import Mathlib

/-!
Verification of the core algorithms of the `aks-go` repository: the AKS
primality test's number-theoretic support (integer k-th floor root via
Newton iteration, trial division with a mod-30 wheel, multiplicative
order, choice of the AKS modulus) and its polynomial engines
(`WordPoly` over 32-bit words and the Kronecker-packed `bigIntPoly`).

Each Go function used by the claims is translated into an executable
Lean definition over `ℕ` (machine words carry explicit `% 2^32` /
`% 2^64` reductions where the Go code truncates; `math/big` integers
are unbounded, so they become plain `ℕ`; functions that panic return
`Option`).
-/

namespace AKS

/-- Binary length, with structural fuel (the first argument, always
called with `fuel = n`, which suffices since `n / 2 < n`):
`bitLen n = ⌊lg n⌋ + 1` for `n ≥ 1` and `0` for `n = 0`.  This is
exactly Go's `big.Int.BitLen`. -/
def bitLenAux : ℕ → ℕ → ℕ
  | 0, _ => 0
  | fuel + 1, n => if n = 0 then 0 else bitLenAux fuel (n / 2) + 1

/-- Go's `BitLen` for non-negative integers. -/
def bitLen (n : ℕ) : ℕ := bitLenAux n n

lemma bitLenAux_congr : ∀ (f1 f2 n : ℕ), n ≤ f1 → n ≤ f2 →
    bitLenAux f1 n = bitLenAux f2 n := by
  intro f1
  induction f1 with
  | zero =>
    intro f2 n h1 _
    have : n = 0 := by omega
    subst this
    cases f2 with
    | zero => rfl
    | succ f2 => simp [bitLenAux]
  | succ f1 ih =>
    intro f2 n h1 h2
    cases f2 with
    | zero =>
      have : n = 0 := by omega
      subst this
      simp [bitLenAux]
    | succ f2 =>
      simp only [bitLenAux]
      by_cases h0 : n = 0
      · simp [h0]
      · simp only [h0, if_false]
        have hlt : n / 2 < n := Nat.div_lt_self (by omega) (by omega)
        rw [ih f2 (n / 2) (by omega) (by omega)]

lemma bitLen_eq (n : ℕ) (h : n ≠ 0) : bitLen n = bitLen (n / 2) + 1 := by
  cases n with
  | zero => omega
  | succ m =>
    show bitLenAux (m + 1) (m + 1) = bitLen ((m + 1) / 2) + 1
    simp only [bitLenAux, Nat.succ_ne_zero, if_false]
    congr 1
    exact bitLenAux_congr m ((m + 1) / 2) ((m + 1) / 2) (by omega) le_rfl

lemma bitLen_zero : bitLen 0 = 0 := rfl

/-- `n < 2 ^ bitLen n` (Go: a `BitLen`-bit number). -/
lemma lt_two_pow_bitLen : ∀ n : ℕ, n < 2 ^ bitLen n := by
  intro n
  induction n using Nat.strong_induction_on with
  | _ n ih =>
    by_cases h0 : n = 0
    · subst h0
      rw [bitLen_zero]
      omega
    · rw [bitLen_eq n h0, pow_succ]
      have hlt : n / 2 < n := Nat.div_lt_self (by omega) (by omega)
      have := ih (n / 2) hlt
      omega

/-- For `n ≥ 1`, `2 ^ (bitLen n - 1) ≤ n`. -/
lemma two_pow_bitLen_pred_le : ∀ n : ℕ, 1 ≤ n → 2 ^ (bitLen n - 1) ≤ n := by
  intro n
  induction n using Nat.strong_induction_on with
  | _ n ih =>
    intro h1
    by_cases h2 : n / 2 = 0
    · have : n = 1 := by omega
      subst this
      rw [bitLen_eq 1 (by omega)]
      simp [bitLen_zero]
    · rw [bitLen_eq n (by omega)]
      have hlt : n / 2 < n := Nat.div_lt_self (by omega) (by omega)
      have ihh := ih (n / 2) hlt (by omega)
      have hb1 : 1 ≤ bitLen (n / 2) := by
        by_contra hb
        push_neg at hb
        interval_cases hbl : bitLen (n / 2)
        · have := lt_two_pow_bitLen (n / 2)
          rw [hbl] at this
          omega
      have : bitLen (n / 2) + 1 - 1 = bitLen (n / 2) - 1 + 1 := by omega
      rw [this, pow_succ]
      omega

/-- Number of 64-bit limbs in the `math/big` representation of `v`,
i.e. `len(v.Bits())`: `0` for `v = 0`, otherwise `⌈bitlen v / 64⌉`. -/
def wordsOf (v : ℕ) : ℕ :=
  (bitLen v + 63) / 64

/-- `v < 2 ^ (64 · wordsOf v)`: a value fits in its limbs. -/
lemma lt_two_pow_wordsOf (v : ℕ) : v < 2 ^ (64 * wordsOf v) := by
  have h1 : v < 2 ^ bitLen v := lt_two_pow_bitLen v
  have h2 : bitLen v ≤ 64 * wordsOf v := by
    rw [wordsOf]
    omega
  exact lt_of_lt_of_le h1 (Nat.pow_le_pow_right (by omega) h2)

/-! ## floorRoot (arith.go `FloorRoot`, part_005 `floorRoot`; the two are
textually identical) -/

/-- The Newton-iteration loop of `floorRoot`: while `y > 1`, compute
`z = ⌊((k-1)·y + ⌊x / y^(k-1)⌋) / k⌋`; return `y` as soon as `z ≥ y`,
otherwise continue from `z`.  Falling out of the loop returns `1`. -/
def floorRootLoop (x k : ℕ) (y : ℕ) : ℕ :=
  if h : 1 < y then
    let z := ((k - 1) * y + x / y ^ (k - 1)) / k
    if y ≤ z then y else floorRootLoop x k z
  else 1
termination_by y
decreasing_by
  simp only [not_le] at *
  omega

/-- `floorRoot x k`: the Go function panics for `k ≤ 0` (modelled as
`none`); for `x = 0` it returns `0`; otherwise it runs Newton iteration
starting from `y₀ = 2 ^ ⌈(⌊lg x⌋ + 1) / k⌉ = 2 ^ ⌈bitLen x / k⌉`. -/
def floorRoot (x k : ℕ) : Option ℕ :=
  if k = 0 then none
  else if x = 0 then some 0
  else
    let bl := bitLen x
    let p := bl / k + (if bl % k = 0 then 0 else 1)
    some (floorRootLoop x k (2 ^ p))

/-- Rearrangement inequality used by the AM–GM step:
`r·y^(m+1) + y·r^(m+1) ≤ y^(m+2) + r^(m+2)`. -/
lemma mul_pow_add_le_pow_add_pow (y r m : ℕ) :
    r * y ^ (m + 1) + y * r ^ (m + 1) ≤ y ^ (m + 2) + r ^ (m + 2) := by
  rcases le_total r y with hry | hyr
  · have hp : r ^ (m + 1) ≤ y ^ (m + 1) := Nat.pow_le_pow_left hry _
    have := mul_add_mul_le_mul_add_mul hry hp
    calc r * y ^ (m + 1) + y * r ^ (m + 1)
        ≤ r * r ^ (m + 1) + y * y ^ (m + 1) := this
      _ = y ^ (m + 2) + r ^ (m + 2) := by ring
  · have hp : y ^ (m + 1) ≤ r ^ (m + 1) := Nat.pow_le_pow_left hyr _
    have := mul_add_mul_le_mul_add_mul hyr hp
    calc r * y ^ (m + 1) + y * r ^ (m + 1)
        = y * r ^ (m + 1) + r * y ^ (m + 1) := by ring
      _ ≤ y * y ^ (m + 1) + r * r ^ (m + 1) := this
      _ = y ^ (m + 2) + r ^ (m + 2) := by ring

/-- Integer AM–GM, two-value form: `(k+1)·(r·y^k) ≤ k·y^(k+1) + r^(k+1)`. -/
lemma amgm_two (k y r : ℕ) :
    (k + 1) * (r * y ^ k) ≤ k * y ^ (k + 1) + r ^ (k + 1) := by
  induction k with
  | zero => simp
  | succ k ih =>
    have h1 : (k + 1) * (r * y ^ k) * y ≤ (k * y ^ (k + 1) + r ^ (k + 1)) * y :=
      Nat.mul_le_mul_right y ih
    have h2 := mul_pow_add_le_pow_add_pow y r k
    calc (k + 1 + 1) * (r * y ^ (k + 1))
        = (k + 1) * (r * y ^ k) * y + r * y ^ (k + 1) := by ring
      _ ≤ (k * y ^ (k + 1) + r ^ (k + 1)) * y + r * y ^ (k + 1) := by
          exact Nat.add_le_add_right h1 _
      _ = k * y ^ (k + 2) + (r * y ^ (k + 1) + y * r ^ (k + 1)) := by ring
      _ ≤ k * y ^ (k + 2) + (y ^ (k + 2) + r ^ (k + 2)) := by
          exact Nat.add_le_add_left h2 _
      _ = (k + 1) * y ^ (k + 2) + r ^ (k + 2) := by ring

/-- Downward step of Newton iteration never undershoots the root: if
`r^k ≤ x` and `y ≥ 1`, then `z = ((k-1)·y + x / y^(k-1)) / k ≥ r`. -/
lemma newton_step_ge (x k y r : ℕ) (hk : 1 ≤ k) (hy : 1 ≤ y)
    (hr : r ^ k ≤ x) :
    r ≤ ((k - 1) * y + x / y ^ (k - 1)) / k := by
  rw [Nat.le_div_iff_mul_le (by omega : 0 < k)]
  by_cases hcase : r * k ≤ (k - 1) * y
  · exact le_trans hcase (Nat.le_add_right _ _)
  · -- the floor term contributes at least `m = k·r − (k−1)·y`
    push_neg at hcase
    set m := r * k - (k - 1) * y with hm
    have hmpos : (k - 1) * y + m = r * k := by omega
    -- from AM–GM: m * y^(k-1) ≤ r^k
    obtain ⟨k', rfl⟩ : ∃ k', k = k' + 1 := ⟨k - 1, by omega⟩
    have hamgm := amgm_two k' y r
    have hsplit : (k' + 1) * (r * y ^ k') = k' * y ^ (k' + 1) + m * y ^ k' := by
      have : (k' + 1) * (r * y ^ k') = (r * (k' + 1)) * y ^ k' := by ring
      rw [this]
      have h2 : (k' + 1 - 1) * y + m = r * (k' + 1) := hmpos
      have h3 : k' * y + m = r * (k' + 1) := by simpa using h2
      calc (r * (k' + 1)) * y ^ k' = (k' * y + m) * y ^ k' := by rw [h3]
        _ = k' * y ^ (k' + 1) + m * y ^ k' := by ring
    have hmy : m * y ^ k' ≤ r ^ (k' + 1) := by
      have := hamgm
      rw [hsplit] at this
      omega
    have hdivle : m ≤ x / y ^ k' := by
      rw [Nat.le_div_iff_mul_le (Nat.pos_pow_of_pos _ hy)]
      exact le_trans hmy hr
    have : (k' + 1 - 1) * y + m ≤ (k' + 1 - 1) * y + x / y ^ (k' + 1 - 1) :=
      Nat.add_le_add_left (by simpa using hdivle) _
    omega

/-- Upward stopping: if `x < y^k` (so `y` overshoots the root) and
`y ≥ 1`, the Newton step strictly decreases: `z < y`. -/
lemma newton_step_lt (x k y : ℕ) (hk : 1 ≤ k) (hy : 1 ≤ y)
    (hx : x < y ^ k) :
    ((k - 1) * y + x / y ^ (k - 1)) / k < y := by
  rw [Nat.div_lt_iff_lt_mul (by omega : 0 < k)]
  have hdiv : x / y ^ (k - 1) < y := by
    rw [Nat.div_lt_iff_lt_mul (Nat.pos_pow_of_pos _ hy)]
    calc x < y ^ k := hx
      _ = y * y ^ (k - 1) := by
          conv_lhs => rw [show k = 1 + (k - 1) by omega]
          rw [pow_add, pow_one]
  calc (k - 1) * y + x / y ^ (k - 1) < (k - 1) * y + y := by omega
    _ = k * y := by
        have : k - 1 + 1 = k := by omega
        calc (k - 1) * y + y = (k - 1 + 1) * y := by ring
          _ = k * y := by rw [this]
    _ ≤ y * k := by rw [Nat.mul_comm]

/-- The Newton loop, started at or above the true floor root `r`
(characterised by `r^k ≤ x < (r+1)^k`), converges to exactly `r`. -/
lemma floorRootLoop_eq (x k r : ℕ) (hk : 1 ≤ k) (hx : 1 ≤ x)
    (hr1 : r ^ k ≤ x) (hr2 : x < (r + 1) ^ k) :
    ∀ y, r ≤ y → floorRootLoop x k y = r := by
  intro y
  induction y using Nat.strong_induction_on with
  | _ y ih =>
    intro hy
    rw [floorRootLoop]
    split
    · next h1y =>
      set z := ((k - 1) * y + x / y ^ (k - 1)) / k with hz
      by_cases hyz : y ≤ z
      · simp only [hyz, if_true]
        -- y ≤ z forces y ≤ r, hence y = r
        by_contra hne
        have hry : r < y := by
          rcases Nat.lt_or_ge r y with h | h
          · exact h
          · omega
        have hxy : x < y ^ k :=
          lt_of_lt_of_le hr2 (Nat.pow_le_pow_left (by omega) _)
        have := newton_step_lt x k y hk (by omega) hxy
        omega
      · simp only [hyz, if_false]
        have hzr : r ≤ z := newton_step_ge x k y r hk (by omega) hr1
        have hzy : z < y := by omega
        exact ih z hzy hzr
    · next h1y =>
      -- y ≤ 1 and r ≤ y; since x ≥ 1 we have r ≥ ... r ≤ 1; also r ≠ 0
      have hr0 : r ≠ 0 := by
        intro h0
        rw [h0] at hr2
        simp at hr2
        omega
      omega

/-- Functional characterisation of `floorRoot` for `x ≥ 1, k ≥ 1`:
it returns the greatest `y` with `y^k ≤ x`. -/
lemma floorRoot_spec (x k : ℕ) (hk : 1 ≤ k) :
    ∃ y, floorRoot x k = some y ∧ y ^ k ≤ x ∧ ∀ z, z ^ k ≤ x → z ≤ y := by
  by_cases hx : x = 0
  · subst hx
    refine ⟨0, ?_, ?_, ?_⟩
    · have hk0 : k ≠ 0 := by omega
      simp [floorRoot, hk0]
    · have : (0 : ℕ) ^ k = 0 := Nat.zero_pow (by omega)
      omega
    · intro z hz
      rw [Nat.le_zero, pow_eq_zero_iff (by omega : k ≠ 0)] at hz
      omega
  · have hx1 : 1 ≤ x := by omega
    -- the true floor root
    set r := Nat.findGreatest (fun y => y ^ k ≤ x) x with hrdef
    have hr1 : r ^ k ≤ x := by
      have := Nat.findGreatest_spec (m := 1) (P := fun y => y ^ k ≤ x)
        hx1 (by simpa using hx1)
      exact this
    have hrmax : ∀ z, z ^ k ≤ x → z ≤ r := by
      intro z hz
      by_contra hzr
      push_neg at hzr
      have hzx : z ≤ x := le_trans (Nat.le_self_pow (by omega) z) hz
      exact Nat.findGreatest_is_greatest hzr hzx hz
    have hr2 : x < (r + 1) ^ k := by
      by_contra hge
      push_neg at hge
      have : r + 1 ≤ r := hrmax (r + 1) hge
      omega
    refine ⟨r, ?_, hr1, hrmax⟩
    have hk0 : k ≠ 0 := by omega
    rw [floorRoot, if_neg hk0, if_neg hx]
    show some (floorRootLoop x k
      (2 ^ (bitLen x / k + if bitLen x % k = 0 then 0 else 1))) = some r
    set bl := bitLen x with hbl
    set p := bl / k + (if bl % k = 0 then 0 else 1) with hp
    have hpk : bl ≤ p * k := by
      have hdm := Nat.div_add_mod bl k
      rcases Nat.eq_zero_or_pos (bl % k) with h0 | hpos
      · have hp' : p = bl / k := by simp [hp, h0]
        rw [hp', Nat.mul_comm]
        omega
      · have h0 : ¬bl % k = 0 := by omega
        have hp' : p = bl / k + 1 := by simp [hp, h0]
        have hmlt : bl % k < k := Nat.mod_lt _ (by omega)
        rw [hp', Nat.add_mul, Nat.one_mul, Nat.mul_comm]
        omega
    have hxlt : x < 2 ^ (p * k) :=
      lt_of_lt_of_le (lt_two_pow_bitLen x) (Nat.pow_le_pow_right (by omega) hpk)
    have hinit : r ≤ 2 ^ p := by
      by_contra hlt
      push_neg at hlt
      have h1 : (2 ^ p) ^ k ≤ r ^ k := Nat.pow_le_pow_left (by omega) _
      have h2 : (2 ^ p) ^ k ≤ x := le_trans h1 hr1
      rw [← pow_mul] at h2
      omega
    rw [floorRootLoop_eq x k r hk hx1 hr1 hr2 _ hinit]

/-- C9: for every `x ≥ 0` and `k ≥ 1`, `floorRoot x k` terminates and
returns (as `some y`) the greatest `y ≥ 0` with `y^k ≤ x`; in
particular `floorRoot (x^k) k = some x`.  The loop's termination is
inherent in the Lean definition (well-founded on `y`). -/
theorem C9_floorRoot_correct (x k : ℕ) (hk : 1 ≤ k) :
    (∃ y, floorRoot x k = some y ∧ y ^ k ≤ x ∧ ∀ z, z ^ k ≤ x → z ≤ y) ∧
    floorRoot (x ^ k) k = some x := by
  refine ⟨floorRoot_spec x k hk, ?_⟩
  obtain ⟨y, hy, hle, hmax⟩ := floorRoot_spec (x ^ k) k hk
  have h1 : x ≤ y := hmax x le_rfl
  have h2 : y ≤ x := by
    by_contra hyx
    push_neg at hyx
    have : x ^ k < y ^ k := Nat.pow_lt_pow_left hyx (by omega)
    omega
  have : y = x := by omega
  rw [hy, this]

/-- C9 witness: the theorem instantiated at `x = 10, k = 2`. -/
theorem C9_floorRoot_correct_witness :
    (1 ≤ 2) ∧
    ((∃ y, floorRoot 10 2 = some y ∧ y ^ 2 ≤ 10 ∧ ∀ z, z ^ 2 ≤ 10 → z ≤ y) ∧
     floorRoot (10 ^ 2) 2 = some 10) :=
  ⟨by decide, C9_floorRoot_correct 10 2 (by decide)⟩

/-! ## WordPoly (wordpoly.go): polynomials mod (N, X^R - 1) with `uint32`
coefficients (`Word`) and a `uint64` accumulator in `mul`.  A `WordPoly`
is modelled as the list of its coefficients; `uint64` operations carry
an explicit `% 2^64`, and the final `Word(e)` conversion a `% 2^32`. -/

/-- `WordPoly.Set`: `coeffs[0] = a % N`, all others zeroed, then
`coeffs[k % R] = 1` (which, when `k % R = 0`, overwrites the first
write).  `R` is the length of the coefficient slice. -/
def wordPolySet (R a k N : ℕ) : List ℕ :=
  (((List.replicate R 0).set 0 (a % N)).set (k % R) 1)

/-- One execution of the body of `WordPoly.mul`'s inner loops:
`e := uint64(p[i]) * uint64(q[j]); e %= uint64(N); e += uint64(tmp[kk]);
e %= uint64(N); tmp[kk] = Word(e)`. -/
def wordMulUpdate (N : ℕ) (p q : List ℕ) (i j kk : ℕ) (t : List ℕ) : List ℕ :=
  let e1 := p.getD i 0 * q.getD j 0 % 2 ^ 64
  let e2 := e1 % N
  let e3 := (e2 + t.getD kk 0) % 2 ^ 64
  let e4 := e3 % N
  t.set kk (e4 % 2 ^ 32)

/-- The same loop body with mathematical (unbounded) arithmetic: no
`2^64` wraparound and no `2^32` truncation. -/
def wordMulUpdateW (N : ℕ) (p q : List ℕ) (i j kk : ℕ) (t : List ℕ) : List ℕ :=
  t.set kk ((p.getD i 0 * q.getD j 0 % N + t.getD kk 0) % N)

/-- The body of `WordPoly.mul`'s outer loop at row `i`: the first inner
loop handles `j < R - i` with `kk = i + j`, the second handles
`R - i ≤ j < R` with `kk = j - (R - i)`. -/
def wordMulRow (N : ℕ) (p q : List ℕ) (R i : ℕ) (t : List ℕ) : List ℕ :=
  let t1 := (List.range (R - i)).foldl
    (fun t j => wordMulUpdate N p q i j (i + j) t) t
  (List.range' (R - i) i).foldl
    (fun t j => wordMulUpdate N p q i j (j - (R - i)) t) t1

/-- The same row with unbounded arithmetic. -/
def wordMulRowW (N : ℕ) (p q : List ℕ) (R i : ℕ) (t : List ℕ) : List ℕ :=
  let t1 := (List.range (R - i)).foldl
    (fun t j => wordMulUpdateW N p q i j (i + j) t) t
  (List.range' (R - i) i).foldl
    (fun t j => wordMulUpdateW N p q i j (j - (R - i)) t) t1

/-- `WordPoly.mul` (the schoolbook cyclic convolution): `tmp` is zeroed,
then for each `i < R` the two inner loops accumulate
`tmp[(i+j) % R] += (p[i]*q[j]) % N  (mod N)`.  The final swap makes
`tmp` the new `p`, so the function returns the accumulator.  `R` is
`len(tmp.coeffs)`, which equals `len(p.coeffs)` for same-shape
operands. -/
def wordPolyMul (N : ℕ) (p q : List ℕ) : List ℕ :=
  (List.range p.length).foldl
    (fun t i => wordMulRow N p q p.length i t)
    (List.replicate p.length 0)

/-- `WordPoly.mul` re-expressed with unbounded arithmetic (identical
control flow, `wordMulUpdateW` in place of `wordMulUpdate`). -/
def wordPolyMulW (N : ℕ) (p q : List ℕ) : List ℕ :=
  (List.range p.length).foldl
    (fun t i => wordMulRowW N p q p.length i t)
    (List.replicate p.length 0)

/-- Entries of a list after `List.set` with a bounded value stay bounded. -/
lemma mem_set_lt {t : List ℕ} {N v : ℕ} (ht : ∀ c ∈ t, c < N) (hv : v < N)
    (kk : ℕ) : ∀ c ∈ t.set kk v, c < N := by
  intro c hc
  rcases List.mem_or_eq_of_mem_set hc with h | h
  · exact ht c h
  · omega

/-- Reading any position of a list whose entries are `< N` (with
default `0` and `N ≥ 1`) gives a value `< N`. -/
lemma getD_lt_of_forall {l : List ℕ} {N : ℕ} (h : ∀ c ∈ l, c < N)
    (hN : 1 ≤ N) (i : ℕ) : l.getD i 0 < N := by
  rcases Nat.lt_or_ge i l.length with hi | hi
  · rw [List.getD_eq_getElem l 0 hi]
    exact h _ (List.getElem_mem hi)
  · rw [List.getD_eq_default _ _ hi]
    omega

/-- Pointwise agreement of the truncated and untruncated loop bodies,
given the `C10` bounds: all reads are `< N ≤ 2^32`, so the product is
`< 2^64`, the post-reduction sum is `< 2·N ≤ 2^64`, and the stored
value is `< N ≤ 2^32`. -/
lemma wordMulUpdate_eq (N : ℕ) (p q : List ℕ) (i j kk : ℕ) (t : List ℕ)
    (hN1 : 1 ≤ N) (hN : N ≤ 2 ^ 32)
    (hp : ∀ c ∈ p, c < N) (hq : ∀ c ∈ q, c < N) (ht : ∀ c ∈ t, c < N) :
    wordMulUpdate N p q i j kk t = wordMulUpdateW N p q i j kk t ∧
    ∀ c ∈ wordMulUpdate N p q i j kk t, c < N := by
  have hpi : p.getD i 0 < N := getD_lt_of_forall hp hN1 i
  have hqj : q.getD j 0 < N := getD_lt_of_forall hq hN1 j
  have htk : t.getD kk 0 < N := getD_lt_of_forall ht hN1 kk
  have hprod : p.getD i 0 * q.getD j 0 < 2 ^ 64 := by
    have h1 : p.getD i 0 * q.getD j 0 < N * N :=
      Nat.mul_lt_mul_of_lt_of_lt hpi hqj
    have h2 : N * N ≤ 2 ^ 32 * 2 ^ 32 := Nat.mul_le_mul hN hN
    have h3 : (2 : ℕ) ^ 32 * 2 ^ 32 = 2 ^ 64 := by norm_num
    omega
  have he1 : p.getD i 0 * q.getD j 0 % 2 ^ 64 = p.getD i 0 * q.getD j 0 :=
    Nat.mod_eq_of_lt hprod
  have he2 : p.getD i 0 * q.getD j 0 % N < N := Nat.mod_lt _ (by omega)
  have he3 : p.getD i 0 * q.getD j 0 % N + t.getD kk 0 < 2 ^ 64 := by
    have : (2 : ℕ) ^ 32 + 2 ^ 32 ≤ 2 ^ 64 := by norm_num
    omega
  have he4 : (p.getD i 0 * q.getD j 0 % N + t.getD kk 0) % N < N :=
    Nat.mod_lt _ (by omega)
  have hstore : (p.getD i 0 * q.getD j 0 % N + t.getD kk 0) % N % 2 ^ 32 =
      (p.getD i 0 * q.getD j 0 % N + t.getD kk 0) % N :=
    Nat.mod_eq_of_lt (by omega)
  constructor
  · simp only [wordMulUpdate, wordMulUpdateW]
    rw [he1, Nat.mod_eq_of_lt he3, hstore]
  · simp only [wordMulUpdate]
    rw [he1, Nat.mod_eq_of_lt he3, hstore]
    exact mem_set_lt ht he4 kk

/-- Lifting pointwise agreement plus invariant preservation through a
`foldl`. -/
lemma foldl_congr_inv {α β : Type} (P : α → Prop) (f g : α → β → α)
    (hfg : ∀ a b, P a → f a b = g a b ∧ P (f a b)) :
    ∀ (l : List β) (a : α), P a →
      l.foldl f a = l.foldl g a ∧ P (l.foldl f a) := by
  intro l
  induction l with
  | nil => intro a ha; exact ⟨rfl, ha⟩
  | cons b l ih =>
    intro a ha
    obtain ⟨heq, hPb⟩ := hfg a b ha
    obtain ⟨ih1, ih2⟩ := ih (f a b) hPb
    simp only [List.foldl_cons]
    rw [← heq]
    exact ⟨ih1, ih2⟩

/-- Helper for C10: the truncated and unbounded runs agree and the
result coefficients stay below `N`. -/
lemma wordPolyMul_no_wrap (N : ℕ) (p q : List ℕ)
    (hN1 : 1 ≤ N) (hN : N < 2 ^ 32)
    (hp : ∀ c ∈ p, c < N) (hq : ∀ c ∈ q, c < N) :
    wordPolyMul N p q = wordPolyMulW N p q ∧
    ∀ c ∈ wordPolyMul N p q, c < N := by
  have hN' : N ≤ 2 ^ 32 := by omega
  have key : ∀ (i : ℕ) (t : List ℕ), (∀ c ∈ t, c < N) →
      wordMulRow N p q p.length i t = wordMulRowW N p q p.length i t ∧
      ∀ c ∈ wordMulRow N p q p.length i t, c < N := by
    intro i t ht
    obtain ⟨h1eq, h1P⟩ := foldl_congr_inv (fun t => ∀ c ∈ t, c < N)
      (fun t j => wordMulUpdate N p q i j (i + j) t)
      (fun t j => wordMulUpdateW N p q i j (i + j) t)
      (fun a b hPa => wordMulUpdate_eq N p q i b (i + b) a hN1 hN' hp hq hPa)
      (List.range (p.length - i)) t ht
    obtain ⟨h2eq, h2P⟩ := foldl_congr_inv (fun t => ∀ c ∈ t, c < N)
      (fun t j => wordMulUpdate N p q i j (j - (p.length - i)) t)
      (fun t j => wordMulUpdateW N p q i j (j - (p.length - i)) t)
      (fun a b hPa =>
        wordMulUpdate_eq N p q i b (b - (p.length - i)) a hN1 hN' hp hq hPa)
      (List.range' (p.length - i) i) _ h1P
    refine ⟨?_, ?_⟩
    · simp only [wordMulRow, wordMulRowW]
      rw [h2eq, h1eq]
    · simpa [wordMulRow] using h2P
  have main := foldl_congr_inv (fun t => ∀ c ∈ t, c < N)
    (fun t i => wordMulRow N p q p.length i t)
    (fun t i => wordMulRowW N p q p.length i t)
    (fun a b hPa => key b a hPa)
    (List.range p.length) (List.replicate p.length 0)
    (by
      intro c hc
      rw [List.eq_of_mem_replicate hc]
      omega)
  exact main

/-- C10: with `1 ≤ N < 2^32` and operand coefficients `< N`, the
`uint64` accumulator of `WordPoly.mul` never wraps — the run with the
explicit `% 2^64` / `% 2^32` truncations of the Go code equals the run
with unbounded integers — and every result coefficient is again `< N`. -/
theorem C10_wordPolyMul_no_overflow (N : ℕ) (p q : List ℕ)
    (hN1 : 1 ≤ N) (hN : N < 2 ^ 32)
    (hp : ∀ c ∈ p, c < N) (hq : ∀ c ∈ q, c < N) :
    wordPolyMul N p q = wordPolyMulW N p q ∧
    ∀ c ∈ wordPolyMul N p q, c < N :=
  wordPolyMul_no_wrap N p q hN1 hN hp hq

/-- C10 witness: `N = 3`, `p = [2,1]`, `q = [1,2]`. -/
theorem C10_wordPolyMul_no_overflow_witness :
    (1 ≤ 3 ∧ 3 < 2 ^ 32 ∧ (∀ c ∈ [2, 1], c < 3) ∧ (∀ c ∈ [1, 2], c < 3)) ∧
    (wordPolyMul 3 [2, 1] [1, 2] = wordPolyMulW 3 [2, 1] [1, 2] ∧
     ∀ c ∈ wordPolyMul 3 [2, 1] [1, 2], c < 3) :=
  ⟨⟨by decide, by decide, by decide, by decide⟩,
    C10_wordPolyMul_no_overflow 3 [2, 1] [1, 2] (by decide) (by decide)
      (by decide) (by decide)⟩

/-! ### The convolution formula computed by `WordPoly.mul` -/

/-- `List.set` then read at the written (in-bounds) index. -/
lemma getD_set_self (t : List ℕ) (n v : ℕ) (h : n < t.length) :
    (t.set n v).getD n 0 = v := by
  rw [List.getD_eq_getElem _ _ (by simpa using h)]
  simp

/-- `List.set` then read at a different index. -/
lemma getD_set_ne (t : List ℕ) (n m v : ℕ) (h : m ≠ n) :
    (t.set n v).getD m 0 = t.getD m 0 := by
  rcases Nat.lt_or_ge m t.length with hm | hm
  · rw [List.getD_eq_getElem _ _ (by simpa using hm),
      List.getD_eq_getElem _ _ hm, List.getElem_set]
    simp only [if_neg (fun hh : n = m => h hh.symm)]
  · rw [List.getD_eq_default _ _ (by simpa using hm),
      List.getD_eq_default _ _ hm]

/-- A fold of read-modify-write updates at indices `kkOf j`. -/
def updFold (u : ℕ → ℕ → ℕ) (kkOf : ℕ → ℕ) (l : List ℕ) (t : List ℕ) :
    List ℕ :=
  l.foldl (fun t j => t.set (kkOf j) (u j (t.getD (kkOf j) 0))) t

lemma updFold_cons (u : ℕ → ℕ → ℕ) (kkOf : ℕ → ℕ) (j : ℕ) (l : List ℕ)
    (t : List ℕ) :
    updFold u kkOf (j :: l) t =
      updFold u kkOf l (t.set (kkOf j) (u j (t.getD (kkOf j) 0))) := rfl

lemma updFold_length (u : ℕ → ℕ → ℕ) (kkOf : ℕ → ℕ) :
    ∀ (l : List ℕ) (t : List ℕ), (updFold u kkOf l t).length = t.length := by
  intro l
  induction l with
  | nil => intro t; rfl
  | cons j l ih =>
    intro t
    rw [updFold_cons, ih, List.length_set]

lemma updFold_getD_not_mem (u : ℕ → ℕ → ℕ) (kkOf : ℕ → ℕ) :
    ∀ (l : List ℕ) (t : List ℕ) (m : ℕ), m ∉ l.map kkOf →
      (updFold u kkOf l t).getD m 0 = t.getD m 0 := by
  intro l
  induction l with
  | nil => intro t m _; rfl
  | cons j l ih =>
    intro t m hm
    simp only [List.map_cons, List.mem_cons, not_or] at hm
    rw [updFold_cons, ih _ _ hm.2, getD_set_ne _ _ _ _ hm.1]

/-- If the written indices are pairwise distinct and in bounds, each
update reads the original value and its write survives to the end. -/
lemma updFold_getD_mem (u : ℕ → ℕ → ℕ) (kkOf : ℕ → ℕ) :
    ∀ (l : List ℕ) (t : List ℕ), (l.map kkOf).Nodup →
      (∀ j ∈ l, kkOf j < t.length) →
      ∀ j ∈ l, (updFold u kkOf l t).getD (kkOf j) 0 = u j (t.getD (kkOf j) 0) := by
  intro l
  induction l with
  | nil => intro t _ _ j hj; exact absurd hj (List.not_mem_nil j)
  | cons j0 l ih =>
    intro t hnd hbnd j hj
    simp only [List.map_cons, List.nodup_cons] at hnd
    rw [updFold_cons]
    rcases List.mem_cons.mp hj with rfl | hjl
    · rw [updFold_getD_not_mem u kkOf l _ _ hnd.1,
        getD_set_self _ _ _ (hbnd j (List.mem_cons_self _ _))]
    · have hne : kkOf j ≠ kkOf j0 := by
        intro heq
        exact hnd.1 (heq ▸ List.mem_map_of_mem kkOf hjl)
      rw [ih _ hnd.2 (fun a ha => by
          rw [List.length_set]
          exact hbnd a (List.mem_cons_of_mem _ ha)) j hjl,
        getD_set_ne _ _ _ _ hne]

/-- Modular inverse index: the unique `j < R` with `(i + j) % R = m`
(for `m < R`). -/
lemma filter_add_mod_singleton (R i m : ℕ) (hR : 1 ≤ R) (hm : m < R) :
    (Finset.range R).filter (fun j => (i + j) % R = m) =
      {(m + R - i % R) % R} := by
  have ha : i % R < R := Nat.mod_lt _ (by omega)
  set js := (m + R - i % R) % R with hjs
  have hjsR : js < R := Nat.mod_lt _ (by omega)
  have hhit : (i + js) % R = m := by
    have h1 : (i + js) % R = (i % R + js) % R := by
      rw [Nat.add_mod i js R, Nat.mod_eq_of_lt hjsR]
    have h2 : i % R + js ≡ i % R + (m + R - i % R) [MOD R] :=
      Nat.ModEq.add_left _ (Nat.mod_modEq _ _)
    have h3 : i % R + (m + R - i % R) = m + R := by omega
    have h4 : (i % R + js) % R = (m + R) % R := by
      calc (i % R + js) % R = (i % R + (m + R - i % R)) % R := h2
        _ = (m + R) % R := by rw [h3]
    rw [h1, h4, Nat.add_mod_right, Nat.mod_eq_of_lt hm]
  ext b
  simp only [Finset.mem_filter, Finset.mem_range, Finset.mem_singleton]
  constructor
  · rintro ⟨hbR, hb⟩
    have h5 : i + b ≡ i + js [MOD R] := by
      show (i + b) % R = (i + js) % R
      rw [hb, hhit]
    have hcong : b ≡ js [MOD R] := Nat.ModEq.add_left_cancel' i h5
    calc b = b % R := (Nat.mod_eq_of_lt hbR).symm
      _ = js % R := hcong
      _ = js := Nat.mod_eq_of_lt hjsR
  · rintro rfl
    exact ⟨hjsR, hhit⟩

/-- The row function at row `i`, restated as a single `updFold` over
`j < R` writing at index `(i + j) % R`. -/
lemma wordMulRowW_eq_updFold (N : ℕ) (p q : List ℕ) (R i : ℕ) (hi : i < R)
    (t : List ℕ) :
    wordMulRowW N p q R i t =
      updFold (fun j acc => (p.getD i 0 * q.getD j 0 % N + acc) % N)
        (fun j => (i + j) % R) (List.range R) t := by
  have hsplit : List.range R = List.range (R - i) ++ List.range' (R - i) i := by
    rw [List.range_eq_range', List.range_eq_range']
    have h := List.range'_append 0 (R - i) i 1
    simp only [Nat.one_mul, Nat.zero_add] at h
    rw [h]
    congr 1
    omega
  rw [wordMulRowW, updFold, hsplit, List.foldl_append]
  have e1 : (List.range (R - i)).foldl
      (fun t j => wordMulUpdateW N p q i j (i + j) t) t =
      (List.range (R - i)).foldl
      (fun t j => t.set ((i + j) % R)
        ((p.getD i 0 * q.getD j 0 % N + t.getD ((i + j) % R) 0) % N)) t := by
    apply List.foldl_ext
    intro a j hj
    rw [List.mem_range] at hj
    have hmod : (i + j) % R = i + j := Nat.mod_eq_of_lt (by omega)
    rw [wordMulUpdateW, hmod]
  rw [e1]
  apply List.foldl_ext
  intro a j hj
  rw [List.mem_range'_1] at hj
  have hmod : (i + j) % R = j - (R - i) := by
    have h1 : i + j = (j - (R - i)) + R := by omega
    rw [h1, Nat.add_mod_right, Nat.mod_eq_of_lt (by omega)]
  rw [wordMulUpdateW, hmod]

/-- Writing indices of a row are pairwise distinct. -/
lemma row_indices_nodup (R i : ℕ) (hR : 1 ≤ R) :
    ((List.range R).map (fun j => (i + j) % R)).Nodup := by
  refine List.Nodup.map_on ?_ (List.nodup_range R)
  intro a ha b hb hab
  rw [List.mem_range] at ha hb
  have hcong : a ≡ b [MOD R] := by
    have h5 : i + a ≡ i + b [MOD R] := by
      unfold Nat.ModEq
      omega
    exact Nat.ModEq.add_left_cancel' i h5
  calc a = a % R := (Nat.mod_eq_of_lt ha).symm
    _ = b % R := hcong
    _ = b := Nat.mod_eq_of_lt hb

/-- Effect of one row on each coefficient slot. -/
lemma wordMulRowW_getD (N : ℕ) (p q : List ℕ) (R i j : ℕ) (hi : i < R)
    (hj : j < R) (t : List ℕ) (ht : t.length = R) :
    (wordMulRowW N p q R i t).getD ((i + j) % R) 0 =
      (p.getD i 0 * q.getD j 0 % N + t.getD ((i + j) % R) 0) % N := by
  rw [wordMulRowW_eq_updFold N p q R i hi t]
  exact updFold_getD_mem _ _ (List.range R) t (row_indices_nodup R i (by omega))
    (fun a _ => by rw [ht]; exact Nat.mod_lt _ (by omega))
    j (List.mem_range.mpr hj)

lemma wordMulRowW_length (N : ℕ) (p q : List ℕ) (R i : ℕ) (hi : i < R)
    (t : List ℕ) : (wordMulRowW N p q R i t).length = t.length := by
  rw [wordMulRowW_eq_updFold N p q R i hi t, updFold_length]

/-- The cyclic convolution sum over the first `rows` rows. -/
def cyclicConvRows (p q : List ℕ) (R rows m : ℕ) : ℕ :=
  ∑ i ∈ Finset.range rows,
    ∑ j ∈ (Finset.range R).filter (fun j => (i + j) % R = m),
      p.getD i 0 * q.getD j 0

/-- The full cyclic convolution: the sum of `p_a · q_b` over all pairs
`(a, b)` with `a, b < R` and `a + b ≡ m (mod R)`. -/
def cyclicConv (p q : List ℕ) (R m : ℕ) : ℕ :=
  ∑ x ∈ (Finset.range R ×ˢ Finset.range R).filter
      (fun x => (x.1 + x.2) % R = m),
    p.getD x.1 0 * q.getD x.2 0

lemma cyclicConv_eq_rows (p q : List ℕ) (R m : ℕ) :
    cyclicConv p q R m = cyclicConvRows p q R R m := by
  rw [cyclicConv, cyclicConvRows, Finset.sum_filter, Finset.sum_product]
  congr 1
  ext i
  rw [Finset.sum_filter]

/-- Invariant of the outer loop of `WordPoly.mul` (unbounded version):
after `rows` rows, slot `m` holds the partial convolution mod `N`. -/
lemma wordMulRowsW_invariant (N : ℕ) (p q : List ℕ) (R : ℕ) (hN : 1 ≤ N)
    (hR : 1 ≤ R) :
    ∀ rows, rows ≤ R →
      ((List.range rows).foldl (fun t i => wordMulRowW N p q R i t)
          (List.replicate R 0)).length = R ∧
      ∀ m, m < R →
        ((List.range rows).foldl (fun t i => wordMulRowW N p q R i t)
            (List.replicate R 0)).getD m 0 = cyclicConvRows p q R rows m % N := by
  intro rows
  induction rows with
  | zero =>
    intro _
    refine ⟨by simp, ?_⟩
    intro m hm
    simp only [List.range_zero, List.foldl_nil, cyclicConvRows,
      Finset.range_zero, Finset.sum_empty, Nat.zero_mod]
    rw [List.getD_eq_getElem _ _ (by simpa using hm)]
    simp
  | succ rows ih =>
    intro hrows
    obtain ⟨ihlen, ihval⟩ := ih (by omega)
    have hi : rows < R := by omega
    rw [List.range_succ, List.foldl_append, List.foldl_cons, List.foldl_nil]
    refine ⟨by rw [wordMulRowW_length N p q R rows hi _, ihlen], ?_⟩
    intro m hm
    -- the unique column hit in this row at slot m
    set js := (m + R - rows % R) % R with hjs
    have hjsR : js < R := Nat.mod_lt _ (by omega)
    have hsingle := filter_add_mod_singleton R rows m hR hm
    have hhit : (rows + js) % R = m := by
      have : js ∈ (Finset.range R).filter (fun j => (rows + j) % R = m) := by
        rw [hsingle]
        exact Finset.mem_singleton_self _
      exact (Finset.mem_filter.mp this).2
    have step := wordMulRowW_getD N p q R rows js hi hjsR _ ihlen
    rw [hhit] at step
    have hconv : cyclicConvRows p q R (rows + 1) m =
        cyclicConvRows p q R rows m + p.getD rows 0 * q.getD js 0 := by
      rw [cyclicConvRows, Finset.sum_range_succ, ← cyclicConvRows, hsingle,
        Finset.sum_singleton]
    rw [step, ihval m hm, hconv,
      Nat.add_mod (cyclicConvRows p q R rows m) (p.getD rows 0 * q.getD js 0),
      Nat.add_comm]

/-! ## bigIntPoly (part_007): Kronecker-packed polynomials mod (N, X^R - 1)

A `bigIntPoly` stores its `R` coefficients packed into one `math/big`
integer `phi = Σ cᵢ · B^i` with `B = 2^(64·k)` (`k` 64-bit limbs per
coefficient).  The operations are translated at the level of the value
of `phi`; `getCoefficient i` reads the `i`-th base-`B` digit. -/

/-- `newBigIntPoly(N, R)`'s packing width `k`: the number of limbs of
`maxCoefficient = (N-1)·(N-1)·R`. -/
def packK (N R : ℕ) : ℕ := wordsOf ((N - 1) * (N - 1) * R)

/-- `getCoefficient i`: the `i`-th base-`2^(64k)` digit of `phi`. -/
def coeffOf (k phi i : ℕ) : ℕ := phi / (2 ^ (64 * k)) ^ i % 2 ^ (64 * k)

/-- `getCoefficientCount`: `0` for the zero polynomial, otherwise
`⌈len(phi.Bits()) / k⌉`. -/
def coefficientCount (k phi : ℕ) : ℕ :=
  if wordsOf phi = 0 then 0
  else wordsOf phi / k + if wordsOf phi % k = 0 then 0 else 1

/-- `bigIntPoly.Set(a, e, N)` (value of `phi` after the writes): slot
`0` gets `a % N`, slots `1 … e % R` get zeroed, then slot `e % R` gets
`1` — so for `e % R = 0` the `1` overwrites the `a % N`, and the
coefficient count is `e % R + 1`. -/
def setPhi (N R k a e : ℕ) : ℕ :=
  if e % R = 0 then 1 else a % N + (2 ^ (64 * k)) ^ (e % R)

/-- `bigIntPoly.mul(q, N, tmp)` at the value level: one big product into
the scratch, swap, fold the limbs at offset `R·k` (`lo + hi`, realising
`X^R ≡ 1`; when the product is below `B^R` the `hi` half is zero and
the Go code skips the fold, with the same value), then reduce each of
the first `getCoefficientCount` coefficients mod `N` (the code reduces
only slots with `cᵢ ≥ N`, which has the same value).  The trailing
`setCoefficientCount` only drops zero digits. -/
def mulPhi (N R k pphi qphi : ℕ) : ℕ :=
  let B := 2 ^ (64 * k)
  let prod := pphi * qphi
  let folded := prod % B ^ R + prod / B ^ R
  ∑ i ∈ Finset.range (coefficientCount k folded),
    coeffOf k folded i % N * B ^ i

/-- Go's `N.Bit(i)`: the `i`-th binary digit. -/
def natBit (n i : ℕ) : Bool := decide (n / 2 ^ i % 2 = 1)

/-- The square-and-multiply loop of `bigIntPoly.Pow`: the first
argument is the number of remaining bit positions, so the loop handles
bits `fuel - 1, …, 0` of the exponent. -/
def powLoop (N R k pphi : ℕ) : ℕ → ℕ → ℕ
  | 0, acc => acc
  | i + 1, acc =>
    let acc1 := mulPhi N R k acc acc
    let acc2 := if natBit N i then mulPhi N R k acc1 pphi else acc1
    powLoop N R k pphi i acc2

/-- `bigIntPoly.Pow(N, tmp1, tmp2)`: square-and-multiply starting from
the bit below the top bit of `N` (modulus and exponent are the same
`N` at the call sites in the source). -/
def powPhi (N R k pphi : ℕ) : ℕ := powLoop N R k pphi (bitLen N - 1) pphi

/-- `isAKSWitness(n, a, tmp1, tmp2, tmp3)` with scratch polynomials
built by `newBigIntPoly(n, r)`: `tmp1 ← X + a` (`Set(a, 1, n)`), then
`tmp1 ← tmp1^n`, then `tmp2 ← X^(n mod r) + a` (`Set(a, n, n)`), and
the result is `!tmp1.Eq(tmp2)` (`Eq` compares the packed values). -/
def isAKSWitnessE (n r a : ℕ) : Bool :=
  let k := packK n r
  let t1 := powPhi n r k (setPhi n r k a 1)
  let t2 := setPhi n r k a n
  decide (t1 ≠ t2)

/-! ### Base-B digit arithmetic -/

lemma sum_digits_lt (b : ℕ) (hb : 1 ≤ b) (f : ℕ → ℕ) :
    ∀ n : ℕ, (∀ i < n, f i < b) →
      ∑ i ∈ Finset.range n, f i * b ^ i < b ^ n := by
  intro n
  induction n with
  | zero => intro _; simp
  | succ n ih =>
    intro hf
    rw [Finset.sum_range_succ, pow_succ]
    have h1 := ih (fun i hi => hf i (by omega))
    have h2 : f n * b ^ n ≤ (b - 1) * b ^ n := by
      have := hf n (by omega)
      exact Nat.mul_le_mul_right _ (by omega)
    have h3 : b ^ n + (b - 1) * b ^ n = b ^ n * b := by
      have : b ^ n + (b - 1) * b ^ n = (1 + (b - 1)) * b ^ n := by ring
      rw [this]
      have hb1 : 1 + (b - 1) = b := by omega
      rw [hb1, Nat.mul_comm]
    omega

lemma sum_digits_split (b : ℕ) (f : ℕ → ℕ) (a : ℕ) :
    ∀ c : ℕ, ∑ i ∈ Finset.range (a + c), f i * b ^ i =
      (∑ i ∈ Finset.range a, f i * b ^ i) +
        b ^ a * ∑ i ∈ Finset.range c, f (a + i) * b ^ i := by
  intro c
  induction c with
  | zero => simp
  | succ c ih =>
    have : a + (c + 1) = (a + c) + 1 := by omega
    rw [this, Finset.sum_range_succ, ih, Finset.sum_range_succ]
    ring_nf
    rw [pow_add]
    ring

/-- Digit extraction from a base-`b` expansion with digits `< b`. -/
lemma sum_digits_extract (b : ℕ) (hb : 2 ≤ b) (f : ℕ → ℕ) (n j : ℕ)
    (hj : j < n) (hf : ∀ i < n, f i < b) :
    (∑ i ∈ Finset.range n, f i * b ^ i) / b ^ j % b = f j := by
  have hsplit := sum_digits_split b f j (n - j)
  have hn : j + (n - j) = n := by omega
  rw [hn] at hsplit
  rw [hsplit]
  have hlow : (∑ i ∈ Finset.range j, f i * b ^ i) < b ^ j :=
    sum_digits_lt b (by omega) f j (fun i hi => hf i (by omega))
  rw [Nat.add_mul_div_left _ _ (Nat.pos_pow_of_pos j (by omega)),
    Nat.div_eq_of_lt hlow, Nat.zero_add]
  -- peel the first digit of the high part
  have hnj : n - j = 1 + (n - j - 1) := by omega
  have hpeel := sum_digits_split b (fun i => f (j + i)) 1
  have h1 : ∑ i ∈ Finset.range 1, f (j + i) * b ^ i = f j := by simp
  rw [hnj, hpeel (n - j - 1), h1, pow_one]
  rw [Nat.add_mul_mod_self_left]
  exact Nat.mod_eq_of_lt (hf j hj)

/-- Reconstruction: any `phi < b^n` is the base-`b` expansion of its
digits. -/
lemma sum_digits_reconstruct (b : ℕ) (hb : 2 ≤ b) :
    ∀ (n phi : ℕ), phi < b ^ n →
      phi = ∑ i ∈ Finset.range n, phi / b ^ i % b * b ^ i := by
  intro n
  induction n with
  | zero =>
    intro phi h
    simpa using Nat.lt_one_iff.mp (by simpa using h)
  | succ n ih =>
    intro phi h
    have hdiv : phi / b < b ^ n := by
      rw [Nat.div_lt_iff_lt_mul (by omega : 0 < b)]
      rw [pow_succ] at h
      exact h
    have ihh := ih (phi / b) hdiv
    rw [Finset.sum_range_succ' (fun i => phi / b ^ i % b * b ^ i) n]
    have hterms : ∀ i, phi / b ^ (i + 1) % b * b ^ (i + 1) =
        b * (phi / b / b ^ i % b * b ^ i) := by
      intro i
      have e1 : phi / b ^ (i + 1) = phi / b / b ^ i := by
        rw [Nat.div_div_eq_div_mul, pow_succ, Nat.mul_comm]
      rw [e1, pow_succ]
      ring
    calc phi = b * (phi / b) + phi % b := (Nat.div_add_mod phi b).symm
      _ = b * (∑ i ∈ Finset.range n, phi / b / b ^ i % b * b ^ i) + phi % b := by
          rw [← ihh]
      _ = (∑ i ∈ Finset.range n, phi / b ^ (i + 1) % b * b ^ (i + 1)) +
            phi % b := by
          rw [Finset.mul_sum]
          congr 1
          exact Finset.sum_congr rfl (fun i _ => (hterms i).symm)
      _ = (∑ i ∈ Finset.range n, phi / b ^ (i + 1) % b * b ^ (i + 1)) +
            phi / b ^ 0 % b * b ^ 0 := by
          simp

/-! ### Convolution sums -/

/-- Cyclic convolution (function form): the sum of `c i · d j` over all
pairs `i, j < R` with `i + j ≡ m (mod R)`. -/
def cyclicConvFn (c d : ℕ → ℕ) (R m : ℕ) : ℕ :=
  ∑ x ∈ (Finset.range R ×ˢ Finset.range R).filter
      (fun x => (x.1 + x.2) % R = m), c x.1 * d x.2

/-- Plain (acyclic) convolution digit `m` of the product. -/
def linConv (c d : ℕ → ℕ) (R m : ℕ) : ℕ :=
  ∑ x ∈ (Finset.range R ×ˢ Finset.range R).filter
      (fun x => x.1 + x.2 = m), c x.1 * d x.2

lemma cyclic_fiber_card (R m : ℕ) (hR : 1 ≤ R) :
    ((Finset.range R ×ˢ Finset.range R).filter
      (fun x => (x.1 + x.2) % R = m)).card ≤ R := by
  have := Finset.card_le_card_of_injOn (f := Prod.fst)
    (s := (Finset.range R ×ˢ Finset.range R).filter
      (fun x => (x.1 + x.2) % R = m)) (t := Finset.range R)
    (by
      intro x hx
      rw [Finset.mem_filter, Finset.mem_product] at hx
      exact hx.1.1)
    (by
      intro x hx y hy hxy
      rw [Finset.coe_filter, Set.mem_setOf_eq] at hx hy
      rw [Finset.mem_product, Finset.mem_range, Finset.mem_range] at hx hy
      have h1 : x.1 + x.2 ≡ y.1 + y.2 [MOD R] := by
        show (x.1 + x.2) % R = (y.1 + y.2) % R
        rw [hx.2, hy.2]
      rw [hxy] at h1
      have h2 : x.2 ≡ y.2 [MOD R] := Nat.ModEq.add_left_cancel' y.1 h1
      have h3 : x.2 = y.2 := by
        calc x.2 = x.2 % R := (Nat.mod_eq_of_lt hx.1.2).symm
          _ = y.2 % R := h2
          _ = y.2 := Nat.mod_eq_of_lt hy.1.2
      exact Prod.ext hxy h3)
  simpa using this

lemma lin_fiber_card (R m : ℕ) : ((Finset.range R ×ˢ Finset.range R).filter
    (fun x => x.1 + x.2 = m)).card ≤ R := by
  have := Finset.card_le_card_of_injOn (f := Prod.fst)
    (s := (Finset.range R ×ˢ Finset.range R).filter
      (fun x => x.1 + x.2 = m)) (t := Finset.range R)
    (by
      intro x hx
      rw [Finset.mem_filter, Finset.mem_product] at hx
      exact hx.1.1)
    (by
      intro x hx y hy hxy
      rw [Finset.coe_filter, Set.mem_setOf_eq] at hx hy
      have : x.2 = y.2 := by omega
      exact Prod.ext hxy this)
  simpa using this

lemma conv_sum_le (R m N : ℕ) (c d : ℕ → ℕ)
    (hc : ∀ i < R, c i < N) (hd : ∀ i < R, d i < N)
    (s : Finset (ℕ × ℕ))
    (hs : s ⊆ Finset.range R ×ˢ Finset.range R) (hcard : s.card ≤ R) :
    ∑ x ∈ s, c x.1 * d x.2 ≤ R * ((N - 1) * (N - 1)) := by
  have hle : ∀ x ∈ s, c x.1 * d x.2 ≤ (N - 1) * (N - 1) := by
    intro x hx
    have := hs hx
    rw [Finset.mem_product, Finset.mem_range, Finset.mem_range] at this
    have h1 : c x.1 ≤ N - 1 := by have := hc x.1 this.1; omega
    have h2 : d x.2 ≤ N - 1 := by have := hd x.2 this.2; omega
    exact Nat.mul_le_mul h1 h2
  calc ∑ x ∈ s, c x.1 * d x.2 ≤ s.card * ((N - 1) * (N - 1)) := by
        have := Finset.sum_le_card_nsmul s _ _ hle
        simpa using this
    _ ≤ R * ((N - 1) * (N - 1)) := Nat.mul_le_mul_right _ hcard

lemma cyclicConvFn_le (R m N : ℕ) (hR : 1 ≤ R) (c d : ℕ → ℕ)
    (hc : ∀ i < R, c i < N) (hd : ∀ i < R, d i < N) :
    cyclicConvFn c d R m ≤ R * ((N - 1) * (N - 1)) :=
  conv_sum_le R m N c d hc hd _ (Finset.filter_subset _ _)
    (cyclic_fiber_card R m hR)

lemma linConv_le (R m N : ℕ) (c d : ℕ → ℕ)
    (hc : ∀ i < R, c i < N) (hd : ∀ i < R, d i < N) :
    linConv c d R m ≤ R * ((N - 1) * (N - 1)) :=
  conv_sum_le R m N c d hc hd _ (Finset.filter_subset _ _) (lin_fiber_card R m)

lemma linConv_top_zero (R m : ℕ) (c d : ℕ → ℕ) (hm : 2 * R - 1 ≤ m) :
    linConv c d R m = 0 := by
  rw [linConv]
  apply Finset.sum_eq_zero
  intro x hx
  rw [Finset.mem_filter, Finset.mem_product, Finset.mem_range,
    Finset.mem_range] at hx
  omega

/-- The big product, digit by digit: multiplying two base-`b` packed
polynomials yields the packed acyclic convolution. -/
lemma prod_eq_sum_linConv (b R : ℕ) (hR : 1 ≤ R) (c d : ℕ → ℕ) :
    (∑ i ∈ Finset.range R, c i * b ^ i) *
      (∑ j ∈ Finset.range R, d j * b ^ j) =
    ∑ m ∈ Finset.range (2 * R - 1), linConv c d R m * b ^ m := by
  rw [Finset.sum_mul_sum]
  have lhs : ∑ i ∈ Finset.range R, ∑ j ∈ Finset.range R,
      (c i * b ^ i) * (d j * b ^ j) =
      ∑ x ∈ Finset.range R ×ˢ Finset.range R,
        c x.1 * d x.2 * b ^ (x.1 + x.2) := by
    rw [Finset.sum_product]
    apply Finset.sum_congr rfl
    intro i _
    apply Finset.sum_congr rfl
    intro j _
    rw [pow_add]
    ring
  rw [lhs]
  rw [← Finset.sum_fiberwise_of_maps_to (g := fun x => x.1 + x.2)
    (t := Finset.range (2 * R - 1))
    (by
      intro x hx
      rw [Finset.mem_product, Finset.mem_range, Finset.mem_range] at hx
      rw [Finset.mem_range]
      show x.1 + x.2 < 2 * R - 1
      omega)]
  apply Finset.sum_congr rfl
  intro m _
  rw [linConv, Finset.sum_mul]
  apply Finset.sum_congr rfl
  intro x hx
  rw [Finset.mem_filter] at hx
  rw [hx.2]

/-- For `m < R` the cyclic fiber splits into the two acyclic fibers
`i + j = m` and `i + j = R + m`. -/
lemma cyclicConvFn_eq_two_fibers (R m : ℕ) (hR : 1 ≤ R) (hm : m < R)
    (c d : ℕ → ℕ) :
    cyclicConvFn c d R m = linConv c d R m + linConv c d R (R + m) := by
  rw [cyclicConvFn, linConv, linConv]
  have hfilter : (Finset.range R ×ˢ Finset.range R).filter
      (fun x => (x.1 + x.2) % R = m) =
      (Finset.range R ×ˢ Finset.range R).filter
      (fun x => x.1 + x.2 = m ∨ x.1 + x.2 = R + m) := by
    apply Finset.filter_congr
    intro x hx
    rw [Finset.mem_product, Finset.mem_range, Finset.mem_range] at hx
    constructor
    · intro h
      rcases Nat.lt_or_ge (x.1 + x.2) R with hlt | hge
      · left
        rw [Nat.mod_eq_of_lt hlt] at h
        exact h
      · right
        rw [Nat.mod_eq_sub_mod hge,
          Nat.mod_eq_of_lt (by omega : x.1 + x.2 - R < R)] at h
        omega
    · rintro (h | h)
      · rw [h, Nat.mod_eq_of_lt hm]
      · rw [h, Nat.add_mod_left, Nat.mod_eq_of_lt hm]
  rw [hfilter, Finset.filter_or]
  rw [Finset.sum_union]
  rw [Finset.disjoint_left]
  intro x hx1 hx2
  rw [Finset.mem_filter] at hx1 hx2
  omega

/-! ### Coefficient counts and the packed multiplication theorem -/

lemma bitLen_le_of_lt (v m : ℕ) (h : v < 2 ^ m) : bitLen v ≤ m := by
  by_contra hb
  push_neg at hb
  have hv : 1 ≤ v := by
    by_contra h0
    push_neg at h0
    have hv0 : v = 0 := by omega
    rw [hv0, bitLen_zero] at hb
    omega
  have h1 := two_pow_bitLen_pred_le v hv
  have h2 : 2 ^ m ≤ 2 ^ (bitLen v - 1) :=
    Nat.pow_le_pow_right (by omega) (by omega)
  omega

lemma ceil_div_le (l k R : ℕ) (hk : 1 ≤ k) (h : l ≤ k * R) :
    (if l = 0 then 0 else l / k + if l % k = 0 then 0 else 1) ≤ R := by
  by_cases h0 : l = 0
  · simp [h0]
  rw [if_neg h0]
  by_cases hm : l % k = 0
  · rw [if_pos hm]
    have h1 : l / k ≤ k * R / k := Nat.div_le_div_right h
    rw [Nat.mul_div_cancel_left R (by omega : 0 < k)] at h1
    omega
  · rw [if_neg hm]
    by_contra hc
    push_neg at hc
    have hR : R ≤ l / k := by omega
    have h1 : k * R ≤ k * (l / k) := Nat.mul_le_mul_left k hR
    have h2 : l / k * k ≤ l := Nat.div_mul_le_self l k
    have h2' : k * (l / k) ≤ l := by
      rw [Nat.mul_comm]
      exact h2
    have h3 : k * (l / k) + l % k = l := Nat.div_add_mod l k
    have h4 : 1 ≤ l % k := Nat.pos_of_ne_zero hm
    linarith

lemma coefficientCount_le (k R phi : ℕ) (hk : 1 ≤ k)
    (h : phi < (2 ^ (64 * k)) ^ R) : coefficientCount k phi ≤ R := by
  have hpow : (2 ^ (64 * k)) ^ R = 2 ^ (64 * (k * R)) := by
    rw [← pow_mul, Nat.mul_assoc]
  have h1 : bitLen phi ≤ 64 * (k * R) := by
    apply bitLen_le_of_lt
    rw [← hpow]
    exact h
  have h2 : wordsOf phi ≤ k * R := by
    rw [wordsOf]
    generalize k * R = w at h1 ⊢
    omega
  rw [coefficientCount]
  exact ceil_div_le (wordsOf phi) k R hk h2

lemma words_le_k_mul_cc (k phi : ℕ) (hk : 1 ≤ k) :
    wordsOf phi ≤ k * coefficientCount k phi := by
  rw [coefficientCount]
  by_cases h0 : wordsOf phi = 0
  · simp [h0]
  rw [if_neg h0]
  by_cases hm : wordsOf phi % k = 0
  · rw [if_pos hm, Nat.add_zero,
      Nat.mul_div_cancel' (Nat.dvd_of_mod_eq_zero hm)]
  · rw [if_neg hm]
    have h3 := Nat.div_add_mod (wordsOf phi) k
    have h4 : wordsOf phi % k < k := Nat.mod_lt _ (by omega)
    calc wordsOf phi = k * (wordsOf phi / k) + wordsOf phi % k := h3.symm
      _ ≤ k * (wordsOf phi / k) + k := by
          exact Nat.add_le_add_left (le_of_lt h4) _
      _ = k * (wordsOf phi / k + 1) := by ring

lemma phi_lt_pow_cc (k phi : ℕ) (hk : 1 ≤ k) :
    phi < (2 ^ (64 * k)) ^ coefficientCount k phi := by
  have h1 := lt_two_pow_wordsOf phi
  have h2 := words_le_k_mul_cc k phi hk
  calc phi < 2 ^ (64 * wordsOf phi) := h1
    _ ≤ 2 ^ (64 * (k * coefficientCount k phi)) :=
        Nat.pow_le_pow_right (by omega) (by omega)
    _ = (2 ^ (64 * k)) ^ coefficientCount k phi := by
        rw [← pow_mul, Nat.mul_assoc]

/-- The folding step of `bigIntPoly.mul`: splitting the big product at
limb `R·k` and adding realises the reduction by `X^R - 1` digit by
digit. -/
lemma folded_eq (b N R : ℕ) (hb : 2 ≤ b) (hN : 1 ≤ N) (hR : 1 ≤ R)
    (hbound : R * ((N - 1) * (N - 1)) < b)
    (c d : ℕ → ℕ) (hc : ∀ i < R, c i < N) (hd : ∀ i < R, d i < N) :
    (∑ i ∈ Finset.range R, c i * b ^ i) *
        (∑ j ∈ Finset.range R, d j * b ^ j) % b ^ R +
      (∑ i ∈ Finset.range R, c i * b ^ i) *
        (∑ j ∈ Finset.range R, d j * b ^ j) / b ^ R =
      ∑ m ∈ Finset.range R, cyclicConvFn c d R m * b ^ m := by
  have hlin_lt : ∀ m, linConv c d R m < b := fun m =>
    lt_of_le_of_lt (linConv_le R m N c d hc hd) hbound
  have hprod := prod_eq_sum_linConv b R hR c d
  have h2R : 2 * R - 1 = R + (R - 1) := by omega
  rw [hprod, h2R, sum_digits_split b (linConv c d R) R (R - 1)]
  have hlo_lt : (∑ i ∈ Finset.range R, linConv c d R i * b ^ i) < b ^ R :=
    sum_digits_lt b (by omega) _ R (fun i _ => hlin_lt i)
  rw [Nat.add_mul_mod_self_left, Nat.mod_eq_of_lt hlo_lt]
  rw [Nat.add_mul_div_left _ _ (Nat.pos_pow_of_pos R (by omega)),
    Nat.div_eq_of_lt hlo_lt, Nat.zero_add]
  have hhiR : ∑ i ∈ Finset.range R, linConv c d R (R + i) * b ^ i =
      ∑ i ∈ Finset.range (R - 1), linConv c d R (R + i) * b ^ i := by
    have hR1 : Finset.range R = Finset.range ((R - 1) + 1) := by
      congr 1
      omega
    rw [hR1, Finset.sum_range_succ,
      linConv_top_zero R (R + (R - 1)) c d (by omega)]
    simp
  rw [← hhiR, ← Finset.sum_add_distrib]
  apply Finset.sum_congr rfl
  intro m hm
  rw [Finset.mem_range] at hm
  rw [cyclicConvFn_eq_two_fibers R m hR hm c d]
  ring

/-- Summing the first `getCoefficientCount` mod-`N`-reduced digits of a
packed value reduces every digit (the digits beyond the count are
zero). -/
lemma packed_cc_sum (N k R : ℕ) (hk : 1 ≤ k) (g : ℕ → ℕ)
    (hg : ∀ m, g m < 2 ^ (64 * k)) :
    ∑ i ∈ Finset.range
        (coefficientCount k (∑ m ∈ Finset.range R, g m * (2 ^ (64 * k)) ^ m)),
      coeffOf k (∑ m ∈ Finset.range R, g m * (2 ^ (64 * k)) ^ m) i % N *
        (2 ^ (64 * k)) ^ i =
      ∑ m ∈ Finset.range R, g m % N * (2 ^ (64 * k)) ^ m := by
  have hb : (2 : ℕ) ≤ 2 ^ (64 * k) := by
    calc (2 : ℕ) = 2 ^ 1 := (pow_one 2).symm
      _ ≤ 2 ^ (64 * k) := Nat.pow_le_pow_right (by omega) (by omega)
  have hFlt : (∑ m ∈ Finset.range R, g m * (2 ^ (64 * k)) ^ m) <
      (2 ^ (64 * k)) ^ R :=
    sum_digits_lt _ (by omega) _ R (fun i _ => hg i)
  have hcc : coefficientCount k
      (∑ m ∈ Finset.range R, g m * (2 ^ (64 * k)) ^ m) ≤ R :=
    coefficientCount_le k R _ hk hFlt
  have hdig : ∀ i, i < R →
      coeffOf k (∑ m ∈ Finset.range R, g m * (2 ^ (64 * k)) ^ m) i = g i := by
    intro i hi
    rw [coeffOf]
    exact sum_digits_extract _ hb _ R i hi (fun m _ => hg m)
  have hstep1 : ∑ i ∈ Finset.range
        (coefficientCount k (∑ m ∈ Finset.range R, g m * (2 ^ (64 * k)) ^ m)),
      coeffOf k (∑ m ∈ Finset.range R, g m * (2 ^ (64 * k)) ^ m) i % N *
        (2 ^ (64 * k)) ^ i =
      ∑ i ∈ Finset.range
        (coefficientCount k (∑ m ∈ Finset.range R, g m * (2 ^ (64 * k)) ^ m)),
      g i % N * (2 ^ (64 * k)) ^ i := by
    apply Finset.sum_congr rfl
    intro i hi
    rw [Finset.mem_range] at hi
    rw [hdig i (by omega)]
  rw [hstep1]
  apply Finset.sum_subset (Finset.range_subset.mpr hcc)
  intro x hx1 hx2
  rw [Finset.mem_range] at hx1
  rw [Finset.mem_range, not_lt] at hx2
  have hdiv0 : (∑ m ∈ Finset.range R, g m * (2 ^ (64 * k)) ^ m) /
      (2 ^ (64 * k)) ^ x = 0 :=
    Nat.div_eq_of_lt (lt_of_lt_of_le (phi_lt_pow_cc k _ hk)
      (Nat.pow_le_pow_right (by omega) hx2))
  have h0 : g x = 0 := by
    rw [← hdig x hx1, coeffOf, hdiv0, Nat.zero_mod]
  rw [h0]
  simp

/-- Kronecker correctness of `bigIntPoly.mul` in packed form: the
product of two canonically packed polynomials is the packed, mod-`N`
reduced cyclic convolution. -/
lemma mulPhi_eq_sum (N R k : ℕ) (hN : 1 ≤ N) (hR : 1 ≤ R) (hk : 1 ≤ k)
    (hB : (N - 1) * (N - 1) * R < 2 ^ (64 * k))
    (c d : ℕ → ℕ) (hc : ∀ i < R, c i < N) (hd : ∀ i < R, d i < N) :
    mulPhi N R k (∑ i ∈ Finset.range R, c i * (2 ^ (64 * k)) ^ i)
        (∑ i ∈ Finset.range R, d i * (2 ^ (64 * k)) ^ i) =
      ∑ m ∈ Finset.range R, cyclicConvFn c d R m % N * (2 ^ (64 * k)) ^ m := by
  have hb : (2 : ℕ) ≤ 2 ^ (64 * k) := by
    calc (2 : ℕ) = 2 ^ 1 := (pow_one 2).symm
      _ ≤ 2 ^ (64 * k) := Nat.pow_le_pow_right (by omega) (by omega)
  have hbound : R * ((N - 1) * (N - 1)) < 2 ^ (64 * k) := by
    calc R * ((N - 1) * (N - 1)) = (N - 1) * (N - 1) * R := by ring
      _ < 2 ^ (64 * k) := hB
  have hcyc_lt : ∀ m, cyclicConvFn c d R m < 2 ^ (64 * k) := fun m =>
    lt_of_le_of_lt (cyclicConvFn_le R m N hR c d hc hd) hbound
  have hfold := folded_eq (2 ^ (64 * k)) N R hb hN hR hbound c d hc hd
  simp only [mulPhi]
  rw [hfold]
  exact packed_cc_sum N k R hk _ hcyc_lt

/-- The per-coefficient form: after `mul`, coefficient `j` is the
cyclic convolution sum reduced mod `N`. -/
lemma mulPhi_coeff_eq (N R k : ℕ) (hN : 1 ≤ N) (hR : 1 ≤ R) (hk : 1 ≤ k)
    (hB : (N - 1) * (N - 1) * R < 2 ^ (64 * k))
    (c d : ℕ → ℕ) (hc : ∀ i < R, c i < N) (hd : ∀ i < R, d i < N)
    (j : ℕ) (hj : j < R) :
    coeffOf k (mulPhi N R k (∑ i ∈ Finset.range R, c i * (2 ^ (64 * k)) ^ i)
        (∑ i ∈ Finset.range R, d i * (2 ^ (64 * k)) ^ i)) j =
      cyclicConvFn c d R j % N := by
  have hb : (2 : ℕ) ≤ 2 ^ (64 * k) := by
    calc (2 : ℕ) = 2 ^ 1 := (pow_one 2).symm
      _ ≤ 2 ^ (64 * k) := Nat.pow_le_pow_right (by omega) (by omega)
  have hNb : N - 1 < 2 ^ (64 * k) := by
    have h1 : N - 1 ≤ (N - 1) * (N - 1) * R := by
      by_cases hN1 : N = 1
      · rw [hN1]
        simp
      · calc N - 1 = (N - 1) * 1 := (Nat.mul_one _).symm
          _ ≤ (N - 1) * ((N - 1) * R) := by
              apply Nat.mul_le_mul_left
              have : 1 ≤ N - 1 := by omega
              have : 1 ≤ R := hR
              calc 1 = 1 * 1 := rfl
                _ ≤ (N - 1) * R := Nat.mul_le_mul (by omega) hR
          _ = (N - 1) * (N - 1) * R := by ring
    omega
  rw [mulPhi_eq_sum N R k hN hR hk hB c d hc hd, coeffOf]
  exact sum_digits_extract _ hb _ R j hj
    (fun m _ => by
      have := Nat.mod_lt (cyclicConvFn c d R m) (y := N) (by omega)
      omega)

/-! ### Set, and the claims C1 / C3 -/

/-- By construction (`newBigIntPoly`), the maximal intermediate
coefficient `(N-1)·(N-1)·R` fits in `k = packK N R` limbs. -/
lemma packK_bound (N R : ℕ) :
    (N - 1) * (N - 1) * R < 2 ^ (64 * packK N R) :=
  lt_two_pow_wordsOf _

lemma packK_pos (N R : ℕ) (hN : 2 ≤ N) (hR : 1 ≤ R) : 1 ≤ packK N R := by
  rw [packK, wordsOf]
  have h1 : (N - 1) * (N - 1) * R ≠ 0 := by
    have : 1 ≤ N - 1 := by omega
    have : 1 ≤ (N - 1) * (N - 1) * R := by
      calc 1 = 1 * 1 * 1 := rfl
        _ ≤ (N - 1) * (N - 1) * R := by
            apply Nat.mul_le_mul
            · exact Nat.mul_le_mul (by omega) (by omega)
            · exact hR
    omega
  have h2 : 1 ≤ bitLen ((N - 1) * (N - 1) * R) := by
    rw [bitLen_eq _ h1]
    omega
  omega

lemma le_base_of_packed (N R k : ℕ) (hR : 1 ≤ R)
    (hB : (N - 1) * (N - 1) * R < 2 ^ (64 * k)) : N - 1 < 2 ^ (64 * k) := by
  have h1 : N - 1 ≤ (N - 1) * (N - 1) * R := by
    by_cases hN1 : N - 1 = 0
    · omega
    · calc N - 1 = (N - 1) * 1 := (Nat.mul_one _).symm
        _ ≤ (N - 1) * ((N - 1) * R) := by
            apply Nat.mul_le_mul_left
            calc 1 = 1 * 1 := rfl
              _ ≤ (N - 1) * R := Nat.mul_le_mul (by omega) hR
        _ = (N - 1) * (N - 1) * R := by ring
  omega

/-- The value written by `bigIntPoly.Set`, as a packed digit vector:
digit `e % R` is `1` (written last), digit `0` is `a % N` unless
overwritten, all others are `0`. -/
lemma setPhi_eq_sum (N R k a e : ℕ) (hN : 2 ≤ N) (hR : 1 ≤ R)
    (hNb : N ≤ 2 ^ (64 * k)) :
    setPhi N R k a e = ∑ i ∈ Finset.range R,
      (if i = e % R then 1 else if i = 0 then a % N else 0) *
        (2 ^ (64 * k)) ^ i := by
  have hkm : e % R < R := Nat.mod_lt _ (by omega)
  rw [setPhi]
  by_cases h0 : e % R = 0
  · rw [if_pos h0]
    rw [Finset.sum_eq_single 0]
    · rw [h0]
      simp
    · intro b hb hbne
      rw [if_neg (by omega), if_neg hbne]
      ring
    · intro h
      rw [Finset.mem_range] at h
      omega
  · rw [if_neg h0]
    have hsplit : ∀ i, (if i = e % R then 1 else if i = 0 then a % N else 0) *
        (2 ^ (64 * k)) ^ i =
        (if i = 0 then a % N else 0) * (2 ^ (64 * k)) ^ i +
        (if i = e % R then 1 else 0) * (2 ^ (64 * k)) ^ i := by
      intro i
      by_cases hie : i = e % R
      · rw [if_pos hie, if_pos hie, if_neg (by omega)]
        ring
      · rw [if_neg hie, if_neg hie]
        ring
    rw [Finset.sum_congr rfl (fun i _ => hsplit i), Finset.sum_add_distrib]
    congr 1
    · rw [Finset.sum_eq_single 0]
      · simp
      · intro b hb hbne
        rw [if_neg hbne]
        ring
      · intro h
        rw [Finset.mem_range] at h
        omega
    · rw [Finset.sum_eq_single (e % R)]
      · simp
      · intro b hb hbne
        rw [if_neg hbne]
        ring
      · intro h
        rw [Finset.mem_range] at h
        omega

/-- Digit extraction for `Set`. -/
lemma setPhi_coeff (N R k a e : ℕ) (hN : 2 ≤ N) (hR : 1 ≤ R)
    (hNb : N ≤ 2 ^ (64 * k)) (i : ℕ) (hi : i < R) :
    coeffOf k (setPhi N R k a e) i =
      if i = e % R then 1 else if i = 0 then a % N else 0 := by
  rw [setPhi_eq_sum N R k a e hN hR hNb, coeffOf]
  apply sum_digits_extract _ (by omega) _ R i hi
  intro m _
  have hmod : a % N < N := Nat.mod_lt _ (by omega)
  by_cases h1 : m = e % R
  · rw [if_pos h1]
    omega
  · rw [if_neg h1]
    by_cases h2 : m = 0
    · rw [if_pos h2]
      omega
    · rw [if_neg h2]
      omega

/-- The coefficients written by `WordPoly.Set`. -/
lemma wordPolySet_getD (N R a e : ℕ) (hR : 1 ≤ R) (i : ℕ) (hi : i < R) :
    (wordPolySet R a e N).getD i 0 =
      if i = e % R then 1 else if i = 0 then a % N else 0 := by
  have hkm : e % R < R := Nat.mod_lt _ (by omega)
  have hlen1 : ((List.replicate R 0).set 0 (a % N)).length = R := by simp
  rw [wordPolySet]
  by_cases h1 : i = e % R
  · rw [if_pos h1, h1]
    exact getD_set_self _ _ _ (by omega)
  · rw [if_neg h1, getD_set_ne _ _ _ _ h1]
    by_cases h2 : i = 0
    · rw [if_pos h2, h2]
      exact getD_set_self _ _ _ (by simp; omega)
    · rw [if_neg h2, getD_set_ne _ _ _ _ h2]
      rcases Nat.lt_or_ge i R with h | h
      · rw [List.getD_eq_getElem _ _ (by simpa using h)]
        simp
      · omega

/-- C3 counterexample: with `N = 5, R = 3, a = 2, k = 3` we have
`k mod R = 0`, and the final write of `1` at slot `0` overwrites the
`a mod N` written there first, so coefficient `0` is `1`, not
`a mod N = 2` as the claim states. -/
theorem C3_set_counterexample :
    ¬ ((wordPolySet 3 2 3 5).getD 0 0 = 2 % 5) := by decide

/-- C3 (amended): after `Set(a, e, N)` (parameters `N ≥ 2`, `R ≥ 1`)
the coefficient at index `e mod R` is `1`, the coefficient at index `0`
is `a mod N` — unless `e mod R = 0`, in which case the `1` written last
overwrites it — and every other index holds `0`.  This holds for both
`WordPoly.Set` and `bigIntPoly.Set`. -/
theorem C3_set_coefficients (N R a e : ℕ) (hN : 2 ≤ N) (hR : 1 ≤ R) :
    (∀ i < R, (wordPolySet R a e N).getD i 0 =
      if i = e % R then 1 else if i = 0 then a % N else 0) ∧
    (∀ i < R, coeffOf (packK N R) (setPhi N R (packK N R) a e) i =
      if i = e % R then 1 else if i = 0 then a % N else 0) := by
  constructor
  · intro i hi
    exact wordPolySet_getD N R a e hR i hi
  · intro i hi
    apply setPhi_coeff N R (packK N R) a e hN hR _ i hi
    have h1 := packK_bound N R
    have h2 := le_base_of_packed N R (packK N R) hR h1
    omega

/-- C3 witness: `N = 5, R = 3, a = 7, e = 4`. -/
theorem C3_set_coefficients_witness :
    (2 ≤ 5 ∧ 1 ≤ 3) ∧
    ((∀ i < 3, (wordPolySet 3 7 4 5).getD i 0 =
      if i = 4 % 3 then 1 else if i = 0 then 7 % 5 else 0) ∧
    (∀ i < 3, coeffOf (packK 5 3) (setPhi 5 3 (packK 5 3) 7 4) i =
      if i = 4 % 3 then 1 else if i = 0 then 7 % 5 else 0)) :=
  ⟨⟨by decide, by decide⟩, C3_set_coefficients 5 3 7 4 (by decide) (by decide)⟩

/-- Helper: the coefficient formula for `WordPoly.mul`. -/
lemma wordPolyMul_coeff (N : ℕ) (p q : List ℕ) (hN1 : 1 ≤ N)
    (hN : N < 2 ^ 32) (hp : ∀ x ∈ p, x < N) (hq : ∀ x ∈ q, x < N)
    (hR : 1 ≤ p.length) :
    ∀ i < p.length,
      (wordPolyMul N p q).getD i 0 = cyclicConv p q p.length i % N := by
  intro i hi
  obtain ⟨heq, _⟩ := wordPolyMul_no_wrap N p q hN1 hN hp hq
  rw [heq, wordPolyMulW]
  obtain ⟨_, hval⟩ :=
    wordMulRowsW_invariant N p q p.length hN1 hR p.length le_rfl
  rw [hval i hi, cyclicConv_eq_rows]

/-- C1: for `N ≥ 2`, `R ≥ 2` and operands with all coefficients in
`[0, N)`, `mul` computes exactly the schoolbook cyclic convolution
reduced mod `N` and mod `X^R - 1`: coefficient `i` of the product is
`(Σ_{j+l ≡ i (mod R)} p_j·q_l) mod N`.  First conjunct: `WordPoly.mul`
(coefficients are machine words, so `N < 2^32`); second conjunct:
`bigIntPoly.mul` on packed values with the constructed packing width
`packK N R`.  In this value-level translation the scratch `tmp` is
implicit (it only receives the swapped-out old value), and `p = q`
(squaring) is allowed since both halves are stated for arbitrary equal
or distinct operands. -/
theorem C1_mul_cyclic_convolution (N R : ℕ) (hN : 2 ≤ N) (hR : 2 ≤ R) :
    (∀ p q : List ℕ, p.length = R → q.length = R → N < 2 ^ 32 →
      (∀ x ∈ p, x < N) → (∀ x ∈ q, x < N) →
      ∀ i < R, (wordPolyMul N p q).getD i 0 = cyclicConv p q R i % N) ∧
    (∀ c d : ℕ → ℕ, (∀ i < R, c i < N) → (∀ i < R, d i < N) →
      ∀ i < R, coeffOf (packK N R)
        (mulPhi N R (packK N R)
          (∑ j ∈ Finset.range R, c j * (2 ^ (64 * packK N R)) ^ j)
          (∑ j ∈ Finset.range R, d j * (2 ^ (64 * packK N R)) ^ j)) i =
        cyclicConvFn c d R i % N) := by
  constructor
  · intro p q hpl hql hN32 hp hq i hi
    have := wordPolyMul_coeff N p q (by omega) hN32 hp hq (by omega) i
      (by omega)
    rw [hpl] at this
    exact this
  · intro c d hc hd i hi
    exact mulPhi_coeff_eq N R (packK N R) (by omega) (by omega)
      (packK_pos N R hN (by omega)) (packK_bound N R) c d hc hd i hi

/-- C1 witness: `N = 3, R = 2`, `p = [2,1], q = [1,2]` for the word
half and `c = d = the constant-1 vector` for the packed half. -/
theorem C1_mul_cyclic_convolution_witness :
    (2 ≤ 3 ∧ 2 ≤ 2) ∧
    ((∀ p q : List ℕ, p.length = 2 → q.length = 2 → 3 < 2 ^ 32 →
      (∀ x ∈ p, x < 3) → (∀ x ∈ q, x < 3) →
      ∀ i < 2, (wordPolyMul 3 p q).getD i 0 = cyclicConv p q 2 i % 3) ∧
    (∀ c d : ℕ → ℕ, (∀ i < 2, c i < 3) → (∀ i < 2, d i < 3) →
      ∀ i < 2, coeffOf (packK 3 2)
        (mulPhi 3 2 (packK 3 2)
          (∑ j ∈ Finset.range 2, c j * (2 ^ (64 * packK 3 2)) ^ j)
          (∑ j ∈ Finset.range 2, d j * (2 ^ (64 * packK 3 2)) ^ j)) i =
        cyclicConvFn c d 2 i % 3)) :=
  ⟨⟨by decide, by decide⟩,
    C1_mul_cyclic_convolution 3 2 (by decide) (by decide)⟩

/-! ### Canonical packed values and the square-and-multiply loop -/

/-- A packed value is canonical when it fits in `R` coefficient slots
and every coefficient is `< N` (invariants I1/I2 of the spec). -/
def CanonPhi (N R k phi : ℕ) : Prop :=
  phi < (2 ^ (64 * k)) ^ R ∧ ∀ i < R, coeffOf k phi i < N

lemma canon_reconstruct (N R k phi : ℕ) (hk : 1 ≤ k)
    (h : CanonPhi N R k phi) :
    phi = ∑ i ∈ Finset.range R, coeffOf k phi i * (2 ^ (64 * k)) ^ i := by
  have hb : (2 : ℕ) ≤ 2 ^ (64 * k) := by
    calc (2 : ℕ) = 2 ^ 1 := (pow_one 2).symm
      _ ≤ 2 ^ (64 * k) := Nat.pow_le_pow_right (by omega) (by omega)
  have := sum_digits_reconstruct (2 ^ (64 * k)) hb R phi h.1
  simpa [coeffOf] using this

/-- The multiplication of canonical packed values is canonical, and its
digits are the mod-`N`-reduced cyclic convolution of the inputs'
digits. -/
lemma mulPhi_canon_digits (N R k : ℕ) (hN : 1 ≤ N) (hR : 1 ≤ R)
    (hk : 1 ≤ k) (hB : (N - 1) * (N - 1) * R < 2 ^ (64 * k))
    (p q : ℕ) (hp : CanonPhi N R k p) (hq : CanonPhi N R k q) :
    CanonPhi N R k (mulPhi N R k p q) ∧
    ∀ i < R, coeffOf k (mulPhi N R k p q) i =
      cyclicConvFn (coeffOf k p) (coeffOf k q) R i % N := by
  have hb : (2 : ℕ) ≤ 2 ^ (64 * k) := by
    calc (2 : ℕ) = 2 ^ 1 := (pow_one 2).symm
      _ ≤ 2 ^ (64 * k) := Nat.pow_le_pow_right (by omega) (by omega)
  have hrp := canon_reconstruct N R k p hk hp
  have hrq := canon_reconstruct N R k q hk hq
  have hmul : mulPhi N R k p q =
      ∑ m ∈ Finset.range R,
        cyclicConvFn (coeffOf k p) (coeffOf k q) R m % N *
          (2 ^ (64 * k)) ^ m := by
    conv_lhs => rw [hrp, hrq]
    exact mulPhi_eq_sum N R k hN hR hk hB _ _ hp.2 hq.2
  have hcoeff : ∀ i < R, coeffOf k (mulPhi N R k p q) i =
      cyclicConvFn (coeffOf k p) (coeffOf k q) R i % N := by
    intro i hi
    conv_lhs => rw [hrp, hrq]
    exact mulPhi_coeff_eq N R k hN hR hk hB _ _ hp.2 hq.2 i hi
  refine ⟨⟨?_, ?_⟩, hcoeff⟩
  · rw [hmul]
    apply sum_digits_lt _ (by omega) _ R
    intro i _
    have h1 : cyclicConvFn (coeffOf k p) (coeffOf k q) R i % N < N :=
      Nat.mod_lt _ (by omega)
    have h2 : N - 1 < 2 ^ (64 * k) := le_base_of_packed N R k hR hB
    omega
  · intro i hi
    rw [hcoeff i hi]
    exact Nat.mod_lt _ (by omega)

/-- Binary decomposition step used by `Pow`'s loop invariant:
`n mod 2^(f+1) = 2^f · bit_f(n) + n mod 2^f`. -/
lemma mod_two_pow_succ (n f : ℕ) :
    n % 2 ^ (f + 1) = 2 ^ f * (n / 2 ^ f % 2) + n % 2 ^ f := by
  have h1 := Nat.div_add_mod (n % (2 ^ f * 2)) (2 ^ f)
  rw [Nat.mod_mul_right_div_self,
    Nat.mod_mod_of_dvd _ (dvd_mul_right (2 ^ f) 2)] at h1
  rw [pow_succ]
  omega

lemma natBit_val (n f : ℕ) :
    (if natBit n f then 1 else 0) = n / 2 ^ f % 2 := by
  rw [natBit]
  have h2 : n / 2 ^ f % 2 < 2 := Nat.mod_lt _ (by omega)
  by_cases h : n / 2 ^ f % 2 = 1
  · simp [h]
  · simp [h]
    omega

/-! ### The quotient ring (ZMod n)[X] / (X^R - 1) -/

/-- The ring `(ℤ/n)[X] / (X^R − 1)` in which the AKS congruence is
stated. -/
abbrev AKSQuot (n R : ℕ) : Type :=
  Polynomial (ZMod n) ⧸
    Ideal.span {(Polynomial.X : Polynomial (ZMod n)) ^ R - 1}

/-- The quotient projection as a ring hom. -/
def quotMk (n R : ℕ) : Polynomial (ZMod n) →+* AKSQuot n R :=
  Ideal.Quotient.mk
    (Ideal.span {(Polynomial.X : Polynomial (ZMod n)) ^ R - 1})

/-- The ring element represented by a digit vector `c` (the logical
view of a packed polynomial). -/
noncomputable def toQuot (n R : ℕ) (c : ℕ → ℕ) : AKSQuot n R :=
  quotMk n R
    (∑ i ∈ Finset.range R, Polynomial.C ((c i : ZMod n)) * Polynomial.X ^ i)

lemma quotMk_X_pow_R (n R : ℕ) :
    quotMk n R (Polynomial.X ^ R) = 1 := by
  show Ideal.Quotient.mk _ (Polynomial.X ^ R) = 1
  rw [show (1 : AKSQuot n R) =
    Ideal.Quotient.mk _ (1 : Polynomial (ZMod n)) from (map_one _).symm]
  rw [Ideal.Quotient.mk_eq_mk_iff_sub_mem]
  exact Ideal.mem_span_singleton.mpr dvd_rfl

lemma quotMk_X_pow_mod (n R : ℕ) (hR : 1 ≤ R) (m : ℕ) :
    quotMk n R Polynomial.X ^ m = quotMk n R Polynomial.X ^ (m % R) := by
  conv_lhs => rw [← Nat.div_add_mod m R]
  rw [pow_add, pow_mul, ← map_pow, quotMk_X_pow_R, one_pow, one_mul]

lemma toQuot_expand (n R : ℕ) (e : ℕ → ℕ) :
    toQuot n R e = ∑ i ∈ Finset.range R,
      quotMk n R (Polynomial.C (e i : ZMod n)) *
        quotMk n R Polynomial.X ^ i := by
  rw [toQuot, map_sum]
  apply Finset.sum_congr rfl
  intro i _
  rw [map_mul, map_pow]

/-- Multiplicativity: the mod-`N`-reduced cyclic convolution of two
digit vectors represents the product of the ring elements they
represent. -/
lemma toQuot_mul (n R : ℕ) (hR : 1 ≤ R) (c d : ℕ → ℕ) :
    toQuot n R (fun m => cyclicConvFn c d R m % n) =
      toQuot n R c * toQuot n R d := by
  rw [toQuot_expand, toQuot_expand, toQuot_expand, Finset.sum_mul_sum]
  have hstep : ∀ i j : ℕ,
      (quotMk n R (Polynomial.C (c i : ZMod n)) * quotMk n R Polynomial.X ^ i) *
        (quotMk n R (Polynomial.C (d j : ZMod n)) *
          quotMk n R Polynomial.X ^ j) =
      quotMk n R (Polynomial.C ((c i * d j : ℕ) : ZMod n)) *
        quotMk n R Polynomial.X ^ ((i + j) % R) := by
    intro i j
    rw [Nat.cast_mul, Polynomial.C_mul, map_mul, ← quotMk_X_pow_mod n R hR]
    ring
  rw [Finset.sum_congr rfl (fun i _ =>
    Finset.sum_congr rfl (fun j _ => hstep i j))]
  rw [← Finset.sum_product']
  rw [← Finset.sum_fiberwise_of_maps_to
    (g := fun p : ℕ × ℕ => (p.1 + p.2) % R) (t := Finset.range R)
    (by
      intro x _
      rw [Finset.mem_range]
      exact Nat.mod_lt _ (by omega))]
  apply Finset.sum_congr rfl
  intro m hm
  have hexp : ∀ p : ℕ × ℕ,
      p ∈ (Finset.range R ×ˢ Finset.range R).filter
        (fun p : ℕ × ℕ => (p.1 + p.2) % R = m) →
      quotMk n R (Polynomial.C ((c p.1 * d p.2 : ℕ) : ZMod n)) *
        quotMk n R Polynomial.X ^ ((p.1 + p.2) % R) =
      quotMk n R (Polynomial.C ((c p.1 * d p.2 : ℕ) : ZMod n)) *
        quotMk n R Polynomial.X ^ m := by
    intro p hp
    rw [Finset.mem_filter] at hp
    rw [hp.2]
  rw [Finset.sum_congr rfl hexp, ← Finset.sum_mul]
  congr 1
  rw [← map_sum, ← map_sum]
  congr 1
  have hcast : ((cyclicConvFn c d R m % n : ℕ) : ZMod n) =
      ((cyclicConvFn c d R m : ℕ) : ZMod n) := ZMod.natCast_mod _ n
  rw [hcast, cyclicConvFn, Nat.cast_sum]

/-- Injectivity of `toQuot` on canonical digit vectors (coefficients
below `n`), for prime `n` (so that `ZMod n` is a domain). -/
lemma toQuot_inj (n R : ℕ) (hp : n.Prime) (hR : 1 ≤ R) (c d : ℕ → ℕ)
    (hc : ∀ i < R, c i < n) (hd : ∀ i < R, d i < n)
    (h : toQuot n R c = toQuot n R d) : ∀ i < R, c i = d i := by
  haveI : Fact n.Prime := ⟨hp⟩
  rw [toQuot, toQuot, quotMk, Ideal.Quotient.mk_eq_mk_iff_sub_mem,
    Ideal.mem_span_singleton] at h
  have hdegsum : ∀ e : ℕ → ℕ,
      Polynomial.degree (∑ j ∈ Finset.range R,
        Polynomial.C ((e j : ZMod n)) * Polynomial.X ^ j) <
        ((R : ℕ) : WithBot ℕ) := by
    intro e
    apply lt_of_le_of_lt (Polynomial.degree_sum_le _ _)
    rw [Finset.sup_lt_iff (by
      exact WithBot.bot_lt_coe _)]
    intro j hj
    rw [Finset.mem_range] at hj
    apply lt_of_le_of_lt (Polynomial.degree_C_mul_X_pow_le j _)
    exact_mod_cast hj
  have hdeg : Polynomial.degree
      ((∑ j ∈ Finset.range R, Polynomial.C ((c j : ZMod n)) *
          Polynomial.X ^ j) -
        ∑ j ∈ Finset.range R, Polynomial.C ((d j : ZMod n)) *
          Polynomial.X ^ j) <
      Polynomial.degree ((Polynomial.X : Polynomial (ZMod n)) ^ R - 1) := by
    rw [show (1 : Polynomial (ZMod n)) = Polynomial.C 1 from
      (Polynomial.C_1).symm]
    rw [Polynomial.degree_X_pow_sub_C (by omega) 1]
    apply lt_of_le_of_lt (Polynomial.degree_sub_le _ _)
    exact max_lt (hdegsum c) (hdegsum d)
  have hzero := Polynomial.eq_zero_of_dvd_of_degree_lt h hdeg
  have hPQ : (∑ j ∈ Finset.range R, Polynomial.C ((c j : ZMod n)) *
      Polynomial.X ^ j) =
      ∑ j ∈ Finset.range R, Polynomial.C ((d j : ZMod n)) *
        Polynomial.X ^ j := by
    have := sub_eq_zero.mp hzero
    exact this
  have hcoeff : ∀ (e : ℕ → ℕ) (i : ℕ), i < R →
      (∑ j ∈ Finset.range R, Polynomial.C ((e j : ZMod n)) *
        Polynomial.X ^ j).coeff i = ((e i : ZMod n)) := by
    intro e i hi
    rw [Polynomial.finset_sum_coeff]
    have hterm : ∀ j ∈ Finset.range R,
        (Polynomial.C ((e j : ZMod n)) * Polynomial.X ^ j).coeff i =
        if i = j then ((e j : ZMod n)) else 0 := by
      intro j _
      rw [Polynomial.coeff_C_mul, Polynomial.coeff_X_pow]
      by_cases hij : i = j
      · simp [hij]
      · simp [hij]
    rw [Finset.sum_congr rfl hterm,
      Finset.sum_ite_eq (Finset.range R) i (fun j => ((e j : ZMod n)))]
    simp [hi]
  intro i hi
  have hcast : ((c i : ZMod n)) = ((d i : ZMod n)) := by
    rw [← hcoeff c i hi, ← hcoeff d i hi, hPQ]
  have hval : ((c i : ZMod n)).val = ((d i : ZMod n)).val := by rw [hcast]
  rw [ZMod.val_cast_of_lt (hc i hi), ZMod.val_cast_of_lt (hd i hi)] at hval
  exact hval

/-- The quotient ring has characteristic `n` (stated for prime `n`,
which is the case needed; primality supplies the domain structure of
`ZMod n` used in the degree argument). -/
lemma aksQuot_charP (n R : ℕ) (hp : n.Prime) (hR : 1 ≤ R) :
    CharP (AKSQuot n R) n := by
  have hn : 2 ≤ n := hp.two_le
  haveI : Fact n.Prime := ⟨hp⟩
  haveI : NeZero n := ⟨by omega⟩
  constructor
  intro m
  constructor
  · intro h
    have h1 : (m : AKSQuot n R) = quotMk n R ((m : Polynomial (ZMod n))) :=
      (map_natCast (quotMk n R) m).symm
    rw [h1, show ((m : Polynomial (ZMod n))) =
        Polynomial.C ((m : ZMod n)) from (Polynomial.C_eq_natCast _).symm,
      quotMk, Ideal.Quotient.eq_zero_iff_mem, Ideal.mem_span_singleton] at h
    have hCz : Polynomial.C ((m : ZMod n)) = 0 := by
      apply Polynomial.eq_zero_of_dvd_of_degree_lt h
      rw [show (1 : Polynomial (ZMod n)) = Polynomial.C 1 from
        (Polynomial.C_1).symm]
      rw [Polynomial.degree_X_pow_sub_C (by omega) 1]
      apply lt_of_le_of_lt Polynomial.degree_C_le
      exact_mod_cast (by omega : 0 < R)
    rw [Polynomial.C_eq_zero] at hCz
    exact (ZMod.natCast_zmod_eq_zero_iff_dvd m n).mp hCz
  · intro h
    obtain ⟨t, rfl⟩ := h
    have h0 : ((n : ℕ) : AKSQuot n R) = 0 := by
      have h1 : ((n : ℕ) : AKSQuot n R) = quotMk n R ((n : Polynomial (ZMod n))) :=
        (map_natCast (quotMk n R) n).symm
      rw [h1, show ((n : Polynomial (ZMod n))) =
          Polynomial.C ((n : ZMod n)) from (Polynomial.C_eq_natCast _).symm,
        ZMod.natCast_self, map_zero, map_zero]
    rw [Nat.cast_mul, h0, zero_mul]

/-! ### Pow correctness and the AKS witness check on primes -/

lemma toQuot_congr (n R : ℕ) (c d : ℕ → ℕ) (h : ∀ i < R, c i = d i) :
    toQuot n R c = toQuot n R d := by
  rw [toQuot, toQuot]
  congr 1
  apply Finset.sum_congr rfl
  intro i hi
  rw [Finset.mem_range] at hi
  rw [h i hi]

/-- Invariant of the square-and-multiply loop of `Pow`: after
processing the low `fuel` bits of the exponent `n`, the accumulator
represents `acc^(2^fuel) · p^(n mod 2^fuel)` and stays canonical. -/
lemma powLoop_correct (n R k : ℕ) (hn : 2 ≤ n) (hR : 1 ≤ R) (hk : 1 ≤ k)
    (hB : (n - 1) * (n - 1) * R < 2 ^ (64 * k)) (pphi : ℕ)
    (hp : CanonPhi n R k pphi) :
    ∀ (fuel : ℕ) (acc : ℕ), CanonPhi n R k acc →
      CanonPhi n R k (powLoop n R k pphi fuel acc) ∧
      toQuot n R (coeffOf k (powLoop n R k pphi fuel acc)) =
        toQuot n R (coeffOf k acc) ^ 2 ^ fuel *
          toQuot n R (coeffOf k pphi) ^ (n % 2 ^ fuel) := by
  intro fuel
  induction fuel with
  | zero =>
    intro acc hacc
    refine ⟨hacc, ?_⟩
    simp [powLoop, Nat.mod_one]
  | succ fuel ih =>
    intro acc hacc
    obtain ⟨hc1, hd1⟩ :=
      mulPhi_canon_digits n R k (by omega) hR hk hB acc acc hacc hacc
    have hq1 : toQuot n R (coeffOf k (mulPhi n R k acc acc)) =
        toQuot n R (coeffOf k acc) * toQuot n R (coeffOf k acc) := by
      rw [toQuot_congr n R _ _ hd1]
      exact toQuot_mul n R hR _ _
    have hloop : powLoop n R k pphi (fuel + 1) acc =
        powLoop n R k pphi fuel
          (if natBit n fuel then mulPhi n R k (mulPhi n R k acc acc) pphi
            else mulPhi n R k acc acc) := by
      simp only [powLoop]
    have hmod := mod_two_pow_succ n fuel
    have hbitval := natBit_val n fuel
    by_cases hbit : natBit n fuel
    · obtain ⟨hc2, hd2⟩ := mulPhi_canon_digits n R k (by omega) hR hk hB
        (mulPhi n R k acc acc) pphi hc1 hp
      have hq2 : toQuot n R (coeffOf k
            (mulPhi n R k (mulPhi n R k acc acc) pphi)) =
          toQuot n R (coeffOf k acc) * toQuot n R (coeffOf k acc) *
            toQuot n R (coeffOf k pphi) := by
        rw [toQuot_congr n R _ _ hd2]
        rw [toQuot_mul n R hR _ _, hq1]
      obtain ⟨hcr, hqr⟩ := ih _ hc2
      rw [hloop, if_pos hbit]
      refine ⟨hcr, ?_⟩
      rw [hqr, hq2]
      have hb1 : n / 2 ^ fuel % 2 = 1 := by
        rw [if_pos hbit] at hbitval
        omega
      rw [hmod, hb1, Nat.mul_one]
      have h2s : (2 : ℕ) ^ (fuel + 1) = 2 ^ fuel + 2 ^ fuel := by
        rw [pow_succ]
        omega
      rw [h2s, pow_add, pow_add, mul_pow, mul_pow]
      ring
    · obtain ⟨hcr, hqr⟩ := ih _ hc1
      rw [hloop, if_neg hbit]
      refine ⟨hcr, ?_⟩
      rw [hqr, hq1]
      have hb0 : n / 2 ^ fuel % 2 = 0 := by
        rw [if_neg hbit] at hbitval
        omega
      rw [hmod, hb0, Nat.mul_zero, Nat.zero_add]
      have h2s : (2 : ℕ) ^ (fuel + 1) = 2 ^ fuel + 2 ^ fuel := by
        rw [pow_succ]
        omega
      rw [h2s, pow_add, mul_pow]

/-- `bigIntPoly.Pow(n, tmp1, tmp2)` raises a canonical packed
polynomial to the `n`-th power in the quotient ring. -/
lemma powPhi_correct (n R k : ℕ) (hn : 2 ≤ n) (hR : 1 ≤ R) (hk : 1 ≤ k)
    (hB : (n - 1) * (n - 1) * R < 2 ^ (64 * k)) (pphi : ℕ)
    (hp : CanonPhi n R k pphi) :
    CanonPhi n R k (powPhi n R k pphi) ∧
    toQuot n R (coeffOf k (powPhi n R k pphi)) =
      toQuot n R (coeffOf k pphi) ^ n := by
  obtain ⟨hc, hq⟩ :=
    powLoop_correct n R k hn hR hk hB pphi hp (bitLen n - 1) pphi hp
  refine ⟨hc, ?_⟩
  rw [powPhi]
  rw [hq, ← pow_add]
  congr 1
  have hs1 : 1 ≤ bitLen n := by
    rw [bitLen_eq n (by omega)]
    omega
  have hlow := two_pow_bitLen_pred_le n (by omega)
  have hhigh := lt_two_pow_bitLen n
  have hsplit : (2 : ℕ) ^ bitLen n = 2 ^ (bitLen n - 1) + 2 ^ (bitLen n - 1) := by
    conv_lhs => rw [show bitLen n = (bitLen n - 1) + 1 by omega]
    rw [pow_succ]
    omega
  have hmod : n % 2 ^ (bitLen n - 1) = n - 2 ^ (bitLen n - 1) := by
    rw [Nat.mod_eq_sub_mod hlow, Nat.mod_eq_of_lt (by omega)]
  omega

/-- `Set` produces a canonical packed polynomial. -/
lemma setPhi_canon (N R k a e : ℕ) (hN : 2 ≤ N) (hR : 1 ≤ R)
    (hNb : N ≤ 2 ^ (64 * k)) : CanonPhi N R k (setPhi N R k a e) := by
  constructor
  · rw [setPhi_eq_sum N R k a e hN hR hNb]
    apply sum_digits_lt _ (by omega) _ R
    intro i _
    have hmod : a % N < N := Nat.mod_lt _ (by omega)
    by_cases h1 : i = e % R
    · rw [if_pos h1]
      omega
    · rw [if_neg h1]
      by_cases h2 : i = 0
      · rw [if_pos h2]
        omega
      · rw [if_neg h2]
        omega
  · intro i hi
    rw [setPhi_coeff N R k a e hN hR hNb i hi]
    have hmod : a % N < N := Nat.mod_lt _ (by omega)
    by_cases h1 : i = e % R
    · rw [if_pos h1]
      omega
    · rw [if_neg h1]
      by_cases h2 : i = 0
      · rw [if_pos h2]
        omega
      · rw [if_neg h2]
        omega

/-- The ring element represented by `Set(a, e, N)` when `e mod R ≠ 0`:
`X^(e mod R) + a`. -/
lemma toQuot_setPhi (n R k a e : ℕ) (hn : 2 ≤ n) (hR : 1 ≤ R)
    (hNb : n ≤ 2 ^ (64 * k)) (he : e % R ≠ 0) :
    toQuot n R (coeffOf k (setPhi n R k a e)) =
      quotMk n R (Polynomial.C ((a : ZMod n))) +
        quotMk n R Polynomial.X ^ (e % R) := by
  have hkm : e % R < R := Nat.mod_lt _ (by omega)
  rw [toQuot_congr n R _
    (fun i => if i = e % R then 1 else if i = 0 then a % n else 0)
    (fun i hi => setPhi_coeff n R k a e hn hR hNb i hi)]
  rw [toQuot_expand]
  have hsplit : ∀ i ∈ Finset.range R,
      quotMk n R (Polynomial.C
        (((if i = e % R then 1 else if i = 0 then a % n else 0 : ℕ)
          : ZMod n))) * quotMk n R Polynomial.X ^ i =
      quotMk n R (Polynomial.C
        (((if i = 0 then a % n else 0 : ℕ) : ZMod n))) *
          quotMk n R Polynomial.X ^ i +
        quotMk n R (Polynomial.C
          (((if i = e % R then 1 else 0 : ℕ) : ZMod n))) *
          quotMk n R Polynomial.X ^ i := by
    intro i _
    by_cases h1 : i = e % R
    · rw [if_pos h1, if_pos h1, if_neg (by omega)]
      simp
    · rw [if_neg h1, if_neg h1]
      simp
  rw [Finset.sum_congr rfl hsplit, Finset.sum_add_distrib]
  congr 1
  · rw [Finset.sum_eq_single 0]
    · rw [if_pos rfl]
      have : ((a % n : ℕ) : ZMod n) = ((a : ℕ) : ZMod n) :=
        ZMod.natCast_mod a n
      rw [this]
      simp
    · intro b _ hbne
      rw [if_neg hbne]
      simp
    · intro habs
      rw [Finset.mem_range] at habs
      omega
  · rw [Finset.sum_eq_single (e % R)]
    · rw [if_pos rfl]
      simp
    · intro b _ hbne
      rw [if_neg hbne]
      simp
    · intro habs
      rw [Finset.mem_range] at habs
      omega

/-- C2 counterexample: with `n = 2` (prime), `R = 2` (so `R ∣ n`) and
`a = 1`, `Set(a, n, n)` builds the constant `1` instead of
`X^(n mod R) + a = 1 + a`, and `isAKSWitness` returns `true`: the
prime `2` is declared composite by the witness check with this
modulus. -/
theorem C2_counterexample : Nat.Prime 2 ∧ isAKSWitnessE 2 2 1 = true :=
  ⟨by norm_num, by decide⟩

/-- C2 (amended): for every prime `n`, every `R ≥ 2` and every
`a ≥ 0`, the identity `(X + a)^n = X^n + a` holds in
`(ℤ/n)[X]/(X^R − 1)`; and provided additionally `n mod R ≠ 0` (always
true in AKS use, where `gcd(n, r) = 1`), `isAKSWitness(n, a, …)`
returns `false`.  The extra hypothesis is forced by the
counterexample: `Set(a, n, n)` writes its `1` at slot `n mod R` after
the `a mod n`, so for `R ∣ n` the compared right-hand side is `1`
rather than `1 + a`. -/
theorem C2_prime_never_witness (n R a : ℕ) (hn : n.Prime) (hR : 2 ≤ R) :
    (quotMk n R (Polynomial.X + Polynomial.C ((a : ZMod n)))) ^ n =
      quotMk n R (Polynomial.X ^ n + Polynomial.C ((a : ZMod n))) ∧
    (n % R ≠ 0 → isAKSWitnessE n R a = false) := by
  have hn2 : 2 ≤ n := hn.two_le
  haveI : Fact n.Prime := ⟨hn⟩
  haveI hchar : CharP (AKSQuot n R) n := aksQuot_charP n R hn (by omega)
  have hid : (quotMk n R (Polynomial.X + Polynomial.C ((a : ZMod n)))) ^ n =
      quotMk n R (Polynomial.X ^ n + Polynomial.C ((a : ZMod n))) := by
    rw [map_add, add_pow_char, map_add, map_pow]
    congr 1
    rw [← map_pow, ← Polynomial.C_pow, ZMod.pow_card]
  refine ⟨hid, fun hnR => ?_⟩
  set k := packK n R with hkdef
  have hkpos : 1 ≤ k := packK_pos n R hn2 (by omega)
  have hB : (n - 1) * (n - 1) * R < 2 ^ (64 * k) := packK_bound n R
  have hNb : n ≤ 2 ^ (64 * k) := by
    have := le_base_of_packed n R k (by omega) hB
    omega
  have h1R : 1 % R = 1 := Nat.mod_eq_of_lt (by omega)
  have hset1 := setPhi_canon n R k a 1 hn2 (by omega) hNb
  have hsetn := setPhi_canon n R k a n hn2 (by omega) hNb
  obtain ⟨hpc, hpq⟩ := powPhi_correct n R k hn2 (by omega) hkpos hB _ hset1
  have hq0 := toQuot_setPhi n R k a 1 hn2 (by omega) hNb
    (by rw [h1R]; omega)
  have hq2 := toQuot_setPhi n R k a n hn2 (by omega) hNb hnR
  have hq1 : toQuot n R (coeffOf k (powPhi n R k (setPhi n R k a 1))) =
      toQuot n R (coeffOf k (setPhi n R k a n)) := by
    rw [hpq, hq0, h1R, pow_one, hq2]
    have e1 : quotMk n R (Polynomial.C ((a : ZMod n))) +
        quotMk n R Polynomial.X =
        quotMk n R (Polynomial.X + Polynomial.C ((a : ZMod n))) := by
      rw [map_add, add_comm]
    rw [e1, hid, map_add, map_pow, quotMk_X_pow_mod n R (by omega) n,
      add_comm]
  have hdig := toQuot_inj n R hn (by omega) _ _ hpc.2 hsetn.2 hq1
  have hphi : powPhi n R k (setPhi n R k a 1) = setPhi n R k a n := by
    rw [canon_reconstruct n R k _ hkpos hpc,
      canon_reconstruct n R k _ hkpos hsetn]
    apply Finset.sum_congr rfl
    intro i hi
    rw [Finset.mem_range] at hi
    rw [hdig i hi]
  show decide (powPhi n R k (setPhi n R k a 1) ≠ setPhi n R k a n) = false
  rw [hphi]
  simp

/-- C2 witness: `n = 3` (prime), `R = 2`, `a = 1`; the inner proviso
`3 mod 2 ≠ 0` is discharged concretely. -/
theorem C2_prime_never_witness_witness :
    (Nat.Prime 3 ∧ 2 ≤ 2) ∧
    ((quotMk 3 2 (Polynomial.X + Polynomial.C ((1 : ℕ) : ZMod 3))) ^ 3 =
      quotMk 3 2 (Polynomial.X ^ 3 + Polynomial.C ((1 : ℕ) : ZMod 3)) ∧
     isAKSWitnessE 3 2 1 = false) :=
  ⟨⟨by norm_num, by decide⟩,
    ⟨(C2_prime_never_witness 3 2 1 (by norm_num) (by decide)).1,
     (C2_prime_never_witness 3 2 1 (by norm_num) (by decide)).2
       (by decide)⟩⟩

/-! ## trialDivide (part_005 `trialDivide`, `GetFirstFactorBelow`)

`trialDivide(n, factorFn, upperBound)` factors `n` by trial division:
small primes 2, 3, 5, 7 first, then a mod-30 wheel starting at 11, and
finally the remaining quotient `t` if it is not 1.  Each found factor
`d` is divided out completely (with multiplicity `m`) and `(d, m)` is
passed to the callback, which may request a stop by returning `false`.
The upper bound defaults to `⌊√n⌋` and is lowered to the running
quotient whenever the quotient drops below it.

The Go callback is an arbitrary closure over mutable state; we model
it as a state-threading function `σ → ℕ → ℕ → σ × Bool` (state, prime,
multiplicity ↦ new state, continue?).  The whole computation is a
`TDState` record: running quotient `t`, current upper bound `ub`,
callback state `s`, the list `out` of delivered pairs, and a `stop`
flag recording that the callback requested early termination (the Go
code's early `return`s). -/

structure TDState (σ : Type) where
  t : ℕ
  ub : ℕ
  s : σ
  out : List (ℕ × ℕ)
  stop : Bool
deriving DecidableEq

/-- The inner loop of `factorOut`: repeatedly divide `d` out of `t`
while the remainder is zero, counting the multiplicity.  The Go loop
needs no fuel (each division shrinks `t`); structural fuel (`t` at the
call site) makes the definition kernel-computable. -/
def divLoop : ℕ → ℕ → ℕ → ℕ × ℕ
  | 0, t, _ => (t, 0)
  | fuel + 1, t, d =>
    if t % d = 0 then
      ((divLoop fuel (t / d) d).1, (divLoop fuel (t / d) d).2 + 1)
    else (t, 0)

/-- `factorOut(d)`: divide `d` out of `t` as often as possible,
lowering the upper bound to the new quotient, and deliver `(d, m)` to
the callback when at least one division succeeded.  `stop` is set when
the callback returns `false`. -/
def factorOut {σ : Type} (f : σ → ℕ → ℕ → σ × Bool) (d : ℕ)
    (st : TDState σ) : TDState σ :=
  if (divLoop st.t st.t d).2 ≠ 0 then
    { t := (divLoop st.t st.t d).1,
      ub := min st.ub (divLoop st.t st.t d).1,
      s := (f st.s d (divLoop st.t st.t d).2).1,
      out := st.out ++ [(d, (divLoop st.t st.t d).2)],
      stop := !(f st.s d (divLoop st.t st.t d).2).2 }
  else st

/-- One small-prime stage (`d ∈ {2, 3, 5, 7}`): run `factorOut d` when
`d ≤ upperBound`; a set `stop` flag (an earlier Go `return`) skips the
stage. -/
def tdSmall {σ : Type} (f : σ → ℕ → ℕ → σ × Bool) (d : ℕ)
    (st : TDState σ) : TDState σ :=
  if st.stop then st
  else if d ≤ st.ub then factorOut f d st
  else st

/-- `mod30Wheel[i]` (Go: `[4, 2, 4, 2, 4, 6, 2, 6]`); the index is
always reduced mod 8, so the catch-all arm is never used. -/
def wheelInc : ℕ → ℕ
  | 0 => 4
  | 1 => 2
  | 2 => 4
  | 3 => 2
  | 4 => 4
  | 5 => 6
  | 6 => 2
  | _ => 6

/-- The residue mod 30 of the wheel's `d` when its index is `i`
(`d` starts at 11 with `i = 1`). -/
def wheelRes : ℕ → ℕ
  | 0 => 7
  | 1 => 11
  | 2 => 13
  | 3 => 17
  | 4 => 19
  | 5 => 23
  | 6 => 29
  | _ => 1

/-- The mod-30 wheel loop: while `d ≤ upperBound`, run `factorOut d`,
then advance `d` by `mod30Wheel[i]` and `i` by 1 mod 8.  The Go loop
terminates because `d` grows while the bound only shrinks; structural
fuel (`upperBound + 2` at the call site) makes this kernel-computable,
and with that much fuel the fuel is never exhausted. -/
def tdWheel {σ : Type} (f : σ → ℕ → ℕ → σ × Bool) :
    ℕ → ℕ → ℕ → TDState σ → TDState σ
  | 0, _, _, st => st
  | fuel + 1, i, d, st =>
    if st.stop then st
    else if d ≤ st.ub then
      tdWheel f fuel ((i + 1) % 8) (d + wheelInc i) (factorOut f d st)
    else st

/-- The final stage: if the remaining quotient `t` is not 1, deliver
`(t, 1)`; the callback's return value is ignored (Go falls off the end
of the function either way). -/
def tdFinish {σ : Type} (f : σ → ℕ → ℕ → σ × Bool)
    (st : TDState σ) : TDState σ :=
  if st.stop then st
  else if st.t ≠ 1 then
    { st with s := (f st.s st.t 1).1, out := st.out ++ [(st.t, 1)] }
  else st

/-- `floorRoot` as a plain function (the `k = 0` panic never arises at
call sites, which pass `k = 2`). -/
def floorRootD (x k : ℕ) : ℕ := (floorRoot x k).getD 0

/-- The initial state: `t = n`, upper bound the argument or its
default `floorRoot(n, 2)`, empty output. -/
def tdInit {σ : Type} (n : ℕ) (ubOpt : Option ℕ) (s0 : σ) : TDState σ :=
  { t := n, ub := ubOpt.getD (floorRootD n 2), s := s0, out := [],
    stop := false }

/-- The four small-prime stages 2, 3, 5, 7 in order. -/
def tdSmalls {σ : Type} (f : σ → ℕ → ℕ → σ × Bool)
    (st : TDState σ) : TDState σ :=
  tdSmall f 7 (tdSmall f 5 (tdSmall f 3 (tdSmall f 2 st)))

/-- The state just before the final stage: initial state, small
primes, then the wheel from `d = 11` with index `i = 1`. -/
def tdPre {σ : Type} (f : σ → ℕ → ℕ → σ × Bool) (n : ℕ)
    (ubOpt : Option ℕ) (s0 : σ) : TDState σ :=
  tdWheel f ((tdSmalls f (tdInit n ubOpt s0)).ub + 2) 1 11
    (tdSmalls f (tdInit n ubOpt s0))

/-- `trialDivide(n, factorFn, upperBound)`.  For `n = 0` the Go
function returns immediately (no calls); negative `n` panics and is
outside the ℕ model. -/
def trialDivide {σ : Type} (f : σ → ℕ → ℕ → σ × Bool) (n : ℕ)
    (ubOpt : Option ℕ) (s0 : σ) : TDState σ :=
  if n = 0 then tdInit n ubOpt s0 else tdFinish f (tdPre f n ubOpt s0)

/-- Reference semantics of a run of the callback over a list of pairs:
thread the state left to right, and cut the list just after the first
pair on which the callback returns `false`.  Returns the final state
and the list of pairs actually delivered. -/
def runCallback {σ : Type} (f : σ → ℕ → ℕ → σ × Bool) :
    σ → List (ℕ × ℕ) → σ × List (ℕ × ℕ)
  | s, [] => (s, [])
  | s, (p, m) :: rest =>
    if (f s p m).2 then
      ((runCallback f (f s p m).1 rest).1,
        (p, m) :: (runCallback f (f s p m).1 rest).2)
    else ((f s p m).1, [(p, m)])

/-- The prime factorization of `t` as a list of (prime, multiplicity)
pairs in ascending prime order, built the way trial division builds
it: split off the least prime factor with its full multiplicity and
recurse on the quotient.  Fuel-structural (`t` shrinks strictly). -/
def factorPairsAux : ℕ → ℕ → List (ℕ × ℕ)
  | 0, _ => []
  | fuel + 1, t =>
    if 2 ≤ t then
      (Nat.minFac t, (divLoop t t (Nat.minFac t)).2) ::
        factorPairsAux fuel ((divLoop t t (Nat.minFac t)).1)
    else []

def factorPairs (t : ℕ) : List (ℕ × ℕ) := factorPairsAux t t

/-- What it means for a pair list to be the prime factorization of `n`
in ascending order (the factorization `trialDivide` enumerates). -/
def FactorizationOutput (n : ℕ) (l : List (ℕ × ℕ)) : Prop :=
  (∀ pr ∈ l, pr.1.Prime ∧ 1 ≤ pr.2) ∧
  List.Chain' (fun x y : ℕ × ℕ => x.1 < y.1) l ∧
  (1 ≤ n → l.foldr (fun pr acc => pr.1 ^ pr.2 * acc) 1 = n) ∧
  (n ≤ 1 → l = [])

/-- The callback of `GetFirstFactorBelow`: record `q` if `q < M` and
`q < n`, and always stop. -/
def firstFactorF (n M : ℕ) : Option ℕ → ℕ → ℕ → Option ℕ × Bool :=
  fun s q _ => (if q < M ∧ q < n then some q else s, false)

/-- `GetFirstFactorBelow(n, M)`: trial-divide with upper bound `M - 1`
and return the recorded factor (if any). -/
def GetFirstFactorBelow (n M : ℕ) : Option ℕ :=
  (trialDivide (firstFactorF n M) n (some (M - 1)) none).s

/-! ### Basic facts about the trial-division building blocks -/

lemma divLoop_of_not_dvd (fuel t d : ℕ) (h : t % d ≠ 0) :
    divLoop fuel t d = (t, 0) := by
  cases fuel with
  | zero => rfl
  | succ fuel => simp [divLoop, h]

/-- With enough fuel, `divLoop` extracts the full power of `d` from
`t`: `t = t' · d^m` with `d ∤ t'`. -/
lemma divLoop_spec (d : ℕ) (hd : 2 ≤ d) :
    ∀ fuel t, 1 ≤ t → t ≤ fuel →
      t = (divLoop fuel t d).1 * d ^ (divLoop fuel t d).2 ∧
      1 ≤ (divLoop fuel t d).1 ∧ ¬ d ∣ (divLoop fuel t d).1 := by
  intro fuel
  induction fuel with
  | zero => intro t ht hle; omega
  | succ fuel ih =>
    intro t ht hle
    by_cases h : t % d = 0
    · have hdvd : d ∣ t := Nat.dvd_of_mod_eq_zero h
      have htd1 : 1 ≤ t / d :=
        (Nat.one_le_div_iff (by omega)).mpr (Nat.le_of_dvd (by omega) hdvd)
      have htd2 : t / d < t := Nat.div_lt_self (by omega) (by omega)
      obtain ⟨h1, h2, h3⟩ := ih (t / d) htd1 (by omega)
      have e : divLoop (fuel + 1) t d =
          ((divLoop fuel (t / d) d).1, (divLoop fuel (t / d) d).2 + 1) := by
        simp [divLoop, h]
      rw [e]
      refine ⟨?_, h2, h3⟩
      show t = (divLoop fuel (t / d) d).1 * d ^ ((divLoop fuel (t / d) d).2 + 1)
      rw [pow_succ, ← mul_assoc, ← h1, Nat.div_mul_cancel hdvd]
    · rw [divLoop_of_not_dvd _ _ _ h]
      refine ⟨by simp, ht, fun hdd => h ?_⟩
      exact Nat.dvd_iff_mod_eq_zero.mp hdd

/-- A set `stop` flag is preserved by every stage (Go's early
`return`s). -/
lemma tdSmall_stopped {σ : Type} (f : σ → ℕ → ℕ → σ × Bool) (d : ℕ)
    (st : TDState σ) (h : st.stop = true) : tdSmall f d st = st := by
  simp [tdSmall, h]

lemma tdWheel_stopped {σ : Type} (f : σ → ℕ → ℕ → σ × Bool) :
    ∀ fuel i d (st : TDState σ), st.stop = true →
      tdWheel f fuel i d st = st := by
  intro fuel i d st h
  cases fuel with
  | zero => rfl
  | succ fuel => simp [tdWheel, h]

lemma tdFinish_stopped {σ : Type} (f : σ → ℕ → ℕ → σ × Bool)
    (st : TDState σ) (h : st.stop = true) : tdFinish f st = st := by
  simp [tdFinish, h]

/-- `factorOut` either finds no factor and does nothing, or delivers
`(d, m)` with the state updated. -/
lemma factorOut_cases {σ : Type} (f : σ → ℕ → ℕ → σ × Bool) (d : ℕ)
    (st : TDState σ) :
    ((divLoop st.t st.t d).2 = 0 ∧ factorOut f d st = st) ∨
    ((divLoop st.t st.t d).2 ≠ 0 ∧ factorOut f d st =
      { t := (divLoop st.t st.t d).1,
        ub := min st.ub (divLoop st.t st.t d).1,
        s := (f st.s d (divLoop st.t st.t d).2).1,
        out := st.out ++ [(d, (divLoop st.t st.t d).2)],
        stop := !(f st.s d (divLoop st.t st.t d).2).2 }) := by
  by_cases h : (divLoop st.t st.t d).2 = 0
  · exact Or.inl ⟨h, by simp [factorOut, h]⟩
  · exact Or.inr ⟨h, by simp [factorOut, h]⟩

lemma wheelInc_catchall (n : ℕ) : wheelInc (n + 7) = 6 := rfl

/-- Every wheel increment is at least 2 (so `d` strictly grows). -/
lemma wheelInc_ge_two (i : ℕ) : 2 ≤ wheelInc i := by
  rcases i with _|_|_|_|_|_|_|n
  all_goals try decide
  rw [wheelInc_catchall]
  omega

/-- Advancing the wheel keeps `d mod 30` on the wheel residues. -/
lemma wheelRes_step : ∀ i < 8,
    (wheelRes i + wheelInc i) % 30 = wheelRes ((i + 1) % 8) := by
  decide

/-- The values skipped by the wheel between `d` and `d + wheelInc i`
all share a factor with 30. -/
lemma wheel_gap : ∀ i < 8, ∀ x < wheelInc i, 0 < x →
    (wheelRes i + x) % 30 % 2 = 0 ∨ (wheelRes i + x) % 30 % 3 = 0 ∨
    (wheelRes i + x) % 30 % 5 = 0 := by
  decide

/-- A prime whose residue mod 30 shares a factor with 30 is 2, 3
or 5. -/
lemma prime_mod30 (q : ℕ) (hq : q.Prime)
    (h : q % 30 % 2 = 0 ∨ q % 30 % 3 = 0 ∨ q % 30 % 5 = 0) :
    q = 2 ∨ q = 3 ∨ q = 5 := by
  have e2 : q % 2 = q % 30 % 2 := (Nat.mod_mod_of_dvd q (by norm_num)).symm
  have e3 : q % 3 = q % 30 % 3 := (Nat.mod_mod_of_dvd q (by norm_num)).symm
  have e5 : q % 5 = q % 30 % 5 := (Nat.mod_mod_of_dvd q (by norm_num)).symm
  rcases h with h | h | h
  · have hdvd : 2 ∣ q := Nat.dvd_of_mod_eq_zero (by omega)
    rcases (Nat.Prime.eq_one_or_self_of_dvd hq 2 hdvd) with h2 | h2 <;> omega
  · have hdvd : 3 ∣ q := Nat.dvd_of_mod_eq_zero (by omega)
    rcases (Nat.Prime.eq_one_or_self_of_dvd hq 3 hdvd) with h2 | h2 <;> omega
  · have hdvd : 5 ∣ q := Nat.dvd_of_mod_eq_zero (by omega)
    rcases (Nat.Prime.eq_one_or_self_of_dvd hq 5 hdvd) with h2 | h2 <;> omega

/-- No prime lies strictly between a wheel value `d ≥ 11` and the next
wheel value. -/
lemma wheel_no_prime_in_gap (i d q : ℕ) (hi : i < 8)
    (hd30 : d % 30 = wheelRes i) (hq : q.Prime) (h11 : 11 ≤ d)
    (hlo : d < q) (hhi : q < d + wheelInc i) : False := by
  have hq30 : q % 30 = (wheelRes i + (q - d)) % 30 := by omega
  have hgap := wheel_gap i hi (q - d) (by omega) (by omega)
  rw [← hq30] at hgap
  have h235 := prime_mod30 q hq hgap
  omega

/-- Primes between consecutive members of `[2, 3, 5, 7, 11]` do not
exist. -/
lemma small_gap : ∀ q, q.Prime → 2 < q → q < 3 → False := by
  intro q _ h1 h2; omega

lemma small_gap35 : ∀ q, q.Prime → 3 < q → q < 5 → False := by
  intro q hq h1 h2
  interval_cases q
  exact absurd hq (by norm_num)

lemma small_gap57 : ∀ q, q.Prime → 5 < q → q < 7 → False := by
  intro q hq h1 h2
  interval_cases q
  exact absurd hq (by norm_num)

lemma small_gap711 : ∀ q, q.Prime → 7 < q → q < 11 → False := by
  intro q hq h1 h2
  interval_cases q <;> exact absurd hq (by norm_num)

/-! ### The enumerated factorization `factorPairs` -/

lemma factorPairsAux_small (fuel t : ℕ) (h : t < 2) :
    factorPairsAux fuel t = [] := by
  cases fuel with
  | zero => rfl
  | succ fuel => simp [factorPairsAux, show ¬ 2 ≤ t by omega]

/-- The key numbers of one `factorPairs` step: the quotient after
removing the least prime factor completely. -/
lemma minFac_divLoop (t : ℕ) (h2 : 2 ≤ t) :
    1 ≤ (divLoop t t t.minFac).1 ∧ (divLoop t t t.minFac).1 < t ∧
    1 ≤ (divLoop t t t.minFac).2 ∧
    t = (divLoop t t t.minFac).1 * t.minFac ^ (divLoop t t t.minFac).2 ∧
    ¬ t.minFac ∣ (divLoop t t t.minFac).1 := by
  have hp : t.minFac.Prime := Nat.minFac_prime (by omega)
  have hp2 : 2 ≤ t.minFac := hp.two_le
  obtain ⟨heq, h1, hnd⟩ := divLoop_spec t.minFac hp2 t t (by omega) le_rfl
  have hm : 1 ≤ (divLoop t t t.minFac).2 := by
    by_contra hm0
    have hm0' : (divLoop t t t.minFac).2 = 0 := by omega
    rw [hm0', pow_zero, mul_one] at heq
    exact hnd (heq ▸ Nat.minFac_dvd t)
  have hpow : 2 ≤ t.minFac ^ (divLoop t t t.minFac).2 :=
    le_trans hp2 (Nat.le_self_pow (by omega) _)
  have hlt : (divLoop t t t.minFac).1 < t := by
    have := Nat.mul_le_mul_left (divLoop t t t.minFac).1 hpow
    omega
  exact ⟨h1, hlt, hm, heq, hnd⟩

lemma factorPairsAux_congr : ∀ fuel fuel' t, t ≤ fuel → t ≤ fuel' →
    factorPairsAux fuel t = factorPairsAux fuel' t := by
  intro fuel
  induction fuel with
  | zero =>
    intro fuel' t h h'
    have ht : t = 0 := by omega
    rw [ht, factorPairsAux_small _ _ (by omega),
      factorPairsAux_small _ _ (by omega)]
  | succ fuel ih =>
    intro fuel' t h h'
    by_cases h2 : 2 ≤ t
    · obtain ⟨ht1, htlt, _, _, _⟩ := minFac_divLoop t h2
      cases fuel' with
      | zero => omega
      | succ fuel'' =>
        simp only [factorPairsAux, if_pos h2]
        rw [ih fuel'' _ (by omega) (by omega)]
    · rw [factorPairsAux_small _ _ (by omega),
        factorPairsAux_small _ _ (by omega)]

lemma factorPairs_small (t : ℕ) (h : t < 2) : factorPairs t = [] :=
  factorPairsAux_small t t h

/-- Unfolding: for `t ≥ 2`, `factorPairs` splits off the least prime
factor with its full multiplicity. -/
lemma factorPairs_unfold (t : ℕ) (h2 : 2 ≤ t) :
    factorPairs t = (t.minFac, (divLoop t t t.minFac).2) ::
      factorPairs ((divLoop t t t.minFac).1) := by
  obtain ⟨ht1, htlt, _, _, _⟩ := minFac_divLoop t h2
  obtain ⟨u, hu⟩ : ∃ u, t = u + 1 := ⟨t - 1, by omega⟩
  rw [factorPairs, factorPairs]
  conv_lhs => rw [hu]
  show (if 2 ≤ u + 1 then
      ((u + 1).minFac, (divLoop (u + 1) (u + 1) (u + 1).minFac).2) ::
        factorPairsAux u ((divLoop (u + 1) (u + 1) (u + 1).minFac).1)
    else []) = _
  rw [if_pos (by omega), ← hu]
  congr 1
  exact factorPairsAux_congr u _ _ (by omega) le_rfl

/-- Every enumerated pair is a prime with positive multiplicity
dividing `t`. -/
lemma factorPairs_mem : ∀ t, ∀ pr ∈ factorPairs t,
    pr.1.Prime ∧ 1 ≤ pr.2 ∧ pr.1 ∣ t := by
  intro t
  induction t using Nat.strong_induction_on with
  | _ t ih =>
    intro pr hpr
    by_cases h2 : 2 ≤ t
    · obtain ⟨ht1, htlt, hm, heq, _⟩ := minFac_divLoop t h2
      rw [factorPairs_unfold t h2] at hpr
      rcases List.mem_cons.mp hpr with hpr | hpr
      · rw [hpr]
        exact ⟨Nat.minFac_prime (by omega), hm, Nat.minFac_dvd t⟩
      · obtain ⟨hp, hm', hdvd⟩ := ih _ htlt pr hpr
        refine ⟨hp, hm', hdvd.trans ⟨t.minFac ^ (divLoop t t t.minFac).2, heq⟩⟩
    · rw [factorPairs_small t (by omega)] at hpr
      simp at hpr

/-- Every prime factor of the quotient after removing `minFac t`
completely is strictly bigger than `minFac t`. -/
lemma minFac_quot_gt (t : ℕ) (h2 : 2 ≤ t) :
    ∀ q, q.Prime → q ∣ (divLoop t t t.minFac).1 → t.minFac < q := by
  obtain ⟨ht1, htlt, hm, heq, hnd⟩ := minFac_divLoop t h2
  intro q hq hdvd
  have hqt : q ∣ t :=
    hdvd.trans ⟨t.minFac ^ (divLoop t t t.minFac).2, heq⟩
  have hge : t.minFac ≤ q := Nat.minFac_le_of_dvd hq.two_le hqt
  rcases Nat.lt_or_ge t.minFac q with h | h
  · exact h
  · exfalso
    have : t.minFac = q := by omega
    exact hnd (this ▸ hdvd)

/-- The enumerated primes are strictly ascending. -/
lemma factorPairs_chain : ∀ t,
    List.Chain' (fun x y : ℕ × ℕ => x.1 < y.1) (factorPairs t) := by
  intro t
  induction t using Nat.strong_induction_on with
  | _ t ih =>
    by_cases h2 : 2 ≤ t
    · obtain ⟨ht1, htlt, hm, heq, hnd⟩ := minFac_divLoop t h2
      rw [factorPairs_unfold t h2]
      refine List.chain'_cons'.mpr ⟨?_, ih _ htlt⟩
      intro y hy
      by_cases h2' : 2 ≤ (divLoop t t t.minFac).1
      · rw [factorPairs_unfold _ h2'] at hy
        simp only [List.head?_cons, Option.mem_def, Option.some_inj] at hy
        rw [← hy]
        exact minFac_quot_gt t h2 _ (Nat.minFac_prime (by omega))
          (Nat.minFac_dvd _)
      · rw [factorPairs_small _ (by omega)] at hy
        simp at hy
    · rw [factorPairs_small t (by omega)]
      exact List.chain'_nil

/-- The enumerated factorization multiplies back to `t`. -/
lemma factorPairs_prod : ∀ t, 1 ≤ t →
    (factorPairs t).foldr (fun pr acc => pr.1 ^ pr.2 * acc) 1 = t := by
  intro t
  induction t using Nat.strong_induction_on with
  | _ t ih =>
    intro ht
    by_cases h2 : 2 ≤ t
    · obtain ⟨ht1, htlt, hm, heq, hnd⟩ := minFac_divLoop t h2
      rw [factorPairs_unfold t h2, List.foldr_cons, ih _ htlt ht1]
      rw [mul_comm]
      exact heq.symm
    · have : t = 1 := by omega
      rw [this, factorPairs_small 1 (by omega)]
      rfl

lemma factorizationOutput_factorPairs (n : ℕ) :
    FactorizationOutput n (factorPairs n) := by
  refine ⟨fun pr hpr => ?_, factorPairs_chain n, factorPairs_prod n,
    fun h1 => factorPairs_small n (by omega)⟩
  obtain ⟨hp, hm, _⟩ := factorPairs_mem n pr hpr
  exact ⟨hp, hm⟩

/-- The default upper bound `floorRoot(n, 2)` is `⌊√n⌋`. -/
lemma floorRootD_sqrt (x : ℕ) : floorRootD x 2 = Nat.sqrt x := by
  obtain ⟨y, hy, hle, hmax⟩ := floorRoot_spec x 2 (by omega)
  rw [floorRootD, hy, Option.getD_some]
  refine Nat.eq_sqrt'.mpr ⟨hle, ?_⟩
  by_contra h
  push_neg at h
  have := hmax (y + 1) h
  omega

/-! ### Invariant propagation through the trial-division stages

The invariant carried from stage to stage, at a stage about to try
divisor `d`: the quotient `t` is positive, `⌊√t⌋ ≤ upperBound`, and
every prime factor of `t` below `d` exceeds the upper bound (it was
tried earlier and did not divide, or the bound has since shrunk below
it — in fact smaller primes simply no longer divide `t`; the form
with the bound is what survives bound shrinking). -/

lemma factorOut_inv {σ : Type} (f : σ → ℕ → ℕ → σ × Bool) (d dn : ℕ)
    (hd : 2 ≤ d) (hdn : d < dn) (st : TDState σ) (ht : 1 ≤ st.t)
    (hsq : Nat.sqrt st.t ≤ st.ub)
    (hq : ∀ q, q.Prime → q ∣ st.t → q < d → st.ub < q)
    (hgap : ∀ q, q.Prime → d < q → q < dn → False) :
    1 ≤ (factorOut f d st).t ∧
    Nat.sqrt (factorOut f d st).t ≤ (factorOut f d st).ub ∧
    (factorOut f d st).ub ≤ st.ub ∧ (factorOut f d st).t ≤ st.t ∧
    ∀ q, q.Prime → q ∣ (factorOut f d st).t → q < dn →
      (factorOut f d st).ub < q := by
  obtain ⟨heq, h1, hnd⟩ := divLoop_spec d hd st.t st.t ht le_rfl
  rcases factorOut_cases f d st with ⟨hm0, hst⟩ | ⟨hm1, hst⟩
  · rw [hst]
    rw [hm0, pow_zero, mul_one] at heq
    refine ⟨ht, hsq, le_rfl, le_rfl, fun q hq' hdvd hlt => ?_⟩
    rcases Nat.lt_trichotomy q d with h | h | h
    · exact hq q hq' hdvd h
    · exact absurd (h ▸ hdvd) (heq ▸ hnd)
    · exact (hgap q hq' h hlt).elim
  · rw [hst]
    have htle : (divLoop st.t st.t d).1 ≤ st.t := by
      have hpow : 1 ≤ d ^ (divLoop st.t st.t d).2 := Nat.one_le_pow _ _ (by omega)
      have := Nat.mul_le_mul_left (divLoop st.t st.t d).1 hpow
      omega
    refine ⟨h1, ?_, min_le_left _ _, htle, fun q hq' hdvd hlt => ?_⟩
    · exact le_min (le_trans (Nat.sqrt_le_sqrt htle) hsq) (Nat.sqrt_le_self _)
    · have hdvdt : q ∣ st.t :=
        hdvd.trans ⟨d ^ (divLoop st.t st.t d).2, heq⟩
      rcases Nat.lt_trichotomy q d with h | h | h
      · exact lt_of_le_of_lt (min_le_left _ _) (hq q hq' hdvdt h)
      · exact absurd (h ▸ hdvd) hnd
      · exact (hgap q hq' h hlt).elim

/-- When the loop is over (`d` exceeded the bound) every prime factor
of `t` exceeds the bound, so the final stage's `t` (if ≠ 1) is prime,
and `tdFinish` delivers exactly the truncated run of the callback over
the remaining factorization (which is `[]` or `[(t, 1)]`). -/
lemma tdExit_correct {σ : Type} (f : σ → ℕ → ℕ → σ × Bool)
    (st : TDState σ) (hstop : st.stop = false) (ht : 1 ≤ st.t)
    (hsq : Nat.sqrt st.t ≤ st.ub)
    (hbig : ∀ q, q.Prime → q ∣ st.t → st.ub < q) :
    (tdFinish f st).out = st.out ++ (runCallback f st.s (factorPairs st.t)).2 ∧
    (tdFinish f st).s = (runCallback f st.s (factorPairs st.t)).1 := by
  by_cases h1 : st.t = 1
  · rw [h1, factorPairs_small 1 (by omega)]
    simp [tdFinish, hstop, h1, runCallback]
  · have ht2 : 2 ≤ st.t := by omega
    have hprime : st.t.Prime := by
      by_contra hnp
      have hmf : st.t.minFac.Prime := Nat.minFac_prime h1
      have hsq2 : st.t.minFac * st.t.minFac ≤ st.t := by
        have := Nat.minFac_sq_le_self (by omega) hnp
        rwa [pow_two] at this
      have h3 : st.t.minFac ≤ Nat.sqrt st.t := Nat.le_sqrt.mpr hsq2
      have := hbig _ hmf (Nat.minFac_dvd _)
      omega
    have hfp : factorPairs st.t = [(st.t, 1)] := by
      rw [factorPairs_unfold st.t ht2]
      obtain ⟨hq1, hqlt, hm, heq, hnd⟩ := minFac_divLoop st.t ht2
      rw [hprime.minFac_eq] at hq1 hqlt hm heq hnd ⊢
      have hTM : st.t ^ (divLoop st.t st.t st.t).2 ≤ st.t := by
        calc st.t ^ (divLoop st.t st.t st.t).2
            ≤ (divLoop st.t st.t st.t).1 * st.t ^ (divLoop st.t st.t st.t).2 :=
              Nat.le_mul_of_pos_left _ (by omega)
        _ = st.t := heq.symm
      have hTM2 : st.t ≤ st.t ^ (divLoop st.t st.t st.t).2 :=
        Nat.le_self_pow (by omega) st.t
      have hm1 : (divLoop st.t st.t st.t).2 = 1 := by
        by_contra hm2
        have hple : st.t ^ 2 ≤ st.t ^ (divLoop st.t st.t st.t).2 :=
          Nat.pow_le_pow_right (by omega) (by omega)
        rw [pow_two] at hple
        have h2T : 2 * st.t ≤ st.t * st.t := by nlinarith
        omega
      rw [hm1, pow_one] at heq
      have hq1' : (divLoop st.t st.t st.t).1 = 1 := by
        have he : (divLoop st.t st.t st.t).1 * st.t = 1 * st.t := by
          rw [one_mul]; omega
        exact Nat.eq_of_mul_eq_mul_right (by omega) he
      rw [hm1, hq1', factorPairs_small 1 (by omega)]
    rw [hfp]
    have hrun : runCallback f st.s [(st.t, 1)] =
        ((f st.s st.t 1).1, [(st.t, 1)]) := by
      rw [runCallback]
      rcases hb : (f st.s st.t 1).2 <;> simp [hb, runCallback]
    rw [hrun]
    simp [tdFinish, hstop, h1]

/-- Master lemma for the wheel loop followed by the final stage: under
the stage invariant, the delivered pairs are exactly the truncated run
of the callback over the remaining factorization.  The fuel hypothesis
`ub + 2 ≤ fuel + d` always holds at the call site and is maintained
because `d` grows by at least 2 while the bound never grows. -/
lemma tdWheel_master {σ : Type} (f : σ → ℕ → ℕ → σ × Bool) :
    ∀ fuel i d (st : TDState σ),
      st.stop = false → 1 ≤ st.t → Nat.sqrt st.t ≤ st.ub →
      (∀ q, q.Prime → q ∣ st.t → q < d → st.ub < q) →
      i < 8 → d % 30 = wheelRes i → 11 ≤ d → st.ub + 2 ≤ fuel + d →
      (tdFinish f (tdWheel f fuel i d st)).out =
        st.out ++ (runCallback f st.s (factorPairs st.t)).2 ∧
      (tdFinish f (tdWheel f fuel i d st)).s =
        (runCallback f st.s (factorPairs st.t)).1 := by
  intro fuel
  induction fuel with
  | zero =>
    intro i d st hstop ht hsq hq hi hd30 h11 hfuel
    have e : tdWheel f 0 i d st = st := rfl
    rw [e]
    refine tdExit_correct f st hstop ht hsq (fun q hq' hdvd => ?_)
    rcases Nat.lt_or_ge q d with h | h
    · exact hq q hq' hdvd h
    · omega
  | succ fuel ih =>
    intro i d st hstop ht hsq hq hi hd30 h11 hfuel
    by_cases hdub : d ≤ st.ub
    case neg =>
      have e : tdWheel f (fuel + 1) i d st = st := by
        simp [tdWheel, hstop, hdub]
      rw [e]
      refine tdExit_correct f st hstop ht hsq (fun q hq' hdvd => ?_)
      rcases Nat.lt_or_ge q d with h | h
      · exact hq q hq' hdvd h
      · omega
    case pos =>
      have e : tdWheel f (fuel + 1) i d st =
          tdWheel f fuel ((i + 1) % 8) (d + wheelInc i) (factorOut f d st) := by
        simp [tdWheel, hstop, hdub]
      rw [e]
      have hw2 := wheelInc_ge_two i
      have hgap : ∀ q, q.Prime → d < q → q < d + wheelInc i → False :=
        fun q hq' hg1 hg2 => wheel_no_prime_in_gap i d q hi hd30 hq' h11 hg1 hg2
      have hmod : (d + wheelInc i) % 30 = wheelRes ((i + 1) % 8) := by
        have hs := wheelRes_step i hi
        omega
      have hinv := factorOut_inv f d (d + wheelInc i) (by omega) (by omega)
        st ht hsq hq hgap
      rcases factorOut_cases f d st with ⟨hm0, hst⟩ | ⟨hm1, hst⟩
      · rw [hst] at hinv ⊢
        obtain ⟨h1, h2, h3, h4, h5⟩ := hinv
        exact ih ((i + 1) % 8) (d + wheelInc i) st hstop ht hsq h5
          (Nat.mod_lt _ (by omega)) hmod (by omega) (by omega)
      · obtain ⟨heq, hp1, hnd⟩ := divLoop_spec d (by omega) st.t st.t ht le_rfl
        have hdvdt : d ∣ st.t := by
          rw [heq]
          exact (dvd_pow_self d hm1).mul_left _
        have ht2 : 2 ≤ st.t :=
          le_trans (by omega) (Nat.le_of_dvd (by omega) hdvdt)
        have hmf : st.t.minFac = d := by
          have hle := Nat.minFac_le_of_dvd (by omega) hdvdt
          rcases Nat.lt_or_ge st.t.minFac d with h | h
          · exfalso
            have := hq _ (Nat.minFac_prime (by omega)) (Nat.minFac_dvd _) h
            omega
          · omega
        have hfp : factorPairs st.t =
            (d, (divLoop st.t st.t d).2) ::
              factorPairs ((divLoop st.t st.t d).1) := by
          have hu := factorPairs_unfold st.t ht2
          rw [hmf] at hu
          exact hu
        rcases hfb : (f st.s d (divLoop st.t st.t d).2).2
        case false =>
          have hst' : (factorOut f d st).stop = true := by
            rw [hst]; simp [hfb]
          rw [tdWheel_stopped f fuel _ _ _ hst', tdFinish_stopped f _ hst',
            hst, hfp]
          simp [runCallback, hfb]
        case true =>
          have hst' : (factorOut f d st).stop = false := by
            rw [hst]; simp [hfb]
          obtain ⟨h1, h2, h3, h4, h5⟩ := hinv
          obtain ⟨ihout, ihs⟩ := ih ((i + 1) % 8) (d + wheelInc i)
            (factorOut f d st) hst' h1 h2 h5 (Nat.mod_lt _ (by omega)) hmod
            (by omega) (by omega)
          constructor
          · rw [ihout, hst, hfp]
            simp [runCallback, hfb]
          · rw [ihs, hst, hfp]
            simp [runCallback, hfb]

/-- Step lemma for one small-prime stage: if the remaining pipeline
(`tail`) delivers the truncated run from any state satisfying the
invariant at the next divisor `pn`, then the stage for `p` followed by
`tail` delivers the truncated run from a state satisfying the
invariant at `p`. -/
lemma tdSmall_step {σ : Type} (f : σ → ℕ → ℕ → σ × Bool)
    (tail : TDState σ → TDState σ) (p pn : ℕ) (hp : p.Prime) (hpn : p < pn)
    (hgap : ∀ q, q.Prime → p < q → q < pn → False)
    (htail_stopped : ∀ s : TDState σ, s.stop = true → tail s = s)
    (htail : ∀ s : TDState σ, s.stop = false → 1 ≤ s.t →
      Nat.sqrt s.t ≤ s.ub →
      (∀ q, q.Prime → q ∣ s.t → q < pn → s.ub < q) →
      (tail s).out = s.out ++ (runCallback f s.s (factorPairs s.t)).2 ∧
      (tail s).s = (runCallback f s.s (factorPairs s.t)).1)
    (st : TDState σ) (hstop : st.stop = false) (ht : 1 ≤ st.t)
    (hsq : Nat.sqrt st.t ≤ st.ub)
    (hq : ∀ q, q.Prime → q ∣ st.t → q < p → st.ub < q) :
    (tail (tdSmall f p st)).out =
      st.out ++ (runCallback f st.s (factorPairs st.t)).2 ∧
    (tail (tdSmall f p st)).s = (runCallback f st.s (factorPairs st.t)).1 := by
  have hp2 := hp.two_le
  by_cases hpub : p ≤ st.ub
  case neg =>
    have e : tdSmall f p st = st := by simp [tdSmall, hstop, hpub]
    rw [e]
    refine htail st hstop ht hsq (fun q hq' hdvd hlt => ?_)
    rcases Nat.lt_trichotomy q p with h | h | h
    · exact hq q hq' hdvd h
    · omega
    · exact (hgap q hq' h hlt).elim
  case pos =>
    have e : tdSmall f p st = factorOut f p st := by
      simp [tdSmall, hstop, hpub]
    rw [e]
    have hinv := factorOut_inv f p pn hp2 hpn st ht hsq hq hgap
    rcases factorOut_cases f p st with ⟨hm0, hst⟩ | ⟨hm1, hst⟩
    · rw [hst] at hinv ⊢
      obtain ⟨h1, h2, h3, h4, h5⟩ := hinv
      exact htail st hstop ht hsq h5
    · obtain ⟨heq, hp1, hnd⟩ := divLoop_spec p hp2 st.t st.t ht le_rfl
      have hdvdt : p ∣ st.t := by
        rw [heq]
        exact (dvd_pow_self p hm1).mul_left _
      have ht2 : 2 ≤ st.t := le_trans hp2 (Nat.le_of_dvd (by omega) hdvdt)
      have hmf : st.t.minFac = p := by
        have hle := Nat.minFac_le_of_dvd hp2 hdvdt
        rcases Nat.lt_or_ge st.t.minFac p with h | h
        · exfalso
          have := hq _ (Nat.minFac_prime (by omega)) (Nat.minFac_dvd _) h
          omega
        · omega
      have hfp : factorPairs st.t =
          (p, (divLoop st.t st.t p).2) ::
            factorPairs ((divLoop st.t st.t p).1) := by
        have hu := factorPairs_unfold st.t ht2
        rw [hmf] at hu
        exact hu
      rcases hfb : (f st.s p (divLoop st.t st.t p).2).2
      case false =>
        have hst' : (factorOut f p st).stop = true := by
          rw [hst]; simp [hfb]
        rw [htail_stopped _ hst', hst, hfp]
        simp [runCallback, hfb]
      case true =>
        have hst' : (factorOut f p st).stop = false := by
          rw [hst]; simp [hfb]
        obtain ⟨h1, h2, h3, h4, h5⟩ := hinv
        obtain ⟨ihout, ihs⟩ := htail (factorOut f p st) hst' h1 h2 h5
        constructor
        · rw [ihout, hst, hfp]
          simp [runCallback, hfb]
        · rw [ihs, hst, hfp]
          simp [runCallback, hfb]

/-- The four small-prime stages, the wheel, and the final stage
together deliver the truncated run over the full factorization. -/
lemma tdStages_correct {σ : Type} (f : σ → ℕ → ℕ → σ × Bool)
    (st : TDState σ) (hstop : st.stop = false) (ht : 1 ≤ st.t)
    (hsq : Nat.sqrt st.t ≤ st.ub) :
    (tdFinish f (tdWheel f ((tdSmalls f st).ub + 2) 1 11 (tdSmalls f st))).out
      = st.out ++ (runCallback f st.s (factorPairs st.t)).2 ∧
    (tdFinish f (tdWheel f ((tdSmalls f st).ub + 2) 1 11 (tdSmalls f st))).s
      = (runCallback f st.s (factorPairs st.t)).1 := by
  have tail11 : ∀ s : TDState σ, s.stop = false → 1 ≤ s.t →
      Nat.sqrt s.t ≤ s.ub →
      (∀ q, q.Prime → q ∣ s.t → q < 11 → s.ub < q) →
      (tdFinish f (tdWheel f (s.ub + 2) 1 11 s)).out =
        s.out ++ (runCallback f s.s (factorPairs s.t)).2 ∧
      (tdFinish f (tdWheel f (s.ub + 2) 1 11 s)).s =
        (runCallback f s.s (factorPairs s.t)).1 :=
    fun s h1 h2 h3 h4 =>
      tdWheel_master f (s.ub + 2) 1 11 s h1 h2 h3 h4 (by omega) (by decide)
        (by omega) (by omega)
  have stopped11 : ∀ s : TDState σ, s.stop = true →
      tdFinish f (tdWheel f (s.ub + 2) 1 11 s) = s := fun s h => by
    rw [tdWheel_stopped f _ _ _ _ h, tdFinish_stopped f _ h]
  have tail7 : ∀ s : TDState σ, s.stop = false → 1 ≤ s.t →
      Nat.sqrt s.t ≤ s.ub →
      (∀ q, q.Prime → q ∣ s.t → q < 7 → s.ub < q) →
      (tdFinish f (tdWheel f ((tdSmall f 7 s).ub + 2) 1 11
          (tdSmall f 7 s))).out =
        s.out ++ (runCallback f s.s (factorPairs s.t)).2 ∧
      (tdFinish f (tdWheel f ((tdSmall f 7 s).ub + 2) 1 11
          (tdSmall f 7 s))).s =
        (runCallback f s.s (factorPairs s.t)).1 :=
    fun s h1 h2 h3 h4 =>
      tdSmall_step f (fun u => tdFinish f (tdWheel f (u.ub + 2) 1 11 u))
        7 11 (by norm_num) (by omega) small_gap711 stopped11 tail11
        s h1 h2 h3 h4
  have stopped7 : ∀ s : TDState σ, s.stop = true →
      tdFinish f (tdWheel f ((tdSmall f 7 s).ub + 2) 1 11 (tdSmall f 7 s))
        = s := fun s h => by
    rw [tdSmall_stopped f 7 s h, tdWheel_stopped f _ _ _ _ h,
      tdFinish_stopped f _ h]
  have tail5 : ∀ s : TDState σ, s.stop = false → 1 ≤ s.t →
      Nat.sqrt s.t ≤ s.ub →
      (∀ q, q.Prime → q ∣ s.t → q < 5 → s.ub < q) →
      (tdFinish f (tdWheel f ((tdSmall f 7 (tdSmall f 5 s)).ub + 2) 1 11
          (tdSmall f 7 (tdSmall f 5 s)))).out =
        s.out ++ (runCallback f s.s (factorPairs s.t)).2 ∧
      (tdFinish f (tdWheel f ((tdSmall f 7 (tdSmall f 5 s)).ub + 2) 1 11
          (tdSmall f 7 (tdSmall f 5 s)))).s =
        (runCallback f s.s (factorPairs s.t)).1 :=
    fun s h1 h2 h3 h4 =>
      tdSmall_step f
        (fun u => tdFinish f (tdWheel f ((tdSmall f 7 u).ub + 2) 1 11
          (tdSmall f 7 u)))
        5 7 (by norm_num) (by omega) small_gap57 stopped7 tail7
        s h1 h2 h3 h4
  have stopped5 : ∀ s : TDState σ, s.stop = true →
      tdFinish f (tdWheel f ((tdSmall f 7 (tdSmall f 5 s)).ub + 2) 1 11
        (tdSmall f 7 (tdSmall f 5 s))) = s := fun s h => by
    rw [tdSmall_stopped f 5 s h, tdSmall_stopped f 7 s h,
      tdWheel_stopped f _ _ _ _ h, tdFinish_stopped f _ h]
  have tail3 : ∀ s : TDState σ, s.stop = false → 1 ≤ s.t →
      Nat.sqrt s.t ≤ s.ub →
      (∀ q, q.Prime → q ∣ s.t → q < 3 → s.ub < q) →
      (tdFinish f (tdWheel f
          ((tdSmall f 7 (tdSmall f 5 (tdSmall f 3 s))).ub + 2) 1 11
          (tdSmall f 7 (tdSmall f 5 (tdSmall f 3 s))))).out =
        s.out ++ (runCallback f s.s (factorPairs s.t)).2 ∧
      (tdFinish f (tdWheel f
          ((tdSmall f 7 (tdSmall f 5 (tdSmall f 3 s))).ub + 2) 1 11
          (tdSmall f 7 (tdSmall f 5 (tdSmall f 3 s))))).s =
        (runCallback f s.s (factorPairs s.t)).1 :=
    fun s h1 h2 h3 h4 =>
      tdSmall_step f
        (fun u => tdFinish f (tdWheel f ((tdSmall f 7 (tdSmall f 5 u)).ub + 2)
          1 11 (tdSmall f 7 (tdSmall f 5 u))))
        3 5 (by norm_num) (by omega) small_gap35 stopped5 tail5
        s h1 h2 h3 h4
  have stopped3 : ∀ s : TDState σ, s.stop = true →
      tdFinish f (tdWheel f
        ((tdSmall f 7 (tdSmall f 5 (tdSmall f 3 s))).ub + 2) 1 11
        (tdSmall f 7 (tdSmall f 5 (tdSmall f 3 s)))) = s := fun s h => by
    rw [tdSmall_stopped f 3 s h, tdSmall_stopped f 5 s h,
      tdSmall_stopped f 7 s h, tdWheel_stopped f _ _ _ _ h,
      tdFinish_stopped f _ h]
  rw [tdSmalls]
  exact tdSmall_step f
    (fun u => tdFinish f (tdWheel f
      ((tdSmall f 7 (tdSmall f 5 (tdSmall f 3 u))).ub + 2) 1 11
      (tdSmall f 7 (tdSmall f 5 (tdSmall f 3 u)))))
    2 3 (by norm_num) (by omega) small_gap stopped3 tail3
    st hstop ht hsq
    (fun q hq' _ hlt => absurd hq'.two_le (by omega))

/-- `trialDivide` with the default bound delivers exactly the
truncated run of the callback over the prime factorization. -/
lemma trialDivide_run {σ : Type} (f : σ → ℕ → ℕ → σ × Bool) (n : ℕ)
    (s0 : σ) :
    (trialDivide f n none s0).out = (runCallback f s0 (factorPairs n)).2 ∧
    (trialDivide f n none s0).s = (runCallback f s0 (factorPairs n)).1 := by
  by_cases hn : n = 0
  · rw [hn, factorPairs_small 0 (by omega)]
    simp [trialDivide, tdInit, runCallback]
  · have e : trialDivide f n none s0 = tdFinish f (tdPre f n none s0) := by
      rw [trialDivide, if_neg hn]
    rw [e, tdPre]
    have hub : (tdInit (σ := σ) n none s0).ub = Nat.sqrt n := floorRootD_sqrt n
    have h := tdStages_correct f (tdInit n none s0) rfl
      (show 1 ≤ n by omega) (by rw [hub]; exact Nat.sqrt_le_sqrt le_rfl)
    simpa [tdInit] using h

/-- C5: for every `n ≥ 0`, `trialDivide(n, f, nil)` calls the
callback on exactly the pairs of the prime factorization of `n` in
strictly ascending prime order with the correct multiplicities
(`factorPairs n`, whose properties are stated by
`FactorizationOutput`, including no calls for `n ∈ {0, 1}`), and a
`false` return from the callback suppresses exactly the later pairs:
the delivered pairs and the final callback state equal the truncated
run `runCallback` over that factorization. -/
theorem C5_trialDivide_factorization {σ : Type}
    (f : σ → ℕ → ℕ → σ × Bool) (n : ℕ) (s0 : σ) :
    ((trialDivide f n none s0).out = (runCallback f s0 (factorPairs n)).2 ∧
     (trialDivide f n none s0).s = (runCallback f s0 (factorPairs n)).1) ∧
    FactorizationOutput n (factorPairs n) :=
  ⟨trialDivide_run f n s0, factorizationOutput_factorPairs n⟩

/-- C5 witness: a concrete run (`n = 20`, stateless callback that
always continues). -/
theorem C5_trialDivide_factorization_witness :
    ((trialDivide (fun (s : Unit) (_ _ : ℕ) => (s, true)) 20 none ()).out =
       (runCallback (fun (s : Unit) (_ _ : ℕ) => (s, true)) ()
         (factorPairs 20)).2 ∧
     (trialDivide (fun (s : Unit) (_ _ : ℕ) => (s, true)) 20 none ()).s =
       (runCallback (fun (s : Unit) (_ _ : ℕ) => (s, true)) ()
         (factorPairs 20)).1) ∧
    FactorizationOutput 20 (factorPairs 20) :=
  C5_trialDivide_factorization (fun (s : Unit) (_ _ : ℕ) => (s, true)) 20 ()

/-! ### Invariant propagation for the final stage (C6) -/

lemma bool_eq_false {b : Bool} (h : ¬ b = true) : b = false := by
  cases b
  · rfl
  · exact absurd rfl h

lemma stop_mono_small {σ : Type} (f : σ → ℕ → ℕ → σ × Bool) (p : ℕ)
    (st : TDState σ) (h : st.stop = true) :
    (tdSmall f p st).stop = true := by
  rw [tdSmall_stopped f p st h]
  exact h

lemma stop_mono_wheel {σ : Type} (f : σ → ℕ → ℕ → σ × Bool)
    (fuel i d : ℕ) (st : TDState σ) (h : st.stop = true) :
    (tdWheel f fuel i d st).stop = true := by
  rw [tdWheel_stopped f fuel i d st h]
  exact h

/-- One small-prime stage preserves the stage invariant, shifting the
divisor threshold from `p` to the next divisor `pn`. -/
lemma tdSmall_inv {σ : Type} (f : σ → ℕ → ℕ → σ × Bool) (p pn : ℕ)
    (hp2 : 2 ≤ p) (hpn : p < pn)
    (hgap : ∀ q, q.Prime → p < q → q < pn → False)
    (st : TDState σ) (hstop : st.stop = false) (ht : 1 ≤ st.t)
    (hsq : Nat.sqrt st.t ≤ st.ub)
    (hq : ∀ q, q.Prime → q ∣ st.t → q < p → st.ub < q) :
    1 ≤ (tdSmall f p st).t ∧
    Nat.sqrt (tdSmall f p st).t ≤ (tdSmall f p st).ub ∧
    ∀ q, q.Prime → q ∣ (tdSmall f p st).t → q < pn →
      (tdSmall f p st).ub < q := by
  by_cases hpub : p ≤ st.ub
  · have e : tdSmall f p st = factorOut f p st := by
      simp [tdSmall, hstop, hpub]
    rw [e]
    obtain ⟨h1, h2, _, _, h5⟩ := factorOut_inv f p pn hp2 hpn st ht hsq hq hgap
    exact ⟨h1, h2, h5⟩
  · have e : tdSmall f p st = st := by simp [tdSmall, hstop, hpub]
    rw [e]
    refine ⟨ht, hsq, fun q hq' hdvd hlt => ?_⟩
    rcases Nat.lt_trichotomy q p with h | h | h
    · exact hq q hq' hdvd h
    · omega
    · exact (hgap q hq' h hlt).elim

/-- The wheel preserves the stage invariant; when it finishes without
a stop, every prime factor of the remaining quotient exceeds the
upper bound. -/
lemma tdWheel_inv {σ : Type} (f : σ → ℕ → ℕ → σ × Bool) :
    ∀ fuel i d (st : TDState σ),
      1 ≤ st.t → Nat.sqrt st.t ≤ st.ub →
      (∀ q, q.Prime → q ∣ st.t → q < d → st.ub < q) →
      i < 8 → d % 30 = wheelRes i → 11 ≤ d → st.ub + 2 ≤ fuel + d →
      (tdWheel f fuel i d st).stop = false →
      1 ≤ (tdWheel f fuel i d st).t ∧
      Nat.sqrt (tdWheel f fuel i d st).t ≤ (tdWheel f fuel i d st).ub ∧
      ∀ q, q.Prime → q ∣ (tdWheel f fuel i d st).t →
        (tdWheel f fuel i d st).ub < q := by
  intro fuel
  induction fuel with
  | zero =>
    intro i d st ht hsq hq hi hd30 h11 hfuel hstop
    have e : tdWheel f 0 i d st = st := rfl
    rw [e]
    refine ⟨ht, hsq, fun q hq' hdvd => ?_⟩
    rcases Nat.lt_or_ge q d with h | h
    · exact hq q hq' hdvd h
    · omega
  | succ fuel ih =>
    intro i d st ht hsq hq hi hd30 h11 hfuel hstop
    by_cases hst : st.stop = true
    · rw [tdWheel_stopped f _ _ _ _ hst] at hstop
      rw [hst] at hstop
      exact absurd hstop (by simp)
    · have hstf : st.stop = false := bool_eq_false hst
      by_cases hdub : d ≤ st.ub
      · have e : tdWheel f (fuel + 1) i d st =
            tdWheel f fuel ((i + 1) % 8) (d + wheelInc i)
              (factorOut f d st) := by
          simp [tdWheel, hstf, hdub]
        rw [e] at hstop ⊢
        have hw2 := wheelInc_ge_two i
        have hgap : ∀ q, q.Prime → d < q → q < d + wheelInc i → False :=
          fun q hq' hg1 hg2 =>
            wheel_no_prime_in_gap i d q hi hd30 hq' h11 hg1 hg2
        obtain ⟨h1, h2, h3, h4, h5⟩ := factorOut_inv f d (d + wheelInc i)
          (by omega) (by omega) st ht hsq hq hgap
        have hmod : (d + wheelInc i) % 30 = wheelRes ((i + 1) % 8) := by
          have hs := wheelRes_step i hi
          omega
        exact ih _ _ _ h1 h2 h5 (Nat.mod_lt _ (by omega)) hmod (by omega)
          (by omega) hstop
      · have e : tdWheel f (fuel + 1) i d st = st := by
          simp [tdWheel, hstf, hdub]
        rw [e]
        refine ⟨ht, hsq, fun q hq' hdvd => ?_⟩
        rcases Nat.lt_or_ge q d with h | h
        · exact hq q hq' hdvd h
        · omega

/-- Invariants at the state reached just before the final stage (with
the default upper bound), provided no stop was requested. -/
lemma tdPre_inv {σ : Type} (f : σ → ℕ → ℕ → σ × Bool) (n : ℕ) (s0 : σ)
    (hn : 1 ≤ n) (hstop : (tdPre f n none s0).stop = false) :
    1 ≤ (tdPre f n none s0).t ∧
    Nat.sqrt (tdPre f n none s0).t ≤ (tdPre f n none s0).ub ∧
    ∀ q, q.Prime → q ∣ (tdPre f n none s0).t → (tdPre f n none s0).ub < q := by
  have epre : tdPre f n none s0 =
      tdWheel f ((tdSmalls f (tdInit n none s0)).ub + 2) 1 11
        (tdSmalls f (tdInit n none s0)) := rfl
  set st0 : TDState σ := tdInit n none s0 with hst0
  have hub : st0.ub = Nat.sqrt n := floorRootD_sqrt n
  -- intermediate states are not stopped, else the stop would propagate
  have hs1 : (tdSmall f 2 st0).stop = false := by
    refine bool_eq_false (fun h => ?_)
    rw [epre, tdSmalls] at hstop
    rw [stop_mono_wheel f _ _ _ _
      (stop_mono_small f 7 _ (stop_mono_small f 5 _
        (stop_mono_small f 3 _ h)))] at hstop
    exact absurd hstop (by simp)
  have hs2 : (tdSmall f 3 (tdSmall f 2 st0)).stop = false := by
    refine bool_eq_false (fun h => ?_)
    rw [epre, tdSmalls] at hstop
    rw [stop_mono_wheel f _ _ _ _
      (stop_mono_small f 7 _ (stop_mono_small f 5 _ h))] at hstop
    exact absurd hstop (by simp)
  have hs3 : (tdSmall f 5 (tdSmall f 3 (tdSmall f 2 st0))).stop = false := by
    refine bool_eq_false (fun h => ?_)
    rw [epre, tdSmalls] at hstop
    rw [stop_mono_wheel f _ _ _ _ (stop_mono_small f 7 _ h)] at hstop
    exact absurd hstop (by simp)
  have hi1 := tdSmall_inv f 2 3 (by omega) (by omega) small_gap st0 rfl
    (show 1 ≤ n from hn) (by rw [hub]; exact Nat.sqrt_le_sqrt le_rfl)
    (fun q hq' _ hlt => absurd hq'.two_le (by omega))
  obtain ⟨h1t, h1sq, h1q⟩ := hi1
  obtain ⟨h2t, h2sq, h2q⟩ := tdSmall_inv f 3 5 (by omega) (by omega)
    small_gap35 _ hs1 h1t h1sq h1q
  obtain ⟨h3t, h3sq, h3q⟩ := tdSmall_inv f 5 7 (by omega) (by omega)
    small_gap57 _ hs2 h2t h2sq h2q
  obtain ⟨h4t, h4sq, h4q⟩ := tdSmall_inv f 7 11 (by omega) (by omega)
    small_gap711 _ hs3 h3t h3sq h3q
  rw [epre, tdSmalls]
  rw [epre, tdSmalls] at hstop
  exact tdWheel_inv f _ 1 11 _ h4t h4sq h4q (by omega) (by decide) (by omega)
    (by omega) hstop

/-- C6, corrected: with an arbitrary explicit upper bound the final
delivered quotient need not be prime.  With `n = 15` and upper bound
2, no divisor is ever tried (2 > 1 is the only candidate and 15 is
odd... in fact `2 ≤ 2` is tried but does not divide), so the final
stage delivers `(15, 1)` although 15 is composite. -/
theorem C6_counterexample :
    (trialDivide (fun (s : Unit) (_ _ : ℕ) => (s, true)) 15 (some 2) ()).out
      = [(15, 1)] ∧ ¬ (15 : ℕ).Prime :=
  ⟨by decide, by norm_num⟩

/-- C6 (amended: default upper bound `⌊√n⌋`, i.e. `upperBound = nil`):
for every `n ≥ 1`, if no stop was requested and the quotient `t`
remaining after the wheel loop exceeds 1, then `(t, 1)` is delivered
to the callback and this `t` is prime.  (With an explicitly supplied
smaller bound the delivered `t` can be composite, see the
counterexample.) -/
theorem C6_final_quotient_prime {σ : Type} (f : σ → ℕ → ℕ → σ × Bool)
    (n : ℕ) (s0 : σ) (hn : 1 ≤ n)
    (hstop : (tdPre f n none s0).stop = false)
    (ht2 : 2 ≤ (tdPre f n none s0).t) :
    (trialDivide f n none s0).out =
      (tdPre f n none s0).out ++ [((tdPre f n none s0).t, 1)] ∧
    (trialDivide f n none s0).s =
      (f (tdPre f n none s0).s (tdPre f n none s0).t 1).1 ∧
    ((tdPre f n none s0).t).Prime := by
  obtain ⟨h1, h2, h3⟩ := tdPre_inv f n s0 hn hstop
  have hprime : ((tdPre f n none s0).t).Prime := by
    by_contra hnp
    have hmf := Nat.minFac_prime (show (tdPre f n none s0).t ≠ 1 by omega)
    have hsq2 := Nat.minFac_sq_le_self
      (show 0 < (tdPre f n none s0).t by omega) hnp
    have h4 : (tdPre f n none s0).t.minFac ≤ Nat.sqrt (tdPre f n none s0).t :=
      Nat.le_sqrt'.mpr hsq2
    have := h3 _ hmf (Nat.minFac_dvd _)
    omega
  have e : trialDivide f n none s0 = tdFinish f (tdPre f n none s0) := by
    rw [trialDivide, if_neg (by omega)]
  refine ⟨?_, ?_, hprime⟩ <;>
    rw [e] <;>
    simp [tdFinish, hstop, show (tdPre f n none s0).t ≠ 1 by omega]

/-- C6 witness: `n = 15` with the default bound `⌊√15⌋ = 3`;
the 3 is divided out, the wheel never runs, and the remaining
quotient 5 is delivered and is prime. -/
theorem C6_final_quotient_prime_witness :
    (1 ≤ 15 ∧
     (tdPre (fun (s : Unit) (_ _ : ℕ) => (s, true)) 15 none ()).stop = false ∧
     2 ≤ (tdPre (fun (s : Unit) (_ _ : ℕ) => (s, true)) 15 none ()).t) ∧
    ((trialDivide (fun (s : Unit) (_ _ : ℕ) => (s, true)) 15 none ()).out =
       (tdPre (fun (s : Unit) (_ _ : ℕ) => (s, true)) 15 none ()).out ++
         [((tdPre (fun (s : Unit) (_ _ : ℕ) => (s, true)) 15 none ()).t, 1)] ∧
     (trialDivide (fun (s : Unit) (_ _ : ℕ) => (s, true)) 15 none ()).s =
       ((fun (s : Unit) (_ _ : ℕ) => (s, true))
         (tdPre (fun (s : Unit) (_ _ : ℕ) => (s, true)) 15 none ()).s
         (tdPre (fun (s : Unit) (_ _ : ℕ) => (s, true)) 15 none ()).t 1).1 ∧
     ((tdPre (fun (s : Unit) (_ _ : ℕ) => (s, true)) 15 none ()).t).Prime) := by
  have hfr : floorRoot 15 2 = some 3 := by
    have hbl : bitLen 15 = 4 := by decide
    rw [floorRoot, if_neg (show ¬ (2 = 0) by omega),
      if_neg (show ¬ (15 = 0) by omega)]
    show some (floorRootLoop 15 2
      (2 ^ (bitLen 15 / 2 + if bitLen 15 % 2 = 0 then 0 else 1))) = some 3
    rw [hbl]
    have h4 : (2 : ℕ) ^ (4 / 2 + if 4 % 2 = 0 then 0 else 1) = 4 := by
      norm_num
    rw [h4,
      floorRootLoop_eq 15 2 3 (by omega) (by omega) (by norm_num)
        (by norm_num) 4 (by omega)]
  have h0 : tdInit (σ := Unit) 15 none () = ⟨15, 3, (), [], false⟩ := by
    show (⟨15, (floorRoot 15 2).getD 0, (), [], false⟩ : TDState Unit) = _
    rw [hfr]
    rfl
  have hpre : tdPre (fun (s : Unit) (_ _ : ℕ) => (s, true)) 15 none () =
      ⟨5, 3, (), [(3, 1)], false⟩ := by
    simp only [tdPre, tdSmalls, h0]
    decide
  refine ⟨⟨by omega, by rw [hpre], by rw [hpre]; decide⟩,
    C6_final_quotient_prime (fun (s : Unit) (_ _ : ℕ) => (s, true)) 15 ()
      (by omega) (by rw [hpre]) (by rw [hpre]; decide)⟩

/-! ### First-delivery analysis (C7, `GetFirstFactorBelow`) -/

lemma factorOut_id {σ : Type} (f : σ → ℕ → ℕ → σ × Bool) (d : ℕ)
    (st : TDState σ) (hnd : ¬ d ∣ st.t) : factorOut f d st = st := by
  have h : st.t % d ≠ 0 := fun hm => hnd (Nat.dvd_of_mod_eq_zero hm)
  simp [factorOut, divLoop_of_not_dvd st.t st.t d h]

lemma tdSmall_id {σ : Type} (f : σ → ℕ → ℕ → σ × Bool) (p : ℕ)
    (st : TDState σ) (hstop : st.stop = false) (hnd : ¬ p ∣ st.t) :
    tdSmall f p st = st := by
  by_cases hpub : p ≤ st.ub
  · simp [tdSmall, hstop, hpub, factorOut_id f p st hnd]
  · simp [tdSmall, hstop, hpub]

lemma tdSmall_id_ub {σ : Type} (f : σ → ℕ → ℕ → σ × Bool) (p : ℕ)
    (st : TDState σ) (hstop : st.stop = false)
    (h : p ∣ st.t → st.ub < p) : tdSmall f p st = st := by
  by_cases hpub : p ≤ st.ub
  · have hnd : ¬ p ∣ st.t := fun hdd => absurd (h hdd) (by omega)
    simp [tdSmall, hstop, hpub, factorOut_id f p st hnd]
  · simp [tdSmall, hstop, hpub]

/-- If every divisor of `t` (other than 1) exceeds the upper bound,
the wheel does nothing. -/
lemma tdWheel_id {σ : Type} (f : σ → ℕ → ℕ → σ × Bool) :
    ∀ fuel i d (st : TDState σ), st.stop = false → 2 ≤ d →
      (∀ e, 2 ≤ e → e ∣ st.t → st.ub < e) →
      tdWheel f fuel i d st = st := by
  intro fuel
  induction fuel with
  | zero => intro i d st _ _ _; rfl
  | succ fuel ih =>
    intro i d st hstop hd hall
    by_cases hdub : d ≤ st.ub
    · have hnd : ¬ d ∣ st.t := fun hdd => absurd (hall d hd hdd) (by omega)
      have e : tdWheel f (fuel + 1) i d st =
          tdWheel f fuel ((i + 1) % 8) (d + wheelInc i)
            (factorOut f d st) := by
        simp [tdWheel, hstop, hdub]
      rw [e, factorOut_id f d st hnd]
      exact ih _ _ st hstop (by have := wheelInc_ge_two i; omega) hall
    · simp [tdWheel, hstop, hdub]

/-- If every divisor of `t` (other than 1) exceeds the upper bound,
the whole loop pipeline does nothing. -/
lemma td_pre_nodiv {σ : Type} (f : σ → ℕ → ℕ → σ × Bool)
    (st : TDState σ) (hstop : st.stop = false)
    (hall : ∀ e, 2 ≤ e → e ∣ st.t → st.ub < e) :
    tdWheel f ((tdSmalls f st).ub + 2) 1 11 (tdSmalls f st) = st := by
  have hsm : tdSmalls f st = st := by
    rw [tdSmalls, tdSmall_id_ub f 2 st hstop (hall 2 (by omega)),
      tdSmall_id_ub f 3 st hstop (hall 3 (by omega)),
      tdSmall_id_ub f 5 st hstop (hall 5 (by omega)),
      tdSmall_id_ub f 7 st hstop (hall 7 (by omega))]
  rw [hsm]
  exact tdWheel_id f (st.ub + 2) 1 11 st hstop (by omega) hall

/-- `factorOut` on a divisor of `t` whose delivery stops: the
multiplicity is positive and the stage stops with the delivered pair
recorded. -/
lemma factorOut_first {σ : Type} (f : σ → ℕ → ℕ → σ × Bool) (d : ℕ)
    (st : TDState σ) (hd : 2 ≤ d) (ht : 1 ≤ st.t) (hdvd : d ∣ st.t)
    (hfb : (f st.s d (divLoop st.t st.t d).2).2 = false) :
    1 ≤ (divLoop st.t st.t d).2 ∧
    (factorOut f d st).stop = true ∧
    (factorOut f d st).s = (f st.s d (divLoop st.t st.t d).2).1 ∧
    (factorOut f d st).out = st.out ++ [(d, (divLoop st.t st.t d).2)] := by
  obtain ⟨heq, h1, hnd⟩ := divLoop_spec d hd st.t st.t ht le_rfl
  have hm : 1 ≤ (divLoop st.t st.t d).2 := by
    by_contra hm0
    have hm0' : (divLoop st.t st.t d).2 = 0 := by omega
    rw [hm0', pow_zero, mul_one] at heq
    exact hnd (heq ▸ hdvd)
  rcases factorOut_cases f d st with ⟨hm0, _⟩ | ⟨_, hst⟩
  · omega
  · rw [hst]
    refine ⟨hm, ?_, rfl, rfl⟩
    show (!(f st.s d (divLoop st.t st.t d).2).2) = true
    rw [hfb]
    rfl

/-- With an always-stopping callback, once the wheel is headed toward
the least prime factor (which is on the wheel and within the bound),
it finds it, delivers it with its multiplicity and stops. -/
lemma tdWheel_first {σ : Type} (f : σ → ℕ → ℕ → σ × Bool)
    (hf : ∀ s p m, (f s p m).2 = false) :
    ∀ fuel i d (st : TDState σ), st.stop = false → 2 ≤ st.t →
      11 ≤ d → i < 8 → d % 30 = wheelRes i → st.ub + 2 ≤ fuel + d →
      d ≤ st.t.minFac → st.t.minFac ≤ st.ub →
      ∃ m, 1 ≤ m ∧ (tdWheel f fuel i d st).stop = true ∧
        (tdWheel f fuel i d st).s = (f st.s st.t.minFac m).1 ∧
        (tdWheel f fuel i d st).out = st.out ++ [(st.t.minFac, m)] := by
  intro fuel
  induction fuel with
  | zero =>
    intro i d st _ _ _ _ _ hfuel hdm hub
    omega
  | succ fuel ih =>
    intro i d st hstop ht2 h11 hi hd30 hfuel hdm hub
    have hspf : st.t.minFac.Prime := Nat.minFac_prime (by omega)
    have hdub : d ≤ st.ub := le_trans hdm hub
    have e : tdWheel f (fuel + 1) i d st =
        tdWheel f fuel ((i + 1) % 8) (d + wheelInc i)
          (factorOut f d st) := by
      simp [tdWheel, hstop, hdub]
    by_cases hd_spf : d = st.t.minFac
    · have hdvd : d ∣ st.t := hd_spf ▸ Nat.minFac_dvd st.t
      obtain ⟨hm, hstp, hs, hout⟩ :=
        factorOut_first f d st (by omega) (by omega) hdvd (hf _ _ _)
      rw [e, tdWheel_stopped f fuel _ _ _ hstp]
      exact ⟨(divLoop st.t st.t d).2, hm, hstp, by rw [hs, hd_spf],
        by rw [hout, hd_spf]⟩
    · have hdlt : d < st.t.minFac := by omega
      have hnd : ¬ d ∣ st.t := fun hdd => by
        have := Nat.minFac_le_of_dvd (by omega) hdd
        omega
      rw [e, factorOut_id f d st hnd]
      have hw2 := wheelInc_ge_two i
      have hnext : d + wheelInc i ≤ st.t.minFac := by
        by_contra hlt
        push_neg at hlt
        exact wheel_no_prime_in_gap i d st.t.minFac hi hd30 hspf h11
          hdlt hlt
      have hmod : (d + wheelInc i) % 30 = wheelRes ((i + 1) % 8) := by
        have hs := wheelRes_step i hi
        omega
      exact ih ((i + 1) % 8) (d + wheelInc i) st hstop ht2 (by omega)
        (Nat.mod_lt _ (by omega)) hmod (by omega) hnext hub

/-- With an always-stopping callback, when the least prime factor is
one of the four small stage primes and lies within the bound, the
small stages find it, deliver it and stop. -/
lemma smalls_find {σ : Type} (f : σ → ℕ → ℕ → σ × Bool)
    (hf : ∀ s p m, (f s p m).2 = false) (st : TDState σ)
    (hstop : st.stop = false) (h2t : 2 ≤ st.t)
    (hspf : st.t.minFac ≤ st.ub)
    (hsmall : st.t.minFac = 2 ∨ st.t.minFac = 3 ∨ st.t.minFac = 5 ∨
      st.t.minFac = 7) :
    ∃ m, 1 ≤ m ∧ (tdSmalls f st).stop = true ∧
      (tdSmalls f st).s = (f st.s st.t.minFac m).1 ∧
      (tdSmalls f st).out = st.out ++ [(st.t.minFac, m)] := by
  have hnd : ∀ q, 2 ≤ q → q < st.t.minFac → ¬ q ∣ st.t :=
    fun q h2 hlt hdd => absurd (Nat.minFac_le_of_dvd h2 hdd) (by omega)
  rcases hsmall with h | h | h | h
  · have hdvd : 2 ∣ st.t := h ▸ Nat.minFac_dvd st.t
    have hub : 2 ≤ st.ub := h ▸ hspf
    have e2 : tdSmall f 2 st = factorOut f 2 st := by
      simp [tdSmall, hstop, hub]
    obtain ⟨hm, hstp, hs, hout⟩ :=
      factorOut_first f 2 st (by omega) (by omega) hdvd (hf _ _ _)
    refine ⟨(divLoop st.t st.t 2).2, hm, ?_, ?_, ?_⟩ <;>
      rw [tdSmalls, e2, tdSmall_stopped f 3 _ hstp,
        tdSmall_stopped f 5 _ hstp, tdSmall_stopped f 7 _ hstp]
    · exact hstp
    · rw [hs, h]
    · rw [hout, h]
  · have hdvd : 3 ∣ st.t := h ▸ Nat.minFac_dvd st.t
    have hub : 3 ≤ st.ub := h ▸ hspf
    have e2 : tdSmall f 2 st = st :=
      tdSmall_id f 2 st hstop (hnd 2 (by omega) (by omega))
    have e3 : tdSmall f 3 st = factorOut f 3 st := by
      simp [tdSmall, hstop, hub]
    obtain ⟨hm, hstp, hs, hout⟩ :=
      factorOut_first f 3 st (by omega) (by omega) hdvd (hf _ _ _)
    refine ⟨(divLoop st.t st.t 3).2, hm, ?_, ?_, ?_⟩ <;>
      rw [tdSmalls, e2, e3, tdSmall_stopped f 5 _ hstp,
        tdSmall_stopped f 7 _ hstp]
    · exact hstp
    · rw [hs, h]
    · rw [hout, h]
  · have hdvd : 5 ∣ st.t := h ▸ Nat.minFac_dvd st.t
    have hub : 5 ≤ st.ub := h ▸ hspf
    have e2 : tdSmall f 2 st = st :=
      tdSmall_id f 2 st hstop (hnd 2 (by omega) (by omega))
    have e3 : tdSmall f 3 st = st :=
      tdSmall_id f 3 st hstop (hnd 3 (by omega) (by omega))
    have e5 : tdSmall f 5 st = factorOut f 5 st := by
      simp [tdSmall, hstop, hub]
    obtain ⟨hm, hstp, hs, hout⟩ :=
      factorOut_first f 5 st (by omega) (by omega) hdvd (hf _ _ _)
    refine ⟨(divLoop st.t st.t 5).2, hm, ?_, ?_, ?_⟩ <;>
      rw [tdSmalls, e2, e3, e5, tdSmall_stopped f 7 _ hstp]
    · exact hstp
    · rw [hs, h]
    · rw [hout, h]
  · have hdvd : 7 ∣ st.t := h ▸ Nat.minFac_dvd st.t
    have hub : 7 ≤ st.ub := h ▸ hspf
    have e2 : tdSmall f 2 st = st :=
      tdSmall_id f 2 st hstop (hnd 2 (by omega) (by omega))
    have e3 : tdSmall f 3 st = st :=
      tdSmall_id f 3 st hstop (hnd 3 (by omega) (by omega))
    have e5 : tdSmall f 5 st = st :=
      tdSmall_id f 5 st hstop (hnd 5 (by omega) (by omega))
    have e7 : tdSmall f 7 st = factorOut f 7 st := by
      simp [tdSmall, hstop, hub]
    obtain ⟨hm, hstp, hs, hout⟩ :=
      factorOut_first f 7 st (by omega) (by omega) hdvd (hf _ _ _)
    refine ⟨(divLoop st.t st.t 7).2, hm, ?_, ?_, ?_⟩ <;>
      rw [tdSmalls, e2, e3, e5, e7]
    · exact hstp
    · rw [hs, h]
    · rw [hout, h]

lemma prime_cases (p : ℕ) (hp : p.Prime) :
    p = 2 ∨ p = 3 ∨ p = 5 ∨ p = 7 ∨ 11 ≤ p := by
  have h2 := hp.two_le
  by_contra h
  push_neg at h
  obtain ⟨h2', h3', h5', h7', h11⟩ := h
  interval_cases p <;> first | omega | exact absurd hp (by norm_num)

/-- C7: for every `n ≥ 1` and every `M`, `GetFirstFactorBelow(n, M)`
returns the smallest prime factor `p = minFac n` of `n` exactly when
`p < M` and `p < n`, and `none` (Go: nil) otherwise — in particular
`none` whenever `n` is prime, because the `q < n` test rejects the
factor `n` itself even when `n < M`. -/
theorem C7_getFirstFactorBelow (n M : ℕ) (hn : 1 ≤ n) :
    GetFirstFactorBelow n M =
      if n.minFac < M ∧ n.minFac < n then some n.minFac else none := by
  have hf : ∀ (s : Option ℕ) p m, (firstFactorF n M s p m).2 = false :=
    fun s p m => rfl
  have epre : tdPre (firstFactorF n M) n (some (M - 1)) none =
      tdWheel (firstFactorF n M)
        ((tdSmalls (firstFactorF n M) (tdInit n (some (M - 1)) none)).ub + 2)
        1 11 (tdSmalls (firstFactorF n M) (tdInit n (some (M - 1)) none)) :=
    rfl
  have e : GetFirstFactorBelow n M =
      (tdFinish (firstFactorF n M)
        (tdPre (firstFactorF n M) n (some (M - 1)) none)).s := by
    rw [GetFirstFactorBelow, trialDivide, if_neg (by omega)]
  have h0t : (tdInit (σ := Option ℕ) n (some (M - 1)) none).t = n := rfl
  have h0ub : (tdInit (σ := Option ℕ) n (some (M - 1)) none).ub = M - 1 := rfl
  have h0stop : (tdInit (σ := Option ℕ) n (some (M - 1)) none).stop = false :=
    rfl
  by_cases hn1 : n = 1
  · subst hn1
    have hall : ∀ e', 2 ≤ e' →
        e' ∣ (tdInit (σ := Option ℕ) 1 (some (M - 1)) none).t →
        (tdInit (σ := Option ℕ) 1 (some (M - 1)) none).ub < e' := by
      intro e' h2 hdd
      rw [h0t, Nat.dvd_one] at hdd
      omega
    have hpre : tdPre (firstFactorF 1 M) 1 (some (M - 1)) none =
        tdInit 1 (some (M - 1)) none := by
      rw [epre, td_pre_nodiv _ _ h0stop hall]
    have hfin : tdFinish (firstFactorF 1 M) (tdInit 1 (some (M - 1)) none) =
        tdInit 1 (some (M - 1)) none := by
      simp [tdFinish, h0stop, h0t]
    rw [e, hpre, hfin]
    show (none : Option ℕ) = _
    rw [if_neg (by simp [Nat.minFac_one])]
  · have hn2 : 2 ≤ n := by omega
    have hmfp : n.minFac.Prime := Nat.minFac_prime hn1
    have hmf2 : 2 ≤ n.minFac := hmfp.two_le
    have hmfd := Nat.minFac_dvd n
    have hmfle : n.minFac ≤ n := Nat.minFac_le (by omega)
    by_cases hB : n.minFac ≤ M - 1
    case neg =>
      have hall : ∀ e', 2 ≤ e' →
          e' ∣ (tdInit (σ := Option ℕ) n (some (M - 1)) none).t →
          (tdInit (σ := Option ℕ) n (some (M - 1)) none).ub < e' := by
        intro e' h2 hdd
        rw [h0t] at hdd
        have := Nat.minFac_le_of_dvd h2 hdd
        rw [h0ub]
        omega
      have hpre : tdPre (firstFactorF n M) n (some (M - 1)) none =
          tdInit n (some (M - 1)) none := by
        rw [epre, td_pre_nodiv _ _ h0stop hall]
      have hfin : (tdFinish (firstFactorF n M)
          (tdInit n (some (M - 1)) none)).s =
          (firstFactorF n M (tdInit (σ := Option ℕ) n (some (M - 1)) none).s
            (tdInit (σ := Option ℕ) n (some (M - 1)) none).t 1).1 := by
        simp [tdFinish, h0stop, show
          (tdInit (σ := Option ℕ) n (some (M - 1)) none).t ≠ 1 by
            rw [h0t]; omega]
      rw [e, hpre, hfin]
      show (if n < M ∧ n < n then some n else none) = _
      rw [if_neg (by omega), if_neg (by omega)]
    case pos =>
      have hMlt : n.minFac < M := by omega
      by_cases hwheel : 11 ≤ n.minFac
      · have hnd : ∀ p, 2 ≤ p → p < 11 →
            ¬ p ∣ (tdInit (σ := Option ℕ) n (some (M - 1)) none).t := by
          intro p h2 hlt hdd
          rw [h0t] at hdd
          have := Nat.minFac_le_of_dvd h2 hdd
          omega
        have hsm : tdSmalls (firstFactorF n M)
            (tdInit n (some (M - 1)) none) =
            tdInit n (some (M - 1)) none := by
          rw [tdSmalls,
            tdSmall_id _ 2 _ h0stop (hnd 2 (by omega) (by omega)),
            tdSmall_id _ 3 _ h0stop (hnd 3 (by omega) (by omega)),
            tdSmall_id _ 5 _ h0stop (hnd 5 (by omega) (by omega)),
            tdSmall_id _ 7 _ h0stop (hnd 7 (by omega) (by omega))]
        obtain ⟨m, hm, hstp, hs, hout⟩ := tdWheel_first (firstFactorF n M) hf
          ((tdInit (σ := Option ℕ) n (some (M - 1)) none).ub + 2) 1 11
          (tdInit n (some (M - 1)) none) h0stop
          (by rw [h0t]; omega) (by omega) (by omega) (by decide) (by omega)
          (by rw [h0t]; omega) (by rw [h0t, h0ub]; exact hB)
        have hpre : tdPre (firstFactorF n M) n (some (M - 1)) none =
            tdWheel (firstFactorF n M)
              ((tdInit (σ := Option ℕ) n (some (M - 1)) none).ub + 2) 1 11
              (tdInit n (some (M - 1)) none) := by
          rw [epre, hsm]
        rw [e, hpre, tdFinish_stopped _ _ hstp, hs, h0t]
        rfl
      · have hsm : n.minFac = 2 ∨ n.minFac = 3 ∨ n.minFac = 5 ∨
            n.minFac = 7 := by
          rcases prime_cases n.minFac hmfp with hc | hc | hc | hc | hc
          · exact Or.inl hc
          · exact Or.inr (Or.inl hc)
          · exact Or.inr (Or.inr (Or.inl hc))
          · exact Or.inr (Or.inr (Or.inr hc))
          · omega
        obtain ⟨m, hm, hstp, hs, hout⟩ := smalls_find (firstFactorF n M) hf
          (tdInit n (some (M - 1)) none) h0stop (by rw [h0t]; omega)
          (by rw [h0t, h0ub]; exact hB) (by rw [h0t]; exact hsm)
        have hpre : tdPre (firstFactorF n M) n (some (M - 1)) none =
            tdSmalls (firstFactorF n M) (tdInit n (some (M - 1)) none) := by
          rw [epre, tdWheel_stopped _ _ _ _ _ hstp]
        rw [e, hpre, tdFinish_stopped _ _ hstp, hs, h0t]
        rfl

/-- C7 witness: `n = 10`, `M = 5` (least factor 2, reported), checked
through the theorem. -/
theorem C7_getFirstFactorBelow_witness :
    1 ≤ 10 ∧ (GetFirstFactorBelow 10 5 =
      if (10 : ℕ).minFac < 5 ∧ (10 : ℕ).minFac < 10
      then some (10 : ℕ).minFac else none) :=
  ⟨by omega, C7_getFirstFactorBelow 10 5 (by omega)⟩

/-! ## Limb-array model of `bigIntPoly` (C4, invariant I3)

`bigIntPoly` packs `R` coefficients of `k` 64-bit limbs each into one
`big.Int` `phi` whose backing array has capacity `2·R·k` limbs.  After
a `big.Int` operation writes `phi`, the limbs above `phi`'s normalized
length hold unspecified junk ("no assumptions can be made about the
bytes in the unused capacity"), yet `getCoefficient` reads whole
`k`-limb slots, so the code maintains invariant I3: the limbs of the
leading coefficient's slot above the limbs actually used are zero.

We model the backing array as a total function `arr : ℕ → ℕ` (limb
values) plus the normalized `big.Int` length `len`, and each `big.Int`
store as `bigStore v g`: the limbs of the value `v` followed by an
arbitrary garbage function `g` — the theorem quantifies over all `g`,
capturing "regardless of the prior contents of the spare capacity".
Word-level writes (`commitCoefficient`'s clearing loop, coefficient
updates through the aliased slot) update `arr` pointwise.
`SetBits(bits[0 : c*k])` (Go's `setCoefficientCount`) truncates to
`c·k` limbs and normalizes (trims high zero limbs), which is where I3
comes from. -/

structure LimbState where
  len : ℕ
  arr : ℕ → ℕ

/-- The `j`-th 64-bit limb of the value `v`. -/
def digits64 (v j : ℕ) : ℕ := v / 2 ^ (64 * j) % 2 ^ 64

/-- State after a `big.Int` operation stored the value `v` into
`phi`: the limbs of `v`, arbitrary junk `g` above. -/
def bigStore (v : ℕ) (g : ℕ → ℕ) : LimbState :=
  ⟨wordsOf v, fun j => if j < wordsOf v then digits64 v j else g j⟩

/-- The value read from limbs `[lo, hi)` (Go: `SetBits(bits[lo:hi])`). -/
def partVal (s : LimbState) (lo hi : ℕ) : ℕ :=
  ∑ j ∈ Finset.range (hi - lo), s.arr (lo + j) * 2 ^ (64 * j)

/-- The value of `phi`. -/
def limbVal (s : LimbState) : ℕ := partVal s 0 s.len

/-- A word-level clearing loop over `[lo, hi)` (the loops in
`commitCoefficient` and in `mul`'s leading-slot clear). -/
def clearRange (s : LimbState) (lo hi : ℕ) : LimbState :=
  ⟨s.len, fun j => if lo ≤ j ∧ j < hi then 0 else s.arr j⟩

/-- Writing the value `w` into coefficient slot `i` through the
aliased `big.Int` returned by `getCoefficient` (`c.Mod`, `c.Set`):
`w`'s limbs land at the bottom of the slot, the rest of the slot keeps
its previous (possibly stale) limbs. -/
def slotWrite (s : LimbState) (i k w : ℕ) : LimbState :=
  ⟨s.len, fun j => if i * k ≤ j ∧ j < i * k + wordsOf w
    then digits64 w (j - i * k) else s.arr j⟩

/-- A slot write followed by `commitCoefficient`: the rest of the slot
above `w`'s limbs is cleared. -/
def commitWrite (s : LimbState) (i k w : ℕ) : LimbState :=
  clearRange (slotWrite s i k w) (i * k + wordsOf w) ((i + 1) * k)

/-- The normalized length of coefficient slot `i` (the length of the
`big.Int` built by `getCoefficient`). -/
def normLen (a : ℕ → ℕ) : ℕ → ℕ
  | 0 => 0
  | m + 1 => if a m = 0 then normLen a m else m + 1

def slotLen (s : LimbState) (i k : ℕ) : ℕ :=
  normLen (fun j => s.arr (i * k + j)) k

/-- The value of coefficient slot `i` as read by `getCoefficient`. -/
def slotVal (s : LimbState) (i k : ℕ) : ℕ :=
  ∑ j ∈ Finset.range k, s.arr (i * k + j) * 2 ^ (64 * j)

/-- `getCoefficientCount` from a `Bits()` length. -/
def lenCC (k l : ℕ) : ℕ :=
  if l = 0 then 0 else l / k + if l % k = 0 then 0 else 1

/-- Invariant I3: the limbs above the normalized length, within the
leading coefficient's `k`-limb slot, are zero. -/
def LimbI3 (k : ℕ) (s : LimbState) : Prop :=
  ∀ j, s.len ≤ j → j < lenCC k s.len * k → s.arr j = 0

/-- `bigIntPoly.Set(a, k, N)` at the limb level: write `a mod N` into
slot 0 and commit; zero slots `1 .. k mod R` (committed writes of 0);
write `1` into slot `k mod R` and commit; then
`setCoefficientCount(k mod R + 1)`. -/
def arrSet (R k N a kk : ℕ) (s0 : LimbState) : LimbState :=
  let s1 := commitWrite s0 0 k (a % N)
  let s2 := (List.range' 1 (kk % R)).foldl (fun s i => commitWrite s i k 0) s1
  let s3 := commitWrite s2 (kk % R) k 1
  ⟨normLen s3.arr ((kk % R + 1) * k), s3.arr⟩

/-- One iteration of `mul`'s mod-`N` loop: read slot `i`; if the
coefficient is ≥ N, reduce it mod N (`QuoRem` + `c.Set` + commit);
track 1 + the index of the last nonzero coefficient. -/
def modNStep (N k : ℕ) (acc : LimbState × ℕ) (i : ℕ) : LimbState × ℕ :=
  let c := slotVal acc.1 i k
  let cr := if N ≤ c then c % N else c
  let s' := if N ≤ c then commitWrite acc.1 i k (c % N) else acc.1
  (s', if cr ≠ 0 then i + 1 else acc.2)

/-- `bigIntPoly.mul` at the limb level, up to (but not including) the
final `setCoefficientCount`: the big product (with junk `g1` above),
the fold at limb `R·k` realizing `X^R ≡ 1` (junk `g2`), the clearing
of the partial leading slot, the leading-coefficient commit, and the
mod-`N` loop.  Returns the state and `newCoefficientCount`.  (`tmp` is
scratch and does not affect `p`; aliasing `q = p` is value-level
only.) -/
def arrMulBody (R k N : ℕ) (sp sq : LimbState) (g1 g2 : ℕ → ℕ) :
    LimbState × ℕ :=
  let s1 := bigStore (limbVal sp * limbVal sq) g1
  let mid := R * k
  let s2 := if mid < s1.len
    then bigStore (partVal s1 0 mid + partVal s1 mid s1.len) g2
    else s1
  let s3 := if s2.len % k ≠ 0
    then clearRange s2 s2.len (s2.len + (k - s2.len % k))
    else s2
  let occ := lenCC k s3.len
  let s4 := if 0 < occ
    then clearRange s3 ((occ - 1) * k + slotLen s3 (occ - 1) k) (occ * k)
    else s3
  (List.range occ).foldl (modNStep N k) (s4, 0)

/-- `bigIntPoly.mul`: the body followed by
`setCoefficientCount(newCoefficientCount)`. -/
def arrMul (R k N : ℕ) (sp sq : LimbState) (g1 g2 : ℕ → ℕ) : LimbState :=
  ⟨normLen (arrMulBody R k N sp sq g1 g2).1.arr
      ((arrMulBody R k N sp sq g1 g2).2 * k),
    (arrMulBody R k N sp sq g1 g2).1.arr⟩

/-- `bigIntPoly.Pow`'s square-and-multiply loop at the limb level, one
pair of garbage functions per `mul` call. -/
def arrPowLoop (R k N : ℕ) (sp : LimbState) (G1 G2 G3 G4 : ℕ → ℕ → ℕ) :
    ℕ → LimbState → LimbState
  | 0, acc => acc
  | i + 1, acc =>
    let acc1 := arrMul R k N acc acc (G1 i) (G2 i)
    let acc2 := if natBit N i then arrMul R k N acc1 sp (G3 i) (G4 i)
      else acc1
    arrPowLoop R k N sp G1 G2 G3 G4 i acc2

/-- `bigIntPoly.Pow`: `tmp1.phi.Set(&p.phi)` (a `big.Int` store of
`p`'s value, junk `g0` above), the loop over the bits of `N` below the
top bit, and the final swap into `p`. -/
def arrPow (R k N : ℕ) (sp : LimbState) (g0 : ℕ → ℕ)
    (G1 G2 G3 G4 : ℕ → ℕ → ℕ) : LimbState :=
  arrPowLoop R k N sp G1 G2 G3 G4 (bitLen N - 1) (bigStore (limbVal sp) g0)

lemma normLen_le (a : ℕ → ℕ) : ∀ m, normLen a m ≤ m := by
  intro m
  induction m with
  | zero => exact le_rfl
  | succ m ih =>
    by_cases h : a m = 0
    · simp only [normLen, if_pos h]
      omega
    · simp only [normLen, if_neg h]
      omega

/-- Normalization trims exactly zero limbs: everything between the
normalized length and the truncation point is zero. -/
lemma normLen_zero_above (a : ℕ → ℕ) :
    ∀ m j, normLen a m ≤ j → j < m → a j = 0 := by
  intro m
  induction m with
  | zero => omega
  | succ m ih =>
    intro j h1 h2
    by_cases h : a m = 0
    · rw [normLen, if_pos h] at h1
      by_cases hj : j = m
      · rw [hj]
        exact h
      · exact ih j h1 (by omega)
    · rw [normLen, if_neg h] at h1
      omega

/-- The leading coefficient's slot of a length `≤ c·k` ends at or
before the limb `c·k`. -/
lemma lenCC_le (k l c : ℕ) (hk : 1 ≤ k) (h : l ≤ c * k) :
    lenCC k l * k ≤ c * k := by
  rw [lenCC]
  by_cases h0 : l = 0
  · simp [h0]
  · rw [if_neg h0]
    have e1 : l / k * k + l % k = l := by
      rw [Nat.mul_comm]
      exact Nat.div_add_mod l k
    by_cases hm : l % k = 0
    · rw [if_pos hm, add_zero]
      omega
    · rw [if_neg hm]
      have hqc : l / k + 1 ≤ c := by
        by_contra hc
        push_neg at hc
        have h2 : c * k ≤ l / k * k := Nat.mul_le_mul_right k (by omega)
        omega
      calc (l / k + 1) * k ≤ c * k := Nat.mul_le_mul_right k hqc

/-- A state produced by a `setCoefficientCount` (truncation at a slot
boundary followed by normalization) satisfies I3. -/
lemma I3_final (k c : ℕ) (hk : 1 ≤ k) (a : ℕ → ℕ) :
    LimbI3 k ⟨normLen a (c * k), a⟩ := by
  intro j h1 h2
  have h1' : normLen a (c * k) ≤ j := h1
  have h2' : j < lenCC k (normLen a (c * k)) * k := h2
  have hle : normLen a (c * k) ≤ c * k := normLen_le a (c * k)
  have hcc := lenCC_le k (normLen a (c * k)) c hk hle
  exact normLen_zero_above a (c * k) j h1' (by omega)

lemma arrSet_I3 (R k N a kk : ℕ) (hk : 1 ≤ k) (s0 : LimbState) :
    LimbI3 k (arrSet R k N a kk s0) :=
  I3_final k (kk % R + 1) hk _

lemma arrMul_I3 (R k N : ℕ) (hk : 1 ≤ k) (sp sq : LimbState)
    (g1 g2 : ℕ → ℕ) : LimbI3 k (arrMul R k N sp sq g1 g2) :=
  I3_final k (arrMulBody R k N sp sq g1 g2).2 hk _

lemma arrPowLoop_I3 (R k N : ℕ) (hk : 1 ≤ k) (sp : LimbState)
    (G1 G2 G3 G4 : ℕ → ℕ → ℕ) :
    ∀ fuel, 1 ≤ fuel → ∀ acc,
      LimbI3 k (arrPowLoop R k N sp G1 G2 G3 G4 fuel acc) := by
  intro fuel
  induction fuel with
  | zero => omega
  | succ fuel ih =>
    intro _ acc
    show LimbI3 k (arrPowLoop R k N sp G1 G2 G3 G4 fuel _)
    rcases Nat.eq_zero_or_pos fuel with hf | hf
    · rw [hf]
      show LimbI3 k (if natBit N 0 then _ else _)
      by_cases hb : natBit N 0 = true
      · rw [if_pos hb]
        exact arrMul_I3 R k N hk _ _ _ _
      · rw [if_neg hb]
        exact arrMul_I3 R k N hk _ _ _ _
    · exact ih (by omega) _

lemma two_le_bitLen (N : ℕ) (hN : 2 ≤ N) : 2 ≤ bitLen N := by
  by_contra h
  push_neg at h
  have h1 := lt_two_pow_bitLen N
  have h2 : (2 : ℕ) ^ bitLen N ≤ 2 ^ 1 :=
    Nat.pow_le_pow_right (by omega) (by omega)
  omega

lemma arrPow_I3 (R k N : ℕ) (hk : 1 ≤ k) (hN : 2 ≤ N) (sp : LimbState)
    (g0 : ℕ → ℕ) (G1 G2 G3 G4 : ℕ → ℕ → ℕ) :
    LimbI3 k (arrPow R k N sp g0 G1 G2 G3 G4) := by
  have h2 := two_le_bitLen N hN
  exact arrPowLoop_I3 R k N hk sp G1 G2 G3 G4 (bitLen N - 1) (by omega) _

/-- C4: invariant I3 — after each of `Set`, `mul` and `Pow` (the
latter for the `N ≥ 2` moduli `Pow` is called with), the limbs of the
backing array in the leading coefficient's `k`-limb slot above the
limbs actually used by that coefficient are zero, for EVERY initial
array state `s0` and every choice of the junk the `big.Int` operations
leave in the spare capacity (`g0, g1, g2, G1..G4`).  Each public
operation ends with `setCoefficientCount`, whose truncation at the
slot boundary and normalization (which trims only zero limbs)
establish the invariant regardless of the prior spare contents. -/
theorem C4_unused_limbs_zero (R k N a kk : ℕ) (hk : 1 ≤ k)
    (s0 sp sq : LimbState) (g0 g1 g2 : ℕ → ℕ) (G1 G2 G3 G4 : ℕ → ℕ → ℕ) :
    LimbI3 k (arrSet R k N a kk s0) ∧
    LimbI3 k (arrMul R k N sp sq g1 g2) ∧
    (2 ≤ N → LimbI3 k (arrPow R k N sp g0 G1 G2 G3 G4)) :=
  ⟨arrSet_I3 R k N a kk hk s0, arrMul_I3 R k N hk sp sq g1 g2,
    fun hN => arrPow_I3 R k N hk hN sp g0 G1 G2 G3 G4⟩

/-- C4 witness: a concrete instantiation with nonzero garbage
everywhere (`g ≡ 37`), `N = 3`, `R = 2`, `k = 1`. -/
theorem C4_unused_limbs_zero_witness :
    1 ≤ 1 ∧
    (LimbI3 1 (arrSet 2 1 3 2 1 ⟨5, fun _ => 37⟩) ∧
     LimbI3 1 (arrMul 2 1 3 ⟨1, fun _ => 37⟩ ⟨1, fun _ => 37⟩
       (fun _ => 37) (fun _ => 37)) ∧
     (2 ≤ 3 → LimbI3 1 (arrPow 2 1 3 ⟨1, fun _ => 37⟩ (fun _ => 37)
       (fun _ _ => 37) (fun _ _ => 37) (fun _ _ => 37) (fun _ _ => 37)))) :=
  ⟨le_rfl, C4_unused_limbs_zero 2 1 3 2 1 (by omega) ⟨5, fun _ => 37⟩
    ⟨1, fun _ => 37⟩ ⟨1, fun _ => 37⟩ (fun _ => 37) (fun _ => 37)
    (fun _ => 37) (fun _ _ => 37) (fun _ _ => 37) (fun _ _ => 37)
    (fun _ _ => 37)⟩

/-! ## Multiplicative order and `CalculateAKSModulus` (C8)

`calculateMultiplicativeOrderPrimePower(a, p, k)` computes the order
of `a` mod `p^k` by, for each prime-power factor `q^e` of
`t = φ(p^k)`, finding the `q`-part of the order with a repeated-`q`th-
power loop; `calculateMultiplicativeOrder(a, n)` takes the lcm over
the prime-power factors of `n`.  `CalculateAKSModulus(n)` searches
`r = L² + 2, L² + 3, …` (`L = n.BitLen()`) for the first `r` coprime
to `n` with order of `n` mod `r` exceeding `L²`, panicking (modelled
as `none`) at the polylog upper bound. -/

def powMod (a e m : ℕ) : ℕ := a ^ e % m

/-- The inner loop of `processPrimeFactor`: while `x ≠ 1`,
`o ← o·q`, `x ← x^q mod m`.  The Go loop needs no fuel under the
function's stated assumptions (it runs at most `e` times); the fuel
`e + 1` used at the call site is proven sufficient. -/
def ordPPFactorLoop (m q : ℕ) : ℕ → ℕ → ℕ → ℕ
  | 0, _, o => o
  | fuel + 1, x, o =>
    if x = 1 then o else ordPPFactorLoop m q fuel (x ^ q % m) (o * q)

/-- `processPrimeFactor(q, e)`: start from `x = a^(t/q^e) mod m`. -/
def processPrimeFactorPP (a m t o q e : ℕ) : ℕ :=
  ordPPFactorLoop m q (e + 1) (powMod a (t / q ^ e) m) o

/-- `calculateEulerPhiPrimePower`. -/
def eulerPhiPrimePower (p k : ℕ) : ℕ := p ^ (k - 1) * (p - 1)

/-- `calculateMultiplicativeOrderPrimePower(a, p, k)`: process the
factor `(p, k-1)` when `k > 1`, then the factorization of `p - 1` via
`trialDivide` (full bound, callback always continues), threading the
accumulated order `o`. -/
def ordPP (a p k : ℕ) : ℕ :=
  (trialDivide
    (fun o q e =>
      (processPrimeFactorPP a (p ^ k) (eulerPhiPrimePower p k) o q e, true))
    (p - 1) none
    (if 1 < k
      then processPrimeFactorPP a (p ^ k) (eulerPhiPrimePower p k) 1 p (k - 1)
      else 1)).s

/-- `calculateMultiplicativeOrder(a, n)`:
`o ← (o / gcd(o, oq)) · oq` over the prime-power factors `q^e` of
`n`. -/
def ordM (a n : ℕ) : ℕ :=
  (trialDivide
    (fun o q e => (o / Nat.gcd o (ordPP a q e) * ordPP a q e, true))
    n none 1).s

/-- `calculateAKSModulusUpperBound`. -/
def aksModUB (n : ℕ) : ℕ :=
  let ub := max (bitLen n ^ 5) 3
  if n % 8 = 3 ∨ n % 8 = 5 then min ub (8 * bitLen n ^ 2) else ub

/-- The search loop of `CalculateAKSModulus`; `none` models the
`panic` on reaching the upper bound (fuel `aksModUB n` at the call
site covers every iteration of the Go loop). -/
def aksModLoop (n T : ℕ) : ℕ → ℕ → Option ℕ
  | 0, _ => none
  | fuel + 1, r =>
    if r < aksModUB n then
      if Nat.gcd n r ≠ 1 then aksModLoop n T fuel (r + 1)
      else if T < ordM n r then some r
      else aksModLoop n T fuel (r + 1)
    else none

def CalculateAKSModulusE (n : ℕ) : Option ℕ :=
  aksModLoop n (bitLen n * bitLen n) (aksModUB n)
    (bitLen n * bitLen n + 2)

/-- A callback that always continues turns `runCallback` into a plain
left fold over the whole list. -/
lemma runCallback_true {σ : Type} (f : σ → ℕ → ℕ → σ × Bool)
    (hf : ∀ s p m, (f s p m).2 = true) :
    ∀ l (s : σ), runCallback f s l =
      (l.foldl (fun s pr => (f s pr.1 pr.2).1) s, l) := by
  intro l
  induction l with
  | nil => intro s; rfl
  | cons pr rest ih =>
    intro s
    obtain ⟨p, m⟩ := pr
    rw [runCallback]
    simp only [hf, if_true, ih]
    rfl

/-- For an always-continuing callback, the final state of
`trialDivide` (default bound) is the fold of the callback over the
factorization. -/
lemma trialDivide_foldl {σ : Type} (f : σ → ℕ → ℕ → σ × Bool)
    (hf : ∀ s p m, (f s p m).2 = true) (n : ℕ) (s0 : σ) :
    (trialDivide f n none s0).s =
      (factorPairs n).foldl (fun s pr => (f s pr.1 pr.2).1) s0 := by
  obtain ⟨_, hs⟩ := trialDivide_run f n s0
  rw [hs, runCallback_true f hf]

/-- The multiplicity delivered for each prime is its full
multiplicity in `t`. -/
lemma factorPairs_factorization : ∀ t, ∀ pr ∈ factorPairs t,
    t.factorization pr.1 = pr.2 := by
  intro t
  induction t using Nat.strong_induction_on with
  | _ t ih =>
    intro pr hpr
    by_cases h2 : 2 ≤ t
    · obtain ⟨ht1, htlt, hm, heq, hnd⟩ := minFac_divLoop t h2
      have hqp : t.minFac.Prime := Nat.minFac_prime (by omega)
      have hq0 : t.minFac ≠ 0 := by
        have := hqp.two_le
        omega
      have hfact : t.factorization =
          (divLoop t t t.minFac).1.factorization +
            (divLoop t t t.minFac).2 • t.minFac.factorization := by
        conv_lhs => rw [heq]
        rw [Nat.factorization_mul (by omega) (pow_ne_zero _ hq0),
          Nat.factorization_pow]
      rw [factorPairs_unfold t h2] at hpr
      rcases List.mem_cons.mp hpr with hpr | hpr
      · rw [hpr]
        show t.factorization t.minFac = (divLoop t t t.minFac).2
        rw [hfact]
        simp only [Finsupp.add_apply, Finsupp.smul_apply, smul_eq_mul]
        rw [Nat.factorization_eq_zero_of_not_dvd hnd, hqp.factorization]
        simp [Finsupp.single_apply]
      · obtain ⟨hp', hm', hdvd'⟩ :=
          factorPairs_mem (divLoop t t t.minFac).1 pr hpr
        have hne : t.minFac ≠ pr.1 := by
          have := minFac_quot_gt t h2 pr.1 hp' hdvd'
          omega
        have hih := ih _ htlt pr hpr
        show t.factorization pr.1 = pr.2
        rw [hfact]
        simp only [Finsupp.add_apply, Finsupp.smul_apply, smul_eq_mul]
        rw [hqp.factorization]
        simp only [Finsupp.single_apply, if_neg hne, Nat.mul_zero, add_zero]
        exact hih
    · rw [factorPairs_small t (by omega)] at hpr
      simp at hpr

/-! ### The `q`-part loop -/

lemma powMod_val (m a u : ℕ) [NeZero m] :
    powMod a u m = (((a : ZMod m)) ^ u).val := by
  rw [powMod, ← Nat.cast_pow, ZMod.val_natCast]

lemma val_pow_step (m : ℕ) [NeZero m] (y : ZMod m) (q : ℕ) :
    y.val ^ q % m = (y ^ q).val := by
  have h : (((y.val ^ q : ℕ)) : ZMod m) = y ^ q := by
    push_cast
    rw [ZMod.natCast_val, ZMod.cast_id]
  rw [← h, ZMod.val_natCast]

lemma val_eq_one_iff (m : ℕ) [NeZero m] (hm : 2 ≤ m) (y : ZMod m) :
    y.val = 1 ↔ y = 1 := by
  haveI : Fact (1 < m) := ⟨by omega⟩
  constructor
  · intro h
    have : ((y.val : ℕ) : ZMod m) = y := by
      rw [ZMod.natCast_val, ZMod.cast_id]
    rw [← this, h]
    exact Nat.cast_one
  · intro h
    rw [h]
    exact ZMod.val_one m

/-- The repeated-`q`th-power loop, started at `x = a^(u·q^j)` with
accumulator `o₀·q^j`, returns `o₀·q^α` where `α` is the least
exponent with `a^(u·q^α) = 1` — provided the fuel covers `α`. -/
lemma ordPPFactorLoop_spec (m q u o0 α : ℕ) [NeZero m] (hm : 2 ≤ m)
    (a : ZMod m) (hα : a ^ (u * q ^ α) = 1)
    (hmin : ∀ j < α, a ^ (u * q ^ j) ≠ 1) :
    ∀ fuel j, j ≤ α → α ≤ fuel + j →
      ordPPFactorLoop m q fuel ((a ^ (u * q ^ j)).val) (o0 * q ^ j) =
        o0 * q ^ α := by
  intro fuel
  induction fuel with
  | zero =>
    intro j h1 h2
    have hj : j = α := by omega
    rw [hj, ordPPFactorLoop]
  | succ fuel ih =>
    intro j h1 h2
    by_cases hx : (a ^ (u * q ^ j)).val = 1
    · have hone : a ^ (u * q ^ j) = 1 := (val_eq_one_iff m hm _).mp hx
      have hj : j = α := by
        by_contra hne
        exact hmin j (by omega) hone
      rw [ordPPFactorLoop, if_pos hx, hj]
    · have hone : a ^ (u * q ^ j) ≠ 1 :=
        fun h => hx ((val_eq_one_iff m hm _).mpr h)
      have hj : j < α := by
        by_contra hge
        have : j = α := by omega
        exact hone (this ▸ hα)
      rw [ordPPFactorLoop, if_neg hx]
      have hstep : (a ^ (u * q ^ j)).val ^ q % m =
          (a ^ (u * q ^ (j + 1))).val := by
        rw [val_pow_step, ← pow_mul]
        congr 2
        rw [pow_succ, mul_assoc]
      rw [hstep, show o0 * q ^ j * q = o0 * q ^ (j + 1) by
        rw [pow_succ, mul_assoc]]
      exact ih (j + 1) (by omega) (by omega)

/-- `processPrimeFactor(q, e)` multiplies the accumulator by the
`q`-part `q^(v_q(d))` of the order `d` of `a` mod `m`, provided `e` is
the full multiplicity of `q` in `t` and `d ∣ t`. -/
lemma processPrimeFactor_correct (a m t o q e : ℕ) [NeZero m]
    (hm : 2 ≤ m) (hq : q.Prime) (ht0 : 0 < t)
    (hd0 : 0 < orderOf ((a : ZMod m)))
    (hdt : orderOf ((a : ZMod m)) ∣ t)
    (he : e = t.factorization q) :
    processPrimeFactorPP a m t o q e =
      o * q ^ ((orderOf ((a : ZMod m))).factorization q) := by
  set d := orderOf ((a : ZMod m)) with hd
  set α := d.factorization q with hα
  have hq2 := hq.two_le
  have hqu : ¬ q ∣ t / q ^ e := by
    rw [he]
    exact Nat.not_dvd_ordCompl hq (by omega)
  have htqu : q ^ e * (t / q ^ e) = t := by
    rw [he]
    exact Nat.ordProj_mul_ordCompl_eq_self t q
  have hαe : α ≤ e := by
    rw [hα, he]
    have hle := (Nat.factorization_le_iff_dvd (by omega) (by omega)).mpr hdt
    exact Finsupp.le_def.mp hle q
  have hdsplit : q ^ α * (d / q ^ α) = d := by
    rw [hα]
    exact Nat.ordProj_mul_ordCompl_eq_self d q
  have hqd' : ¬ q ∣ d / q ^ α := by
    rw [hα]
    exact Nat.not_dvd_ordCompl hq (by omega)
  have hαpow : ((a : ZMod m)) ^ (t / q ^ e * q ^ α) = 1 := by
    rw [← orderOf_dvd_iff_pow_eq_one, ← hd]
    have h1 : d / q ^ α ∣ t / q ^ e := by
      have h2 : d / q ^ α ∣ q ^ e * (t / q ^ e) := by
        rw [htqu]
        exact dvd_trans (Dvd.intro_left _ hdsplit) hdt
      have h3 : (d / q ^ α).Coprime (q ^ e) :=
        Nat.Coprime.pow_right e
          (Nat.coprime_comm.mp ((hq.coprime_iff_not_dvd).mpr hqd'))
      exact h3.dvd_of_dvd_mul_left h2
    calc d = q ^ α * (d / q ^ α) := hdsplit.symm
    _ ∣ q ^ α * (t / q ^ e) := mul_dvd_mul_left _ h1
    _ = t / q ^ e * q ^ α := mul_comm _ _
  have hminpow : ∀ j < α, ((a : ZMod m)) ^ (t / q ^ e * q ^ j) ≠ 1 := by
    intro j hj hone
    have hddvd : d ∣ t / q ^ e * q ^ j := by
      rw [hd]
      exact orderOf_dvd_iff_pow_eq_one.mpr hone
    have hqα : q ^ α ∣ t / q ^ e * q ^ j :=
      dvd_trans (Dvd.intro _ hdsplit) hddvd
    have hcop : (q ^ α).Coprime (t / q ^ e) :=
      Nat.Coprime.pow_left α ((hq.coprime_iff_not_dvd).mpr hqu)
    have h4 : q ^ α ∣ q ^ j := hcop.dvd_of_dvd_mul_left hqα
    have := (Nat.pow_dvd_pow_iff_le_right hq.one_lt).mp h4
    omega
  have hloop := ordPPFactorLoop_spec m q (t / q ^ e) o α hm ((a : ZMod m))
    hαpow hminpow (e + 1) 0 (by omega) (by omega)
  simp only [pow_zero, mul_one] at hloop
  rw [processPrimeFactorPP, powMod_val, hloop]

/-- Pointwise (applied) forms of the factorization lemmas. -/
lemma fact_mul_apply (x y r : ℕ) (hx : x ≠ 0) (hy : y ≠ 0) :
    (x * y).factorization r = x.factorization r + y.factorization r := by
  rw [Nat.factorization_mul hx hy]
  simp

lemma fact_pow_apply (x n r : ℕ) :
    (x ^ n).factorization r = n * x.factorization r := by
  rw [Nat.factorization_pow]
  simp

lemma fact_gcd_apply (x y r : ℕ) (hx : x ≠ 0) (hy : y ≠ 0) :
    (Nat.gcd x y).factorization r =
      min (x.factorization r) (y.factorization r) := by
  rw [Nat.factorization_gcd hx hy]
  simp [Finsupp.inf_apply]

lemma fact_prime_apply (q r : ℕ) (hq : q.Prime) :
    q.factorization r = if q = r then 1 else 0 := by
  rw [hq.factorization]
  simp [Finsupp.single_apply]

/-- The exponent of a prime in `d` is bounded by `d` itself. -/
lemma fact_le_self (d r : ℕ) (hd0 : 0 < d) (hr : r.Prime) :
    d.factorization r ≤ d := by
  have h1 : r ^ (d.factorization r) ∣ d := Nat.ordProj_dvd d r
  have h2 : r ^ (d.factorization r) ≤ d := Nat.le_of_dvd hd0 h1
  have h3 : d.factorization r < r ^ (d.factorization r) :=
    Nat.lt_pow_self hr.one_lt _
  omega

/-- Extending the `w`-part of `d` (`gcd d (w^d)`) by the full `q`-part
of `d` matches extending `w` by a full power of a new prime `q`. -/
lemma gcd_step (d q e w1 : ℕ) (hd0 : 0 < d) (hq : q.Prime)
    (hw1 : 0 < w1) (hnd : ¬ q ∣ w1) (he : 1 ≤ e) :
    q ^ (d.factorization q) * Nat.gcd d (w1 ^ d) =
      Nat.gcd d ((w1 * q ^ e) ^ d) := by
  have hq2 := hq.two_le
  have hg1 : 0 < Nat.gcd d (w1 ^ d) := Nat.gcd_pos_of_pos_left _ hd0
  apply Nat.eq_of_factorization_eq (by positivity) (by
    have : 0 < Nat.gcd d ((w1 * q ^ e) ^ d) := Nat.gcd_pos_of_pos_left _ hd0
    omega)
  intro r
  rw [fact_mul_apply _ _ r (pow_ne_zero _ (by omega)) (by omega),
    fact_gcd_apply _ _ r (by omega) (pow_ne_zero _ (by omega)),
    fact_gcd_apply _ _ r (by omega) (pow_ne_zero _ (by positivity)),
    fact_pow_apply, fact_pow_apply, fact_pow_apply,
    fact_mul_apply _ _ r (by omega) (pow_ne_zero _ (by omega)),
    fact_pow_apply, fact_prime_apply _ _ hq]
  by_cases hr : q = r
  · subst hr
    rw [Nat.factorization_eq_zero_of_not_dvd hnd]
    have h2 := fact_le_self d q hd0 hq
    have h4 : d.factorization q ≤ d * e := by nlinarith
    simp only [eq_self_iff_true, if_true, mul_one, Nat.mul_zero,
      Nat.add_zero, Nat.zero_add]
    omega
  · simp only [if_neg hr, Nat.mul_zero, Nat.add_zero]
    omega

/-- Folding `processPrimeFactor` over the factorization of `w`
multiplies the accumulator by the `w`-part of the order
(`gcd d (w^d)`), provided each prime of `w` has the same multiplicity
in `w` as in `t`. -/
lemma fold_process (a m t : ℕ) [NeZero m] (hm : 2 ≤ m) (ht0 : 0 < t)
    (hd0 : 0 < orderOf ((a : ZMod m)))
    (hdt : orderOf ((a : ZMod m)) ∣ t) :
    ∀ w, 0 < w →
      (∀ q : ℕ, q.Prime → q ∣ w →
        w.factorization q = t.factorization q) →
      ∀ o0, (factorPairs w).foldl
          (fun o pr => processPrimeFactorPP a m t o pr.1 pr.2) o0
        = o0 * Nat.gcd (orderOf ((a : ZMod m))) (w ^ orderOf ((a : ZMod m))) := by
  set d := orderOf ((a : ZMod m)) with hd
  intro w
  induction w using Nat.strong_induction_on with
  | _ w ih =>
    intro hw0 hmult o0
    by_cases h2 : 2 ≤ w
    · obtain ⟨h1', hlt, hmm, heq, hnd⟩ := minFac_divLoop w h2
      have hqp : w.minFac.Prime := Nat.minFac_prime (by omega)
      have hq0 : w.minFac ≠ 0 := by
        have := hqp.two_le
        omega
      have hwfact : w.factorization w.minFac = (divLoop w w w.minFac).2 :=
        factorPairs_factorization w _
          (by rw [factorPairs_unfold w h2]; exact List.mem_cons_self _ _)
      rw [factorPairs_unfold w h2, List.foldl_cons]
      have hstep : processPrimeFactorPP a m t o0 w.minFac
          (divLoop w w w.minFac).2 =
          o0 * w.minFac ^ (d.factorization w.minFac) := by
        rw [hd]
        exact processPrimeFactor_correct a m t o0 w.minFac _ hm hqp ht0
          (hd ▸ hd0) (hd ▸ hdt)
          (by rw [← hmult w.minFac hqp (Nat.minFac_dvd w), hwfact])
      rw [hstep]
      have hw1mult : ∀ q', q'.Prime → q' ∣ (divLoop w w w.minFac).1 →
          (divLoop w w w.minFac).1.factorization q' = t.factorization q' := by
        intro q' hq' hdvd'
        have hne : w.minFac ≠ q' := by
          have := minFac_quot_gt w h2 q' hq' hdvd'
          omega
        have hw : w.factorization q' =
            (divLoop w w w.minFac).1.factorization q' := by
          conv_lhs => rw [heq]
          rw [fact_mul_apply _ _ q' (by omega) (pow_ne_zero _ hq0),
            fact_pow_apply, fact_prime_apply _ _ hqp]
          simp [if_neg hne]
        have hw2 : w.factorization q' = t.factorization q' :=
          hmult q' hq' (hdvd'.trans ⟨w.minFac ^ (divLoop w w w.minFac).2, heq⟩)
        omega
      rw [ih _ hlt h1' hw1mult]
      rw [mul_assoc]
      congr 1
      rw [gcd_step d w.minFac (divLoop w w w.minFac).2 (divLoop w w w.minFac).1
        (hd ▸ hd0) hqp h1' hnd hmm, ← heq]
    · have hw1 : w = 1 := by omega
      rw [hw1, factorPairs_small 1 (by omega)]
      simp

/-- `calculateMultiplicativeOrderPrimePower` computes the order of
`a` modulo `p^k` (for prime `p`, `k ≥ 1`, `gcd(a, p^k) = 1`). -/
lemma ordPP_correct (a p k : ℕ) (hp : p.Prime) (hk : 1 ≤ k)
    (hcop : Nat.Coprime a (p ^ k)) :
    ordPP a p k = orderOf ((a : ZMod (p ^ k))) := by
  have hp2 := hp.two_le
  have hm2 : 2 ≤ p ^ k :=
    le_trans hp2 (Nat.le_self_pow (by omega) p)
  haveI : NeZero (p ^ k) := ⟨by omega⟩
  set d := orderOf ((a : ZMod (p ^ k))) with hd
  have hunit : IsUnit ((a : ZMod (p ^ k))) :=
    (ZMod.isUnit_iff_coprime a (p ^ k)).mpr hcop
  obtain ⟨u, hu⟩ := hunit
  have hd0 : 0 < d := by
    rw [hd, ← hu, orderOf_units]
    exact orderOf_pos u
  have hdtot : d ∣ Nat.totient (p ^ k) := by
    rw [hd, ← hu, orderOf_units, ← ZMod.card_units_eq_totient]
    exact orderOf_dvd_card
  have htt : eulerPhiPrimePower p k = p ^ (k - 1) * (p - 1) := rfl
  have ht0 : 0 < eulerPhiPrimePower p k := by
    rw [htt]
    have h1 : 1 ≤ p - 1 := by omega
    positivity
  have hdt : d ∣ eulerPhiPrimePower p k := by
    rw [htt, ← Nat.totient_prime_pow hp (show 0 < k by omega)]
    exact hdtot
  have hpd : ¬ p ∣ (p - 1) := by
    intro hdd
    have := Nat.le_of_dvd (by omega) hdd
    omega
  have htfacp : (eulerPhiPrimePower p k).factorization p = k - 1 := by
    rw [htt, fact_mul_apply _ _ p (pow_ne_zero _ (by omega)) (by omega),
      fact_pow_apply, fact_prime_apply _ _ hp,
      Nat.factorization_eq_zero_of_not_dvd hpd]
    simp
  have ho1 : (if 1 < k
      then processPrimeFactorPP a (p ^ k) (eulerPhiPrimePower p k) 1 p (k - 1)
      else 1) = p ^ (d.factorization p) := by
    by_cases hk1 : 1 < k
    · rw [if_pos hk1]
      rw [processPrimeFactor_correct a (p ^ k) (eulerPhiPrimePower p k) 1 p
        (k - 1) hm2 hp ht0 (hd ▸ hd0) (hd ▸ hdt) htfacp.symm, one_mul, hd]
    · rw [if_neg hk1]
      have hvp : d.factorization p = 0 := by
        apply Nat.factorization_eq_zero_of_not_dvd
        intro hdd
        have hk1' : k = 1 := by omega
        have hpt : p ∣ eulerPhiPrimePower p k := hdd.trans hdt
        rw [htt, hk1'] at hpt
        simp at hpt
        exact hpd hpt
      rw [hvp, pow_zero]
  have hmult : ∀ q, q.Prime → q ∣ (p - 1) →
      (p - 1).factorization q = (eulerPhiPrimePower p k).factorization q := by
    intro q hq' hdvd
    have hne : p ≠ q := by
      intro he'
      rw [← he'] at hdvd
      exact hpd hdvd
    conv_rhs => rw [htt]
    rw [fact_mul_apply _ _ q (pow_ne_zero _ (by omega)) (by omega),
      fact_pow_apply, fact_prime_apply _ _ hp]
    simp [if_neg hne]
  rw [ordPP, trialDivide_foldl _ (fun _ _ _ => rfl)]
  have hfold := fold_process a (p ^ k) (eulerPhiPrimePower p k) hm2 ht0
    (hd ▸ hd0) (hd ▸ hdt) (p - 1) (by omega) hmult
    (if 1 < k
      then processPrimeFactorPP a (p ^ k) (eulerPhiPrimePower p k) 1 p (k - 1)
      else 1)
  rw [show (factorPairs (p - 1)).foldl
      (fun s pr => ((fun o q e =>
        (processPrimeFactorPP a (p ^ k) (eulerPhiPrimePower p k) o q e,
          true)) s pr.1 pr.2).1)
      (if 1 < k
        then processPrimeFactorPP a (p ^ k) (eulerPhiPrimePower p k) 1 p (k - 1)
        else 1) =
    (factorPairs (p - 1)).foldl
      (fun o pr =>
        processPrimeFactorPP a (p ^ k) (eulerPhiPrimePower p k) o pr.1 pr.2)
      (if 1 < k
        then processPrimeFactorPP a (p ^ k) (eulerPhiPrimePower p k) 1 p (k - 1)
        else 1) from rfl, hfold, ho1, ← hd]
  -- p^{v_p(d)} · gcd d ((p-1)^d) = d
  have hone : 1 ≤ p - 1 := by omega
  apply Nat.eq_of_factorization_eq
    (by
      have : 0 < Nat.gcd d ((p - 1) ^ d) := Nat.gcd_pos_of_pos_left _ hd0
      positivity)
    (by omega)
  intro r
  rw [fact_mul_apply _ _ r (pow_ne_zero _ (by omega))
      (by
        have : 0 < Nat.gcd d ((p - 1) ^ d) := Nat.gcd_pos_of_pos_left _ hd0
        omega),
    fact_gcd_apply _ _ r (by omega) (pow_ne_zero _ (by omega)),
    fact_pow_apply, fact_pow_apply, fact_prime_apply _ _ hp]
  by_cases hr : p = r
  · subst hr
    rw [Nat.factorization_eq_zero_of_not_dvd hpd]
    simp only [eq_self_iff_true, if_true, mul_one, Nat.mul_zero,
      Nat.add_zero, Nat.zero_add]
    omega
  · simp only [if_neg hr, Nat.mul_zero, Nat.zero_add]
    by_cases hv : d.factorization r = 0
    · rw [hv]
      omega
    · have hrp : r.Prime := Nat.prime_of_mem_primeFactors
        (by
          rw [← Nat.support_factorization]
          exact Finsupp.mem_support_iff.mpr hv)
      have hrd : r ∣ d := Nat.dvd_of_mem_primeFactors
        (by
          rw [← Nat.support_factorization]
          exact Finsupp.mem_support_iff.mpr hv)
      have hrt : r ∣ eulerPhiPrimePower p k := hrd.trans hdt
      rw [htt] at hrt
      have hrp1 : r ∣ (p - 1) := by
        rcases (Nat.Prime.dvd_mul hrp).mp hrt with h | h
        · exact absurd (hrp.dvd_of_dvd_pow h) (by
            intro hrpp
            exact hr ((Nat.prime_dvd_prime_iff_eq hrp hp).mp hrpp).symm)
        · exact h
      have hv1 : 1 ≤ (p - 1).factorization r :=
        (hrp.factorization_pos_of_dvd (by omega) hrp1)
      have hvd : d.factorization r ≤ d := fact_le_self d r hd0 hrp
      have : d.factorization r ≤ d * (p - 1).factorization r := by nlinarith
      omega

/-- For `a ≥ 1`, `a^e ≡ 1 (mod w)` iff `w ∣ a^e - 1`. -/
lemma pow_natCast_eq_one_iff (w a e : ℕ) [NeZero w] (ha : 1 ≤ a) :
    ((a : ZMod w)) ^ e = 1 ↔ w ∣ a ^ e - 1 := by
  have hae : 1 ≤ a ^ e := Nat.one_le_pow e a (by omega)
  have h1 : ((a : ZMod w)) ^ e = ((a ^ e : ℕ) : ZMod w) := by
    push_cast
    rfl
  have h2 : (a ^ e : ℕ) = (a ^ e - 1) + 1 := by omega
  rw [h1, h2]
  push_cast
  constructor
  · intro h
    have h3 : ((a ^ e - 1 : ℕ) : ZMod w) = 0 :=
      add_right_cancel (h.trans (zero_add (1 : ZMod w)).symm)
    exact (ZMod.natCast_zmod_eq_zero_iff_dvd _ _).mp h3
  · intro h
    rw [(ZMod.natCast_zmod_eq_zero_iff_dvd _ _).mpr h, zero_add]

/-- CRT for orders: the order mod `m·n` of `a` is the lcm of the
orders mod `m` and mod `n`, for coprime `m`, `n`. -/
lemma orderOf_mul_coprime (a m n : ℕ) (ha1 : 1 ≤ a) (hm : 1 ≤ m)
    (hn : 1 ≤ n) (hmn : Nat.Coprime m n) :
    orderOf ((a : ZMod (m * n))) =
      Nat.lcm (orderOf ((a : ZMod m))) (orderOf ((a : ZMod n))) := by
  haveI : NeZero m := ⟨by omega⟩
  haveI : NeZero n := ⟨by omega⟩
  haveI : NeZero (m * n) := ⟨by positivity⟩
  have hiff : ∀ e, ((a : ZMod (m * n)))^e = 1 ↔
      ((a : ZMod m))^e = 1 ∧ ((a : ZMod n))^e = 1 := by
    intro e
    rw [pow_natCast_eq_one_iff _ _ _ ha1, pow_natCast_eq_one_iff _ _ _ ha1,
      pow_natCast_eq_one_iff _ _ _ ha1]
    constructor
    · intro h
      exact ⟨(Dvd.intro n rfl).trans h, (Dvd.intro_left m rfl).trans h⟩
    · intro h
      exact hmn.mul_dvd_of_dvd_of_dvd h.1 h.2
  apply Nat.dvd_antisymm
  · rw [orderOf_dvd_iff_pow_eq_one, hiff]
    exact ⟨orderOf_dvd_iff_pow_eq_one.mp (Nat.dvd_lcm_left _ _),
      orderOf_dvd_iff_pow_eq_one.mp (Nat.dvd_lcm_right _ _)⟩
  · apply Nat.lcm_dvd
    · exact orderOf_dvd_iff_pow_eq_one.mpr
        ((hiff _).mp (pow_orderOf_eq_one _)).1
    · exact orderOf_dvd_iff_pow_eq_one.mpr
        ((hiff _).mp (pow_orderOf_eq_one _)).2

/-- The Go update `o ← (o / gcd(o, oq))·oq` is the lcm. -/
lemma lcm_step_eq (o oq : ℕ) :
    o / Nat.gcd o oq * oq = Nat.lcm o oq := by
  rw [Nat.lcm]
  set g := Nat.gcd o oq with hgdef
  rcases Nat.eq_zero_or_pos g with hg | hg
  · obtain ⟨ho, hoq⟩ := Nat.gcd_eq_zero_iff.mp (hgdef ▸ hg)
    rw [ho, hoq, hg]
  · have hdvd : g ∣ o := by
      rw [hgdef]
      exact Nat.gcd_dvd_left o oq
    obtain ⟨c, hc⟩ := hdvd
    rw [hc, Nat.mul_div_cancel_left c hg, mul_assoc,
      Nat.mul_div_cancel_left _ hg]

/-- Folding the lcm update over the factorization of `w` yields
`lcm o₀ (order of a mod w)`. -/
lemma ordM_fold (a : ℕ) (ha1 : 1 ≤ a) :
    ∀ w, 0 < w → Nat.Coprime a w → ∀ o0,
      (factorPairs w).foldl
        (fun o pr => o / Nat.gcd o (ordPP a pr.1 pr.2) * ordPP a pr.1 pr.2)
        o0
      = Nat.lcm o0 (orderOf ((a : ZMod w))) := by
  intro w
  induction w using Nat.strong_induction_on with
  | _ w ih =>
    intro hw0 hcop o0
    by_cases h2 : 2 ≤ w
    · obtain ⟨h1', hlt, hmm, heq, hnd⟩ := minFac_divLoop w h2
      have hqp : w.minFac.Prime := Nat.minFac_prime (by omega)
      have hq2 := hqp.two_le
      have hdvd_qe : w.minFac ^ (divLoop w w w.minFac).2 ∣ w := by
        conv_rhs => rw [heq]
        exact dvd_mul_left _ _
      have hdvd_w1 : (divLoop w w w.minFac).1 ∣ w := by
        conv_rhs => rw [heq]
        exact dvd_mul_right _ _
      have hcop_qe : Nat.Coprime a
          (w.minFac ^ (divLoop w w w.minFac).2) :=
        Nat.Coprime.coprime_dvd_right hdvd_qe hcop
      rw [factorPairs_unfold w h2, List.foldl_cons,
        ordPP_correct a w.minFac _ hqp hmm hcop_qe, lcm_step_eq]
      have hcop1 : Nat.Coprime a (divLoop w w w.minFac).1 :=
        Nat.Coprime.coprime_dvd_right hdvd_w1 hcop
      rw [ih _ hlt h1' hcop1]
      have hcopw : Nat.Coprime (divLoop w w w.minFac).1
          (w.minFac ^ (divLoop w w w.minFac).2) :=
        Nat.Coprime.pow_right _
          (Nat.coprime_comm.mp ((hqp.coprime_iff_not_dvd).mpr hnd))
      have hcrt := orderOf_mul_coprime a (divLoop w w w.minFac).1
        (w.minFac ^ (divLoop w w w.minFac).2) ha1 h1'
        (Nat.one_le_pow _ _ (by omega)) hcopw
      have hOw : orderOf ((a : ZMod w)) =
          Nat.lcm (orderOf ((a : ZMod (divLoop w w w.minFac).1)))
            (orderOf ((a : ZMod (w.minFac ^ (divLoop w w w.minFac).2)))) := by
        conv_lhs => rw [heq]
        exact hcrt
      rw [hOw, Nat.lcm_assoc, Nat.lcm_comm
        (orderOf ((a : ZMod (w.minFac ^ (divLoop w w w.minFac).2))))]
    · have hw1 : w = 1 := by omega
      subst hw1
      rw [factorPairs_small 1 (by omega)]
      have hx : ((a : ZMod 1)) = 1 := Subsingleton.elim _ _
      rw [List.foldl_nil, hx, orderOf_one, Nat.lcm_one_right]

/-- `calculateMultiplicativeOrder` computes the order of `a` mod `r`
for coprime `a`, `r` with `r ≥ 2`. -/
lemma ordM_correct (a r : ℕ) (hr : 2 ≤ r) (hcop : Nat.Coprime a r) :
    ordM a r = orderOf ((a : ZMod r)) := by
  have ha1 : 1 ≤ a := by
    by_contra h
    have ha0 : a = 0 := by omega
    rw [ha0] at hcop
    have := Nat.coprime_zero_left r |>.mp hcop
    omega
  rw [ordM, trialDivide_foldl _ (fun _ _ _ => rfl)]
  rw [show (factorPairs r).foldl
      (fun s pr => ((fun o q e =>
        (o / Nat.gcd o (ordPP a q e) * ordPP a q e, true)) s pr.1 pr.2).1) 1 =
    (factorPairs r).foldl
      (fun o pr => o / Nat.gcd o (ordPP a pr.1 pr.2) * ordPP a pr.1 pr.2) 1
    from rfl]
  rw [ordM_fold a ha1 r (by omega) hcop 1, Nat.lcm_one_left]

/-- The search loop returns the first `r ≥ r₀` that is coprime to `n`
and has `ordM` above the threshold. -/
lemma aksModLoop_spec (n T : ℕ) : ∀ fuel r0 r,
    aksModLoop n T fuel r0 = some r →
    r0 ≤ r ∧ Nat.gcd n r = 1 ∧ T < ordM n r ∧
    ∀ r', r0 ≤ r' → r' < r → ¬(Nat.gcd n r' = 1 ∧ T < ordM n r') := by
  intro fuel
  induction fuel with
  | zero =>
    intro r0 r h
    exact absurd h (by rw [aksModLoop]; simp)
  | succ fuel ih =>
    intro r0 r h
    rw [aksModLoop] at h
    by_cases hub : r0 < aksModUB n
    · rw [if_pos hub] at h
      by_cases hg : Nat.gcd n r0 ≠ 1
      · rw [if_pos hg] at h
        obtain ⟨h1, h3, h4, h5⟩ := ih _ _ h
        refine ⟨by omega, h3, h4, fun r' hlo hhi => ?_⟩
        by_cases hr0 : r' = r0
        · rw [hr0]
          intro hc
          exact hg hc.1
        · exact h5 r' (by omega) hhi
      · rw [if_neg hg] at h
        push_neg at hg
        by_cases ho : T < ordM n r0
        · rw [if_pos ho] at h
          obtain rfl : r0 = r := Option.some.inj h
          exact ⟨le_rfl, hg, ho, fun r' hlo hhi hc => by omega⟩
        · rw [if_neg ho] at h
          obtain ⟨h1, h3, h4, h5⟩ := ih _ _ h
          refine ⟨by omega, h3, h4, fun r' hlo hhi => ?_⟩
          by_cases hr0 : r' = r0
          · rw [hr0]
            intro hc
            exact ho hc.2
          · exact h5 r' (by omega) hhi
    · rw [if_neg hub] at h
      exact absurd h (by simp)

/-- Any `r' ≤ T + 1` coprime to `n` has order at most `T` (the order
divides `φ(r') ≤ r' - 1`); this is why the search soundly starts at
`T + 2`. -/
lemma orderOf_le_of_coprime (n' r' T : ℕ) (hT : 1 ≤ T) (hr : r' ≤ T + 1)
    (hg : Nat.gcd n' r' = 1) (hn : 2 ≤ n') :
    orderOf ((n' : ZMod r')) ≤ T := by
  rcases Nat.lt_or_ge r' 2 with h2 | h2
  · rcases Nat.lt_or_ge r' 1 with h1 | h1
    · exfalso
      have hr0 : r' = 0 := by omega
      rw [hr0, Nat.gcd_zero_right] at hg
      omega
    · have hr1 : r' = 1 := by omega
      subst hr1
      have hx : ((n' : ZMod 1)) = 1 := Subsingleton.elim _ _
      rw [hx, orderOf_one]
      omega
  · haveI : NeZero r' := ⟨by omega⟩
    have hcop : Nat.Coprime n' r' := hg
    obtain ⟨u, hu⟩ := (ZMod.isUnit_iff_coprime n' r').mpr hcop
    have hdvd : orderOf ((n' : ZMod r')) ∣ Nat.totient r' := by
      rw [← hu, orderOf_units, ← ZMod.card_units_eq_totient]
      exact orderOf_dvd_card
    have htpos : 0 < Nat.totient r' := Nat.totient_pos.mpr (by omega)
    have hle := Nat.le_of_dvd htpos hdvd
    have := Nat.totient_lt r' (by omega)
    omega

/-- C8 (amended): the code's threshold is `T = n.BitLen()²`
(`= (⌊lg n⌋+1)²`, which exceeds `⌈lg n⌉²` when `n` is a power of
two).  Whenever `CalculateAKSModulus(n)` returns `r` (rather than
panicking at the upper bound), `r` is coprime to `n`, the
multiplicative order of `n` mod `r` exceeds `T`, and `r` is least with
this property: every smaller `r'` coprime to `n` has order at most
`T`.  In particular starting at `T + 2` and skipping `gcd(n, r) > 1`
is sound. -/
theorem C8_aks_modulus (n r : ℕ) (hn : 2 ≤ n)
    (h : CalculateAKSModulusE n = some r) :
    Nat.gcd n r = 1 ∧
    bitLen n * bitLen n < orderOf ((n : ZMod r)) ∧
    ∀ r' < r, Nat.gcd n r' = 1 →
      orderOf ((n : ZMod r')) ≤ bitLen n * bitLen n := by
  have hbl : 2 ≤ bitLen n := two_le_bitLen n hn
  rw [CalculateAKSModulusE] at h
  obtain ⟨h1, h3, h4, h5⟩ := aksModLoop_spec n (bitLen n * bitLen n)
    (aksModUB n) (bitLen n * bitLen n + 2) r h
  have hT4 : 4 ≤ bitLen n * bitLen n := by nlinarith
  have hr2 : 2 ≤ r := by omega
  refine ⟨h3, by rw [← ordM_correct n r hr2 h3]; exact h4,
    fun r' hlt hg => ?_⟩
  by_cases hrange : bitLen n * bitLen n + 2 ≤ r'
  · have hno := h5 r' hrange hlt
    have hno' : ¬ bitLen n * bitLen n < ordM n r' := fun hc => hno ⟨hg, hc⟩
    rw [← ordM_correct n r' (by omega) hg]
    omega
  · exact orderOf_le_of_coprime n r' (bitLen n * bitLen n) (by omega)
      (by omega) hg hn

lemma aksModUB_two : aksModUB 2 = 32 := by
  have hb2 : bitLen 2 = 2 := by decide
  rw [aksModUB, hb2]
  norm_num

lemma ordM_two_seven : ordM 2 7 = 3 := by
  rw [ordM_correct 2 7 (by omega) (by decide)]
  exact orderOf_eq_iff (by omega) |>.mpr ⟨by decide, by decide⟩

lemma ordM_two_nine : ordM 2 9 = 6 := by
  rw [ordM_correct 2 9 (by omega) (by decide)]
  exact orderOf_eq_iff (by omega) |>.mpr ⟨by decide, by decide⟩

/-- Concrete run: for `n = 2` the search uses `T = 4` (BitLen 2 = 2),
starts at 6, skips 6 and 8 (even), rejects 7 (order 3 ≤ 4), and
returns 9 (order 6 > 4). -/
lemma calcAKSModulus_two : CalculateAKSModulusE 2 = some 9 := by
  have hb2 : bitLen 2 = 2 := by decide
  rw [CalculateAKSModulusE, hb2]
  norm_num
  show aksModLoop 2 4 (aksModUB 2) 6 = some 9
  rw [aksModUB_two]
  rw [show (32 : ℕ) = 31 + 1 from rfl, aksModLoop, aksModUB_two,
    if_pos (by omega), if_pos (by decide)]
  rw [show (31 : ℕ) = 30 + 1 from rfl, aksModLoop, aksModUB_two,
    if_pos (by omega), if_neg (by decide), ordM_two_seven,
    if_neg (by omega)]
  rw [show (30 : ℕ) = 29 + 1 from rfl, aksModLoop, aksModUB_two,
    if_pos (by omega), if_pos (by decide)]
  rw [show (29 : ℕ) = 28 + 1 from rfl, aksModLoop, aksModUB_two,
    if_pos (by omega), if_neg (by decide), ordM_two_nine,
    if_pos (by omega)]

/-- C8 counterexample: for `n = 2` we have `⌈lg 2⌉ = 1`, and the
least `r` with `ord_r(2) > ⌈lg 2⌉² = 1` is `r = 3`
(`ord₃(2) = 2 > 1`); but the code returns 9, because it uses
`BitLen(2)² = 4` as the threshold.  So `CalculateAKSModulus` does not
return the least `r` with `ord_r(n) > ⌈lg n⌉²`. -/
theorem C8_counterexample :
    CalculateAKSModulusE 2 = some 9 ∧
    Nat.gcd 2 3 = 1 ∧ 1 * 1 < orderOf ((2 : ZMod 3)) ∧ (3 : ℕ) < 9 := by
  refine ⟨calcAKSModulus_two, by decide, ?_, by omega⟩
  have h3 : orderOf ((2 : ZMod 3)) = 2 :=
    orderOf_eq_iff (by omega) |>.mpr ⟨by decide, by decide⟩
  omega

/-- C8 witness: the amended theorem at `n = 2`, `r = 9`. -/
theorem C8_aks_modulus_witness :
    (2 ≤ 2 ∧ CalculateAKSModulusE 2 = some 9) ∧
    (Nat.gcd 2 9 = 1 ∧
     bitLen 2 * bitLen 2 < orderOf ((2 : ZMod 9)) ∧
     ∀ r' < 9, Nat.gcd 2 r' = 1 →
       orderOf ((2 : ZMod r')) ≤ bitLen 2 * bitLen 2) :=
  ⟨⟨le_rfl, calcAKSModulus_two⟩,
    C8_aks_modulus 2 9 (by omega) calcAKSModulus_two⟩

end AKS
